import Mathlib

/-!
# Verification of the SYKE dependency-graph core

Shallow embedding of the SYKE dependency-graph engine:
the graph store (`src/graph.ts`), the incremental updater
(`src/graph/incremental.ts`), the SCC engine (Tarjan + condensation + Kahn,
`src/graph/scc.ts`), the memoised impact cache (`src/graph/memo-cache.ts`),
the impact analyser (`src/tools/analyze-impact.ts`), the watcher event handler
(`src/watcher/file-cache.ts`) and the change-coupling miner
(`src/git/change-coupling.ts`).

Modelling conventions:
* File identifiers are `String`s, already in the normalised absolute form the
  code works with (`path.normalize` is the identity on them).
* A JavaScript `Map<string, T>` is an association list with unique keys kept
  in insertion order; `Map.set` on a present key updates in place, on an
  absent key appends.  A `Set<string>` is a duplicate-free list in insertion
  order.
* Filesystem and subprocess interaction (plugin `parseImports`, `git log`)
  is passed in as data: an update event carries the raw import list the
  plugin returned (`none` models "no plugin handles this extension"), the
  miner takes the parsed commit file lists.
* The `while` loops of the BFS traversals and of Kahn's algorithm are
  modelled with an explicit fuel that over-approximates the number of loop
  iterations the source can perform (each iteration pops one queue element,
  and the number of enqueues is bounded by the number of adjacency-list
  entries plus the number of nodes).
-/

namespace Syke

/-- JS `Map.get`: value of the first (unique) binding of `k`, if present. -/
def mapGet [BEq κ] (m : List (κ × α)) (k : κ) : Option α :=
  (m.find? (fun p => p.1 == k)).map Prod.snd

/-- JS `Map.has`. -/
def mapHas [BEq κ] (m : List (κ × α)) (k : κ) : Bool :=
  m.any (fun p => p.1 == k)

/-- JS `Map.set`: update in place when the key is present, append otherwise. -/
def mapSet [BEq κ] (m : List (κ × α)) (k : κ) (v : α) : List (κ × α) :=
  if m.any (fun p => p.1 == k) then
    m.map (fun p => if p.1 == k then (k, v) else p)
  else m ++ [(k, v)]

/-- JS `Map.delete`. -/
def mapDelete [BEq κ] (m : List (κ × α)) (k : κ) : List (κ × α) :=
  m.filter (fun p => p.1 != k)

/-- JS `list.indexOf(x)` followed by `splice(idx, 1)`: remove the first
occurrence of `x`, no-op when absent. -/
def removeFirst [BEq κ] : List κ → κ → List κ
  | [], _ => []
  | x :: xs, k => if x == k then xs else x :: removeFirst xs k

/-- JS `if (!list.includes(x)) list.push(x)` / `Set.add`. -/
def pushNew [BEq κ] (l : List κ) (x : κ) : List κ :=
  if l.contains x then l else l ++ [x]

-- ── SCC engine data model (src/graph/scc.ts) ──

/-- `CondensedNode` of `scc.ts`. -/
structure CondensedNode where
  index : Nat
  files : List String
  size : Nat
  isCyclic : Bool
deriving Repr, DecidableEq

/-- `CondensedDAG` of `scc.ts`: adjacency between SCC indices plus the
topological order. -/
structure CondensedDAG where
  nodes : List CondensedNode
  forward : List (Nat × List Nat)
  reverse : List (Nat × List Nat)
  topologicalOrder : List Nat
deriving Repr, DecidableEq

/-- `SCCResult` of `scc.ts`. -/
structure SCCResult where
  components : List (List String)
  nodeToComponent : List (String × Nat)
  condensed : CondensedDAG
deriving Repr, DecidableEq

/-- `DependencyGraph` of `src/graph.ts`.  The bookkeeping fields
(`projectRoot`, `languages`, `sourceDirs`, `sourceDir`) carry no graph
structure and are not needed by the verified claims; path-to-relative
conversion is passed to the analyser as a function parameter instead. -/
structure DependencyGraph where
  forward : List (String × List String)
  reverse : List (String × List String)
  files : List String
  scc : Option SCCResult
deriving Repr, DecidableEq

/-- Forward adjacency with the `|| []` default of the source. -/
def fwdList (g : DependencyGraph) (a : String) : List String :=
  (mapGet g.forward a).getD []

/-- Reverse adjacency with the `|| []` default of the source. -/
def revList (g : DependencyGraph) (b : String) : List String :=
  (mapGet g.reverse b).getD []

-- ── Kahn's topological sort (scc.ts lines 219-278) ──

/-- In-degree map of `topologicalSort`: every node starts at 0, then each
forward adjacency list adds its length to its source. -/
def initInDegree (dag : CondensedDAG) : List (Nat × Int) :=
  let base := (List.range dag.nodes.length).map (fun i => (i, (0 : Int)))
  dag.forward.foldl (fun m p => mapSet m p.1 (((mapGet m p.1).getD 0) + p.2.length)) base

/-- The `while (queue.length > 0)` loop of Kahn's algorithm.  Pops the queue
head into the order, decrements the in-degree of each reverse-neighbour and
enqueues those that reach exactly 0. -/
def kahnLoop (rev : List (Nat × List Nat)) :
    Nat → List Nat → List (Nat × Int) → List Nat → List Nat
  | 0, _, _, order => order
  | _ + 1, [], _, order => order
  | fuel + 1, current :: queue, deg, order =>
    let step := ((mapGet rev current).getD []).foldl
      (fun (acc : List (Nat × Int) × List Nat) dependent =>
        let newDegree := ((mapGet acc.1 dependent).getD 0) - 1
        (mapSet acc.1 dependent newDegree,
         if newDegree == 0 then acc.2 ++ [dependent] else acc.2))
      (deg, queue)
    kahnLoop rev fuel step.2 step.1 (order ++ [current])

/-- Fuel bound for `kahnLoop`: every iteration pops one queue element, every
node is enqueued at most once per in-degree decrement plus once initially, and
decrements are bounded by the total size of the reverse adjacency lists. -/
def kahnFuel (dag : CondensedDAG) : Nat :=
  dag.nodes.length + dag.reverse.foldl (fun n p => n + p.2.length) 0 + 1

/-- `topologicalSort` of `scc.ts`: Kahn's algorithm on the condensed DAG,
with the defensive fallback that appends any missing nodes. -/
def topologicalSort (dag : CondensedDAG) : List Nat :=
  let numNodes := dag.nodes.length
  if numNodes == 0 then []
  else
    let inDegree := initInDegree dag
    let queue := (inDegree.filter (fun p => p.2 == 0)).map Prod.fst
    let order := kahnLoop dag.reverse (kahnFuel dag) queue inDegree []
    if order.length == numNodes then order
    else order ++ (List.range numNodes).filter (fun i => !(order.contains i))

-- ── Graph condensation (scc.ts lines 145-207) ──

/-- `condenseGraph` of `scc.ts`: one node per SCC, deduplicated inter-SCC
edges (self-edges within one SCC skipped), and the topological order. -/
def condenseGraph (g : DependencyGraph) (components : List (List String))
    (nodeToComponent : List (String × Nat)) : CondensedDAG :=
  let numComponents := components.length
  let nodes : List CondensedNode := components.enum.map
    (fun p => { index := p.1, files := p.2, size := p.2.length,
                isCyclic := decide (p.2.length > 1) })
  let init : List (Nat × List Nat) := (List.range numComponents).map (fun i => (i, []))
  let step := g.forward.foldl
    (fun (acc : List (Nat × List Nat) × List (Nat × List Nat)) p =>
      match mapGet nodeToComponent p.1 with
      | none => acc
      | some srcSCC =>
        p.2.foldl (fun acc2 dep =>
          match mapGet nodeToComponent dep with
          | none => acc2
          | some dstSCC =>
            if srcSCC == dstSCC then acc2
            else (mapSet acc2.1 srcSCC (pushNew ((mapGet acc2.1 srcSCC).getD []) dstSCC),
                  mapSet acc2.2 dstSCC (pushNew ((mapGet acc2.2 dstSCC).getD []) srcSCC)))
          acc)
    (init, init)
  let dag0 : CondensedDAG :=
    { nodes := nodes, forward := step.1, reverse := step.2, topologicalOrder := [] }
  { dag0 with topologicalOrder := topologicalSort dag0 }

-- ── Tarjan's algorithm (scc.ts lines 51-136) ──

/-- State of the recursive `strongConnect`.  The stack has its top at the
head of the list. -/
structure TarjanState where
  indexCounter : Nat
  nodeIndex : List (String × Nat)
  nodeLowlink : List (String × Nat)
  onStack : List String
  stack : List String
  components : List (List String)
deriving Repr, DecidableEq

/-- The `do … while (w !== node)` pop of one strongly connected component:
pops stack elements into the component until (and including) `node`. -/
def popComponent : List String → String → List String → List String × List String
  | [], _, component => (component, [])
  | w :: rest, node, component =>
    if w == node then (component ++ [w], rest)
    else popComponent rest node (component ++ [w])

/-- `strongConnect` of `scc.ts`.  The recursion depth is bounded by the
number of not-yet-indexed files, so a fuel of `|files| + 1` is always
sufficient; lookups into `nodeIndex`/`nodeLowlink` use `.getD 0` for the
source's non-null assertions (the keys are always present when read). -/
def strongConnect (g : DependencyGraph) : Nat → String → TarjanState → TarjanState
  | 0, _, st => st
  | fuel + 1, node, st =>
    let st0 : TarjanState :=
      { indexCounter := st.indexCounter + 1,
        nodeIndex := mapSet st.nodeIndex node st.indexCounter,
        nodeLowlink := mapSet st.nodeLowlink node st.indexCounter,
        onStack := pushNew st.onStack node,
        stack := node :: st.stack,
        components := st.components }
    let st1 := ((mapGet g.forward node).getD []).foldl
      (fun acc succ =>
        if !(g.files.contains succ) then acc
        else if (mapGet acc.nodeIndex succ).isSome then
          if acc.onStack.contains succ then
            let low := min ((mapGet acc.nodeLowlink node).getD 0)
                           ((mapGet acc.nodeIndex succ).getD 0)
            { acc with nodeLowlink := mapSet acc.nodeLowlink node low }
          else acc
        else
          let acc2 := strongConnect g fuel succ acc
          let low := min ((mapGet acc2.nodeLowlink node).getD 0)
                         ((mapGet acc2.nodeLowlink succ).getD 0)
          { acc2 with nodeLowlink := mapSet acc2.nodeLowlink node low })
      st0
    if ((mapGet st1.nodeLowlink node).getD 0) == ((mapGet st1.nodeIndex node).getD 0) then
      let pc := popComponent st1.stack node []
      { st1 with components := st1.components ++ [pc.1],
                 stack := pc.2,
                 onStack := st1.onStack.filter (fun x => !(pc.1.contains x)) }
    else st1

/-- `computeSCC` of `scc.ts`: Tarjan over all files, file-to-component map,
then condensation. -/
def computeSCC (g : DependencyGraph) : SCCResult :=
  if g.files.isEmpty then
    { components := [], nodeToComponent := [],
      condensed := { nodes := [], forward := [], reverse := [], topologicalOrder := [] } }
  else
    let st0 : TarjanState :=
      { indexCounter := 0, nodeIndex := [], nodeLowlink := [],
        onStack := [], stack := [], components := [] }
    let st := g.files.foldl
      (fun acc file =>
        if (mapGet acc.nodeIndex file).isSome then acc
        else strongConnect g (g.files.length + 1) file acc)
      st0
    let nodeToComponent := st.components.enum.foldl
      (fun m p => p.2.foldl (fun m2 file => mapSet m2 file p.1) m) []
    { components := st.components,
      nodeToComponent := nodeToComponent,
      condensed := condenseGraph g st.components nodeToComponent }

-- ── Incremental updater (src/graph/incremental.ts) ──

/-- `IncrementalUpdateResult` of `incremental.ts`. -/
structure IncrementalUpdateResult where
  updatedFile : String
  addedEdges : List (String × String)
  removedEdges : List (String × String)
  edgesChanged : Bool
  affectedFiles : List String
deriving Repr, DecidableEq

/-- The no-change result returned when no plugin handles the file or the
file is absent from the graph. -/
def emptyResult (f : String) : IncrementalUpdateResult :=
  { updatedFile := f, addedEdges := [], removedEdges := [],
    edgesChanged := false, affectedFiles := [] }

/-- The queue-based reverse-transitive-closure walk of
`computeAffectedFiles`.  State: queue, then the `affected` set (insertion
order). -/
def bfsReverse (rev : List (String × List String)) :
    Nat → List String → List String → List String
  | 0, _, affected => affected
  | _ + 1, [], affected => affected
  | fuel + 1, current :: queue, affected =>
    let step := ((mapGet rev current).getD []).foldl
      (fun (acc : List String × List String) dep =>
        if acc.1.contains dep then acc else (acc.1 ++ [dep], acc.2 ++ [dep]))
      (affected, queue)
    bfsReverse rev fuel step.2 step.1

/-- Fuel bound for the reverse BFS: each iteration pops one queue element
and every enqueued element is distinct, hence bounded by the number of
reverse-adjacency entries plus the start node. -/
def bfsFuel (g : DependencyGraph) : Nat :=
  g.files.length + g.reverse.foldl (fun n p => n + p.2.length) 0 + 1

/-- `computeAffectedFiles` of `incremental.ts`: the reverse transitive
closure of `filePath`, including `filePath` itself. -/
def computeAffectedFiles (filePath : String) (g : DependencyGraph) : List String :=
  bfsReverse g.reverse (bfsFuel g) [filePath] [filePath]

/-- `recomputeGraphMetrics` of `incremental.ts`: re-attach a fresh SCC
result (the PageRank part was moved server-side and only logs). -/
def recomputeGraphMetrics (g : DependencyGraph) : DependencyGraph :=
  { g with scc := some (computeSCC g) }

/-- The loop `for ([, dep] of removedEdges) { splice this file out of
Reverse[dep] }` (incremental.ts lines 96-104, also reused for the two
removal loops of `removeFileFromGraph`): remove the first occurrence of `v`
from the list stored at each of `ts`. -/
def removeEdgeTargets (m : List (String × List String)) (v : String)
    (ts : List String) : List (String × List String) :=
  ts.foldl
    (fun acc t => match mapGet acc t with
      | some l => mapSet acc t (removeFirst l v)
      | none => acc)
    m

/-- The loop `for ([, dep] of addedEdges) { push this file onto Reverse[dep]
unless present }` (incremental.ts lines 107-116 and 187-197). -/
def addEdgeTargets (m : List (String × List String)) (v : String)
    (ts : List String) : List (String × List String) :=
  ts.foldl
    (fun acc t => match mapGet acc t with
      | some l => mapSet acc t (pushNew l v)
      | none => mapSet acc t [v])
    m

/-- Body of `updateGraphForFile` for a file already in the graph.  `raw` is
the plugin's `parseImports` result, `none` when no plugin handles the
extension. -/
def updateGraphCore (g : DependencyGraph) (f : String) (raw : Option (List String)) :
    DependencyGraph × IncrementalUpdateResult :=
  let oldDeps := (mapGet g.forward f).getD []
  match raw with
  | none => (g, emptyResult f)
  | some rawImports =>
    let newDeps := rawImports.filter (fun imp => g.files.contains imp)
    let addedTargets := newDeps.filter (fun dep => !(oldDeps.contains dep))
    let removedTargets := oldDeps.filter (fun dep => !(newDeps.contains dep))
    let addedEdges := addedTargets.map (fun dep => (f, dep))
    let removedEdges := removedTargets.map (fun dep => (f, dep))
    let edgesChanged := !addedEdges.isEmpty || !removedEdges.isEmpty
    let forward1 := mapSet g.forward f newDeps
    let reverse1 := removeEdgeTargets g.reverse f removedTargets
    let reverse2 := addEdgeTargets reverse1 f addedTargets
    let g1 : DependencyGraph := { g with forward := forward1, reverse := reverse2 }
    let affectedFiles := computeAffectedFiles f g1
    let g2 := if edgesChanged then recomputeGraphMetrics g1 else g1
    (g2, { updatedFile := f, addedEdges := addedEdges, removedEdges := removedEdges,
           edgesChanged := edgesChanged, affectedFiles := affectedFiles })

/-- Body of `addFileToGraph` for a file not yet in the graph. -/
def addFileCore (g : DependencyGraph) (f : String) (raw : Option (List String)) :
    DependencyGraph × IncrementalUpdateResult :=
  let files1 := pushNew g.files f
  let forward1 := mapSet g.forward f []
  let reverse1 := if mapHas g.reverse f then g.reverse else mapSet g.reverse f []
  let gA : DependencyGraph := { g with files := files1, forward := forward1, reverse := reverse1 }
  match raw with
  | none => (gA, emptyResult f)
  | some rawImports =>
    let newDeps := rawImports.filter (fun imp => files1.contains imp)
    let forward2 := mapSet forward1 f newDeps
    let addedEdges := newDeps.map (fun dep => (f, dep))
    let reverse2 := addEdgeTargets reverse1 f newDeps
    let edgesChanged := !addedEdges.isEmpty
    let g1 : DependencyGraph := { gA with forward := forward2, reverse := reverse2 }
    let affectedFiles := computeAffectedFiles f g1
    let g2 := if edgesChanged then recomputeGraphMetrics g1 else g1
    (g2, { updatedFile := f, addedEdges := addedEdges, removedEdges := [],
           edgesChanged := edgesChanged, affectedFiles := affectedFiles })

/-- `updateGraphForFile` of `incremental.ts` (dispatches to the add path
when the file is not in the graph). -/
def updateGraphForFile (g : DependencyGraph) (f : String) (raw : Option (List String)) :
    DependencyGraph × IncrementalUpdateResult :=
  if g.files.contains f then updateGraphCore g f raw else addFileCore g f raw

/-- `addFileToGraph` of `incremental.ts` (dispatches to the update path when
the file is already present). -/
def addFileToGraph (g : DependencyGraph) (f : String) (raw : Option (List String)) :
    DependencyGraph × IncrementalUpdateResult :=
  if g.files.contains f then updateGraphCore g f raw else addFileCore g f raw

/-- `removeFileFromGraph` of `incremental.ts`. -/
def removeFileFromGraph (g : DependencyGraph) (f : String) :
    DependencyGraph × IncrementalUpdateResult :=
  if !(g.files.contains f) then (g, emptyResult f)
  else
    let affectedFiles := computeAffectedFiles f g
    let forwardDeps := (mapGet g.forward f).getD []
    let removed1 := forwardDeps.map (fun dep => (f, dep))
    let reverse1 := removeEdgeTargets g.reverse f forwardDeps
    let reverseDeps := (mapGet reverse1 f).getD []
    let removed2 := reverseDeps.map (fun src => (src, f))
    let forward1 := removeEdgeTargets g.forward f reverseDeps
    let removedEdges := removed1 ++ removed2
    let g1 : DependencyGraph :=
      { g with forward := mapDelete forward1 f,
               reverse := mapDelete reverse1 f,
               files := g.files.filter (fun x => x != f) }
    let edgesChanged := !removedEdges.isEmpty
    let g2 := if edgesChanged then recomputeGraphMetrics g1 else g1
    (g2, { updatedFile := f, addedEdges := [], removedEdges := removedEdges,
           edgesChanged := edgesChanged, affectedFiles := affectedFiles })

-- ── Full graph build (src/graph.ts lines 22-105) ──

/-- The graph-building loops of `buildGraph` for one detected plugin and one
source directory (`sourceFiles` is the plugin's `discoverFiles` result and
`parse` its `parseImports`; the `maxFiles` free-tier cap is not engaged).
First pass registers files, second pass resolves imports, pushing into the
reverse lists without a duplicate guard exactly as the source does. -/
def buildGraphCore (sourceFiles : List String) (parse : String → List String) :
    DependencyGraph :=
  let files := sourceFiles.foldl pushNew []
  let forward0 := sourceFiles.foldl
    (fun fwd f => if mapHas fwd f then fwd else mapSet fwd f []) []
  let step := sourceFiles.foldl
    (fun (acc : List (String × List String) × List (String × List String)) f =>
      if !(files.contains f) then acc
      else
        let imports := parse f
        let inner := imports.foldl
          (fun (acc2 : List String × List (String × List String)) imp =>
            if !(files.contains imp) then acc2
            else (acc2.1 ++ [imp],
                  mapSet acc2.2 imp (((mapGet acc2.2 imp).getD []) ++ [f])))
          ([], acc.2)
        (mapSet acc.1 f inner.1, inner.2))
    (forward0, [])
  { forward := step.1, reverse := step.2, files := files, scc := none }

/-- `buildGraph` with the SCC result attached (graph.ts lines 93-95). -/
def buildGraphFull (sourceFiles : List String) (parse : String → List String) :
    DependencyGraph :=
  let g := buildGraphCore sourceFiles parse
  { g with scc := some (computeSCC g) }

-- ── Memo cache (src/graph/memo-cache.ts) ──

/-- `RiskLevel` of `analyze-impact.ts`. -/
inductive RiskLevel where
  | HIGH | MEDIUM | LOW | NONE
deriving Repr, DecidableEq

/-- `MemoEntry` of `memo-cache.ts`.  `cascadeLevels` is an optional map in
the source and is stored verbatim. -/
structure MemoEntry where
  impactSet : List String
  directCount : Nat
  transitiveCount : Nat
  riskLevel : RiskLevel
  cascadeLevels : Option (List (String × Nat))
  computedAt : Nat
deriving Repr, DecidableEq

/-- The closure state of `createMemoCache`: main map, LRU access order
(least recent first), reverse index (sets as duplicate-free lists), hit and
miss counters, and the capacity. -/
structure MemoCache where
  cache : List (String × MemoEntry)
  accessOrder : List String
  reverseIndex : List (String × List String)
  hits : Nat
  misses : Nat
  maxSize : Nat
deriving Repr, DecidableEq

/-- `touchKey`: move a key to the most-recently-used end. -/
def touchKey (c : MemoCache) (key : String) : MemoCache :=
  { c with accessOrder := removeFirst c.accessOrder key ++ [key] }

/-- Delete `key` from the reverse-index set of `file`, removing the set when
it becomes empty (memo-cache.ts lines 81-97). -/
def removeIndexKey (rIndex : List (String × List String)) (file key : String) :
    List (String × List String) :=
  match mapGet rIndex file with
  | none => rIndex
  | some keys =>
    let keys1 := removeFirst keys key
    if keys1.isEmpty then mapDelete rIndex file else mapSet rIndex file keys1

/-- `removeEntry` of `memo-cache.ts`. -/
def removeEntry (c : MemoCache) (key : String) : MemoCache :=
  match mapGet c.cache key with
  | none => c
  | some entry =>
    let r1 := entry.impactSet.foldl (fun r file => removeIndexKey r file key) c.reverseIndex
    let r2 := removeIndexKey r1 key key
    { c with cache := mapDelete c.cache key,
             reverseIndex := r2,
             accessOrder := removeFirst c.accessOrder key }

/-- The `while` loop of `evictLRU`; each iteration shifts the head of
`accessOrder`, so its length bounds the iteration count. -/
def evictAux : Nat → MemoCache → MemoCache
  | 0, c => c
  | fuel + 1, c =>
    if c.cache.length > c.maxSize && !c.accessOrder.isEmpty then
      match c.accessOrder with
      | [] => c
      | lruKey :: rest => evictAux fuel (removeEntry { c with accessOrder := rest } lruKey)
    else c

/-- `evictLRU` of `memo-cache.ts`. -/
def evictLRU (c : MemoCache) : MemoCache :=
  evictAux c.accessOrder.length c

/-- `addToReverseIndex` of `memo-cache.ts`. -/
def addToReverseIndex (rIndex : List (String × List String)) (file cacheKey : String) :
    List (String × List String) :=
  match mapGet rIndex file with
  | none => mapSet rIndex file [cacheKey]
  | some keys => mapSet rIndex file (pushNew keys cacheKey)

/-- `get` of the memo cache: bumps recency and the hit counter on a hit,
the miss counter otherwise. -/
def memoGet (c : MemoCache) (filePath : String) : Option MemoEntry × MemoCache :=
  match mapGet c.cache filePath with
  | some entry => (some entry, { touchKey c filePath with hits := c.hits + 1 })
  | none => (none, { c with misses := c.misses + 1 })

/-- `set` of the memo cache: replace any previous entry, index the key and
its impact set, then evict down to capacity. -/
def memoSet (c : MemoCache) (filePath : String) (entry : MemoEntry) : MemoCache :=
  let c1 := if (mapGet c.cache filePath).isSome then removeEntry c filePath else c
  let c2 := touchKey { c1 with cache := mapSet c1.cache filePath entry } filePath
  let r1 := entry.impactSet.foldl (fun r file => addToReverseIndex r file filePath) c2.reverseIndex
  let r2 := addToReverseIndex r1 filePath filePath
  evictLRU { c2 with reverseIndex := r2 }

/-- `invalidate` of the memo cache: collect the union of the reverse-index
sets of the affected files, remove those keys, return the count removed. -/
def memoInvalidate (c : MemoCache) (affectedFiles : List String) : Nat × MemoCache :=
  let keysToInvalidate := affectedFiles.foldl
    (fun acc file => ((mapGet c.reverseIndex file).getD []).foldl pushNew acc) []
  (keysToInvalidate.length, keysToInvalidate.foldl removeEntry c)

-- ── Impact analyser (src/tools/analyze-impact.ts) ──

/-- `classifyRisk` of `analyze-impact.ts`. -/
def classifyRisk (count : Nat) : RiskLevel :=
  if count ≥ 10 then .HIGH
  else if count ≥ 5 then .MEDIUM
  else if count ≥ 1 then .LOW
  else .NONE

/-- `ImpactResult` of `analyze-impact.ts`.  The optional git-coupling
enrichment (`coupledFiles`, attached only when `includeCoupling` is
requested and mined from the external `git log`) is not modelled. -/
structure ImpactResult where
  filePath : String
  relativePath : String
  riskLevel : RiskLevel
  directDependents : List String
  transitiveDependents : List String
  totalImpacted : Nat
  cascadeLevels : Option (List (String × Nat))
  circularCluster : Option (List String)
  sccCount : Option Nat
  cyclicSCCs : Option Nat
  fromCache : Option Bool
deriving Repr, DecidableEq

/-- The `while` loop of the plain reverse BFS in `analyzeImpactBFS`: state
is the queue and the visited set; a dependent equal to the queried file is
skipped. -/
def impactBfs (g : DependencyGraph) (normalized : String) :
    Nat → List String → List String → List String
  | 0, _, visited => visited
  | _ + 1, [], visited => visited
  | fuel + 1, current :: queue, visited =>
    let step := ((mapGet g.reverse current).getD []).foldl
      (fun (acc : List String × List String) dep =>
        if acc.1.contains dep || dep == normalized then acc
        else (acc.1 ++ [dep], acc.2 ++ [dep]))
      (visited, queue)
    impactBfs g normalized fuel step.2 step.1

/-- `analyzeImpactBFS` of `analyze-impact.ts` (no SCC data). `toRel` is
`path.relative(graph.sourceDir, ·)` with forward slashes. -/
def analyzeImpactBFS (normalized : String) (g : DependencyGraph)
    (toRel : String → String) : ImpactResult :=
  let directDependents := (mapGet g.reverse normalized).getD []
  let visited := impactBfs g normalized (bfsFuel g + directDependents.length + 1)
    directDependents (directDependents.foldl pushNew [])
  let totalImpacted := visited.length
  let transitiveDependents := visited.filter (fun f => !(directDependents.contains f))
  { filePath := normalized,
    relativePath := toRel normalized,
    riskLevel := classifyRisk totalImpacted,
    directDependents := directDependents.map toRel,
    transitiveDependents := transitiveDependents.map toRel,
    totalImpacted := totalImpacted,
    cascadeLevels := none, circularCluster := none,
    sccCount := none, cyclicSCCs := none, fromCache := none }

/-- The BFS over the condensed reverse edges in `analyzeImpactWithSCC`:
`visitedSCCs` maps SCC index to cascade level, insertion-ordered. -/
def sccLevelBfs (rev : List (Nat × List Nat)) :
    Nat → List (Nat × Nat) → List (Nat × Nat) → List (Nat × Nat)
  | 0, _, visitedSCCs => visitedSCCs
  | _ + 1, [], visitedSCCs => visitedSCCs
  | fuel + 1, (sccIdx, level) :: queue, visitedSCCs =>
    let step := ((mapGet rev sccIdx).getD []).foldl
      (fun (acc : List (Nat × Nat) × List (Nat × Nat)) depSCC =>
        if (mapGet acc.1 depSCC).isSome then acc
        else (acc.1 ++ [(depSCC, level + 1)], acc.2 ++ [(depSCC, level + 1)]))
      (visitedSCCs, queue)
    sccLevelBfs rev fuel step.2 step.1

/-- Placeholder node for the source's unchecked `condensed.nodes[sccIndex]`
indexing (always in range for SCC results the engine produces). -/
def defaultNode : CondensedNode :=
  { index := 0, files := [], size := 0, isCyclic := false }

/-- Fuel bound for `sccLevelBfs`. -/
def sccBfsFuel (dag : CondensedDAG) : Nat :=
  dag.nodes.length + dag.reverse.foldl (fun n p => n + p.2.length) 0 + 1

/-- `analyzeImpactWithSCC` of `analyze-impact.ts`. -/
def analyzeImpactWithSCC (normalized : String) (g : DependencyGraph)
    (scc : SCCResult) (toRel : String → String) : ImpactResult :=
  match mapGet scc.nodeToComponent normalized with
  | none => analyzeImpactBFS normalized g toRel
  | some sccIndex =>
    let condensed := scc.condensed
    let startNode := condensed.nodes.getD sccIndex defaultNode
    let circularCluster := if startNode.isCyclic
      then some ((startNode.files.filter (fun f => f != normalized)).map toRel)
      else none
    let visitedSCCs := sccLevelBfs condensed.reverse (sccBfsFuel condensed)
      [(sccIndex, 0)] [(sccIndex, 0)]
    let expand := visitedSCCs.foldl
      (fun (acc : List (String × Nat) × List String) p =>
        let node := condensed.nodes.getD p.1 defaultNode
        node.files.foldl
          (fun (acc2 : List (String × Nat) × List String) file =>
            if file == normalized then acc2
            else (mapSet acc2.1 file p.2, pushNew acc2.2 file))
          acc)
      ([], [])
    let cascadeLevels := expand.1
    let allImpactedFiles := expand.2
    let rawDirectDependents := (mapGet g.reverse normalized).getD []
    let baseSet := rawDirectDependents.foldl pushNew []
    let directSet := if startNode.isCyclic
      then startNode.files.foldl
        (fun s f => if f == normalized then s else pushNew s f) baseSet
      else baseSet
    let directDependents := allImpactedFiles.filter (fun f => directSet.contains f)
    let transitiveDependents := allImpactedFiles.filter (fun f => !(directSet.contains f))
    let totalImpacted := allImpactedFiles.length
    let relativeCascadeLevels := cascadeLevels.foldl
      (fun m p => mapSet m (toRel p.1) p.2) []
    { filePath := normalized,
      relativePath := toRel normalized,
      riskLevel := classifyRisk totalImpacted,
      directDependents := directDependents.map toRel,
      transitiveDependents := transitiveDependents.map toRel,
      totalImpacted := totalImpacted,
      cascadeLevels := some relativeCascadeLevels,
      circularCluster := circularCluster,
      sccCount := some condensed.nodes.length,
      cyclicSCCs := some ((condensed.nodes.filter (fun n => n.isCyclic)).length),
      fromCache := none }

/-- `analyzeImpact` of `analyze-impact.ts` without the optional coupling
enrichment.  `toRel` models `path.relative(graph.sourceDir, ·)` (with
forward slashes) and `toAbs` models
`path.normalize(path.join(graph.sourceDir, ·))`; `now` is `Date.now()`.
Returns the result together with the mutated memo cache. -/
def analyzeImpact (memo : MemoCache) (g : DependencyGraph) (filePath : String)
    (toRel toAbs : String → String) (now : Nat) : ImpactResult × MemoCache :=
  let normalized := filePath
  match memoGet memo normalized with
  | (some cached, memo1) =>
    let directDependents := ((mapGet g.reverse normalized).getD []).map toRel
    let transitiveDependents :=
      (cached.impactSet.map toRel).filter (fun rel => !(directDependents.contains rel))
    ({ filePath := normalized,
       relativePath := toRel normalized,
       riskLevel := cached.riskLevel,
       directDependents := directDependents,
       transitiveDependents := transitiveDependents,
       totalImpacted := cached.directCount + cached.transitiveCount,
       cascadeLevels := cached.cascadeLevels,
       circularCluster := none, sccCount := none, cyclicSCCs := none,
       fromCache := some true }, memo1)
  | (none, memo1) =>
    let result := match g.scc with
      | some scc => analyzeImpactWithSCC normalized g scc toRel
      | none => analyzeImpactBFS normalized g toRel
    let allImpactedAbsPaths :=
      (result.directDependents ++ result.transitiveDependents).map toAbs
    let memo2 := memoSet memo1 normalized
      { impactSet := allImpactedAbsPaths,
        directCount := result.directDependents.length,
        transitiveCount := result.transitiveDependents.length,
        riskLevel := result.riskLevel,
        cascadeLevels := result.cascadeLevels,
        computedAt := now }
    (result, memo2)

/-- Response of the dashboard's impact route (`src/web/server.ts` lines
551-560): a structured not-found error when the resolved file is absent
from the graph, otherwise the analyser's result. -/
inductive ImpactRouteResponse where
  | fileNotFound (message : String)
  | ok (result : ImpactResult)
deriving Repr, DecidableEq

/-- The impact route handler of `server.ts` (`resolved` is the output of
`resolveFilePath`, which is filesystem-dependent and passed in directly). -/
def impactRoute (memo : MemoCache) (g : DependencyGraph) (resolved : String)
    (toRel toAbs : String → String) (now : Nat) : ImpactRouteResponse × MemoCache :=
  if !(g.files.contains resolved) then
    (.fileNotFound ("File not found in graph: " ++ resolved), memo)
  else
    let r := analyzeImpact memo g resolved toRel toAbs now
    (.ok r.1, r.2)

-- ── Watcher event handling (src/watcher/file-cache.ts lines 147-218) ──

/-- The classified change type of a debounced watcher event. -/
inductive ChangeType where
  | modified | added | deleted
deriving Repr, DecidableEq

/-- What an emitted event is. -/
inductive EmissionKind where
  | change | graphUpdated
deriving Repr, DecidableEq

/-- One synchronous event emission together with the graph and memo-cache
state any listener observes at that moment (listeners run synchronously on
`EventEmitter.emit`). -/
structure Emission where
  kind : EmissionKind
  graphAtEmission : DependencyGraph
  memoAtEmission : MemoCache
deriving Repr, DecidableEq

/-- The graph-relevant tail of `FileCache.handleFileEvent` (after the
content cache has classified the event and produced the diff): emit the
`change` event, dispatch the incremental update, invalidate the memo cache
when edges changed, then emit `graph-updated`.  `raw` is the plugin's parse
result for the file as in the incremental updater. -/
def handleFileEvent (g : DependencyGraph) (memo : MemoCache) (type : ChangeType)
    (absPath : String) (raw : Option (List String)) :
    DependencyGraph × MemoCache × List Emission :=
  let changeEmission : Emission :=
    { kind := .change, graphAtEmission := g, memoAtEmission := memo }
  let updated := match type with
    | .modified => updateGraphForFile g absPath raw
    | .added => addFileToGraph g absPath raw
    | .deleted => removeFileFromGraph g absPath
  let result := updated.2
  let memo1 := if result.edgesChanged && !result.affectedFiles.isEmpty
    then (memoInvalidate memo result.affectedFiles).2
    else memo
  let graphUpdatedEmission : Emission :=
    { kind := .graphUpdated, graphAtEmission := updated.1, memoAtEmission := memo1 }
  (updated.1, memo1, [changeEmission, graphUpdatedEmission])

-- ── Change-coupling miner (src/git/change-coupling.ts) ──

/-- `ChangeCoupling` of `change-coupling.ts`; `confidence` is the exact
rational the floating-point division approximates. -/
structure ChangeCoupling where
  file1 : String
  file2 : String
  coChangeCount : Nat
  file1Changes : Nat
  file2Changes : Nat
  confidence : Rat
  support : Nat
deriving Repr, DecidableEq

/-- Lexicographic comparison of character lists: the order JS `<` uses on
strings (compared code unit by code unit; shorter prefix first). -/
def charListLt : List Char → List Char → Bool
  | [], [] => false
  | [], _ :: _ => true
  | _ :: _, [] => false
  | a :: as, b :: bs =>
    if a < b then true else if b < a then false else charListLt as bs

/-- JS string `<`, as `charListLt` on the underlying character lists. -/
def strLt (a b : String) : Bool :=
  charListLt a.data b.data

/-- `pairKey` of `change-coupling.ts`: the canonical (sorted) pair.  The
source encodes the pair as `a + "\0" + b`; since git paths never contain a
NUL byte the joined string is in bijection with the ordered pair modelled
here. -/
def pairKey (a b : String) : String × String :=
  if strLt a b then (a, b) else (b, a)

/-- The accumulators of `mineGitHistory`. -/
structure MiningState where
  fileChangeCount : List (String × Nat)
  pairCoChangeCount : List ((String × String) × Nat)
  totalCommitsAnalyzed : Nat
deriving Repr, DecidableEq

/-- The ordered index pairs `i < j` of the nested pair-counting loops. -/
def indexPairs : List α → List (α × α)
  | [] => []
  | x :: xs => xs.map (fun y => (x, y)) ++ indexPairs xs

/-- Processing of one commit in `mineGitHistory` (lines 211-242): filter to
source files, skip mega- and sub-2-file commits (counting single files),
accumulate per-file and per-pair counters.  `norm` is `normalizePath` and
`isSrc` the regex-based `isSourceFile` filter. -/
def processCommit (norm : String → String) (isSrc : String → Bool)
    (maxFilesPerCommit : Nat) (st : MiningState) (commitFiles : List String) :
    MiningState :=
  let filtered := (commitFiles.map norm).filter isSrc
  if filtered.length > maxFilesPerCommit || filtered.length < 2 then
    let st1 := match filtered with
      | [file] =>
        { st with fileChangeCount :=
            mapSet st.fileChangeCount file (((mapGet st.fileChangeCount file).getD 0) + 1) }
      | _ => st
    { st1 with totalCommitsAnalyzed := st1.totalCommitsAnalyzed + 1 }
  else
    let counts := filtered.foldl
      (fun m file => mapSet m file (((mapGet m file).getD 0) + 1))
      st.fileChangeCount
    let pairs := (indexPairs filtered).foldl
      (fun m p =>
        let key := pairKey p.1 p.2
        mapSet m key (((mapGet m key).getD 0) + 1))
      st.pairCoChangeCount
    { fileChangeCount := counts, pairCoChangeCount := pairs,
      totalCommitsAnalyzed := st.totalCommitsAnalyzed + 1 }

/-- The emission loop of `mineGitHistory` (lines 245-267): keep pairs with
enough support, compute the confidence, keep those above the confidence
threshold.  `mkRat coCount maxChanges` is the exact rational
`coCount / maxChanges` that the source's floating-point division
approximates (`Rat.mkRat_eq_div`). -/
def buildCouplings (st : MiningState) (minSupport : Nat) (minConfidence : Rat) :
    List ChangeCoupling :=
  st.pairCoChangeCount.foldl
    (fun acc p =>
      let coCount := p.2
      if coCount < minSupport then acc
      else
        let file1 := p.1.1
        let file2 := p.1.2
        let file1Changes := (mapGet st.fileChangeCount file1).getD 0
        let file2Changes := (mapGet st.fileChangeCount file2).getD 0
        let maxChanges := max file1Changes file2Changes
        let confidence : Rat := if maxChanges > 0 then mkRat coCount maxChanges else 0
        if confidence < minConfidence then acc
        else acc ++ [{ file1 := file1, file2 := file2, coChangeCount := coCount,
                       file1Changes := file1Changes, file2Changes := file2Changes,
                       confidence := confidence, support := coCount }])
    []

/-- The pure core of `mineGitHistory`: `commits` is the parsed `git log
--name-only` output (one file list per commit).  Returns the emitted
couplings (the final sort by descending confidence permutes the list and is
irrelevant to the per-coupling facts proved here) and the accumulator
state. -/
def mineCommits (commits : List (List String)) (norm : String → String)
    (isSrc : String → Bool) (minSupport : Nat) (minConfidence : Rat)
    (maxFilesPerCommit : Nat) : List ChangeCoupling × MiningState :=
  let st := commits.foldl (processCommit norm isSrc maxFilesPerCommit)
    { fileChangeCount := [], pairCoChangeCount := [], totalCommitsAnalyzed := 0 }
  (buildCouplings st minSupport minConfidence, st)

-- ── Invariants and well-formedness predicates ──

/-- The mutual-adjacency invariant: `b ∈ Forward[a] ⇔ a ∈ Reverse[b]`
(spec §3 and §8.1). -/
def mutualAdjacency (g : DependencyGraph) : Prop :=
  ∀ a b : String, b ∈ fwdList g a ↔ a ∈ revList g b

/-- The data-model well-formedness of a graph (spec §3): mutual adjacency,
duplicate-free adjacency lists, adjacency maps defined only on `Files`, and
forward targets inside `Files`. -/
structure WellFormedGraph (g : DependencyGraph) : Prop where
  mutual_adj : mutualAdjacency g
  fwd_nodup : ∀ a : String, (fwdList g a).Nodup
  rev_nodup : ∀ b : String, (revList g b).Nodup
  fwd_dom : ∀ a : String, a ∉ g.files → mapGet g.forward a = none
  rev_dom : ∀ b : String, b ∉ g.files → mapGet g.reverse b = none
  fwd_closed : ∀ a b : String, b ∈ fwdList g a → b ∈ g.files

-- ── Concrete instances used by the end-to-end scenarios ──

/-- The empty memo cache produced by `createMemoCache()` with the default
capacity of 500. -/
def emptyMemoCache : MemoCache :=
  { cache := [], accessOrder := [], reverseIndex := [], hits := 0, misses := 0, maxSize := 500 }

/-- A one-file graph with empty adjacency maps (the state right after the
file set is known but before any import resolves). -/
def exampleWfGraph : DependencyGraph :=
  { forward := [], reverse := [], files := ["a"], scc := none }

/-- The spec's scenario S2: files `x, y, z` with `x→y`, `y→z`, `z→x`, with
the SCC result attached as `buildGraph` leaves it. -/
def cycleGraphBase : DependencyGraph :=
  { forward := [("x", ["y"]), ("y", ["z"]), ("z", ["x"])],
    reverse := [("x", ["z"]), ("y", ["x"]), ("z", ["y"])],
    files := ["x", "y", "z"], scc := none }

/-- S2 with `scc` attached (as after `buildGraph` / `recomputeGraphMetrics`). -/
def cycleGraph : DependencyGraph :=
  { cycleGraphBase with scc := some (computeSCC cycleGraphBase) }

/-- The spec's scenario S1: files `a, b, c` with `a→b`, `b→c`. -/
def chainGraphBase : DependencyGraph :=
  { forward := [("a", ["b"]), ("b", ["c"]), ("c", [])],
    reverse := [("b", ["a"]), ("c", ["b"])],
    files := ["a", "b", "c"], scc := none }

/-- S1 with `scc` attached. -/
def chainGraph : DependencyGraph :=
  { chainGraphBase with scc := some (computeSCC chainGraphBase) }

/-- The graph `buildGraphCore` produces when `parseImports` reports
the import of `b` twice from `a` (for example two import statements
resolving to the same file): both the forward list of `a` and the reverse
list of `b` hold their entry twice. -/
def dupImportGraph : DependencyGraph :=
  { forward := [("a", ["b", "b"]), ("b", [])],
    reverse := [("b", ["a", "a"])],
    files := ["a", "b"], scc := none }

/-- `dupImportGraph` after a Modified event on `a` whose re-parse reports
`b` once: the forward list is overwritten with the deduplicated parse, but
the duplicated reverse list survives because the edge diff is empty. -/
def dupReverseGraph : DependencyGraph :=
  { forward := [("a", ["b"]), ("b", [])],
    reverse := [("b", ["a", "a"])],
    files := ["a", "b"], scc := none }

/-- A memo entry such as the analyser stores for a file with no
dependents. -/
def exampleEntry : MemoEntry :=
  { impactSet := [], directCount := 0, transitiveCount := 0,
    riskLevel := .NONE, cascadeLevels := none, computedAt := 0 }

/-- A memo cache holding `exampleEntry` under key `a` (the state after
`set("a", exampleEntry)` on a fresh cache). -/
def exampleMemo : MemoCache := memoSet emptyMemoCache "a" exampleEntry

/-- A small git history (three commits' file lists, as parsed from
`git log --name-only`): `a` and `b` co-change three times. -/
def exampleCommits : List (List String) :=
  [["b", "a"], ["a", "b"], ["a", "b"]]

/-- The single coupling the miner emits on `exampleCommits` with
`minSupport = 3` and `minConfidence = 1`. -/
def exampleCoupling : ChangeCoupling :=
  { file1 := "a", file2 := "b", coChangeCount := 3, file1Changes := 3,
    file2Changes := 3, confidence := 1, support := 3 }

/-- Whether `invalidate(Δ)` must remove the cached key `k`: `k` is resident
and `Δ` intersects `M[k].impactSet ∪ {k}` (spec §8.6). -/
def invalidationHitB (c : MemoCache) (Δ : List String) (k : String) : Bool :=
  match mapGet c.cache k with
  | some e => Δ.any (fun f => e.impactSet.contains f || f == k)
  | none => false

/-- Well-formedness of the memo-cache closure state, as `set`/`removeEntry`
maintain it: unique cache keys, the reverse index holding exactly the keys
whose impact set (or the key itself) mentions the file, duplicate-free
index sets, and an access order listing resident keys without
duplicates. -/
structure MemoWF (c : MemoCache) : Prop where
  keys_nodup : (c.cache.map Prod.fst).Nodup
  rindex_inv : ∀ f k : String, k ∈ (mapGet c.reverseIndex f).getD [] ↔
    ∃ e, mapGet c.cache k = some e ∧ (f ∈ e.impactSet ∨ f = k)
  rindex_nodup : ∀ f : String, ((mapGet c.reverseIndex f).getD []).Nodup
  order_nodup : c.accessOrder.Nodup
  order_mem : ∀ x ∈ c.accessOrder, (mapGet c.cache x).isSome = true

/-- Invariant of the miner accumulators, maintained by `processCommit`:
every counted pair key is in canonical strict order and both of its files
have a positive change count. -/
def MiningInv (st : MiningState) : Prop :=
  ∀ k c, (k, c) ∈ st.pairCoChangeCount →
    strLt k.1 k.2 = true ∧ 1 ≤ (mapGet st.fileChangeCount k.1).getD 0 ∧
      1 ≤ (mapGet st.fileChangeCount k.2).getD 0

end Syke

namespace Syke

-- ── Generic lemmas about the JS map/set model ──

theorem contains_eq_false_iff [BEq κ] [LawfulBEq κ] (l : List κ) (x : κ) :
    l.contains x = false ↔ x ∉ l := by
  cases h : l.contains x <;> simp_all [List.elem_iff]

theorem mapGet_cons [BEq κ] (p : κ × α) (m : List (κ × α)) (k : κ) :
    mapGet (p :: m) k = if p.1 == k then some p.2 else mapGet m k := by
  simp only [mapGet, List.find?_cons]
  cases h : (p.1 == k) <;> simp [h]

theorem find?_map_update_ne [BEq κ] [LawfulBEq κ] (m : List (κ × α)) (k k₂ : κ) (v : α)
    (hne : k ≠ k₂) :
    List.find? (fun p => p.1 == k₂) (m.map (fun p => if p.1 == k then (k, v) else p)) =
      List.find? (fun p => p.1 == k₂) m := by
  induction m with
  | nil => rfl
  | cons p m ih =>
    simp only [List.map_cons]
    cases hp : (p.1 == k) with
    | true =>
      have h1 : p.1 = k := by simpa using hp
      have e1 : (k == k₂) = false := by simp [hne]
      have e2 : (p.1 == k₂) = false := by simp [h1, hne]
      simp [hp, List.find?_cons, e1, e2, ih]
    | false =>
      cases h : (p.1 == k₂) <;> simp [hp, List.find?_cons, h, ih]

theorem find?_map_update_self [BEq κ] [LawfulBEq κ] (m : List (κ × α)) (k : κ) (v : α)
    (h : m.any (fun p => p.1 == k) = true) :
    List.find? (fun p => p.1 == k) (m.map (fun p => if p.1 == k then (k, v) else p)) =
      some (k, v) := by
  induction m with
  | nil => simp at h
  | cons p m ih =>
    simp only [List.any_cons, Bool.or_eq_true] at h
    simp only [List.map_cons]
    cases hp : (p.1 == k) with
    | true => simp [hp, List.find?_cons]
    | false =>
      rcases h with h | h
      · rw [hp] at h
        exact absurd h (by simp)
      · simp [hp, List.find?_cons, ih h]

theorem find?_eq_none_of_not_any [BEq κ] (m : List (κ × α)) (k : κ)
    (h : m.any (fun p => p.1 == k) = false) :
    List.find? (fun p => p.1 == k) m = none := by
  rw [List.find?_eq_none]
  intro x hx hpk
  have h2 : m.any (fun p => p.1 == k) = true :=
    List.any_of_mem (p := fun p => p.1 == k) hx hpk
  rw [h] at h2
  exact Bool.false_ne_true h2

theorem mapGet_mapSet_self [BEq κ] [LawfulBEq κ] (m : List (κ × α)) (k : κ) (v : α) :
    mapGet (mapSet m k v) k = some v := by
  unfold mapSet
  cases h : (m.any (fun p => p.1 == k)) with
  | true => simp [mapGet, find?_map_update_self m k v h]
  | false =>
    have hfind := find?_eq_none_of_not_any m k h
    simp [mapGet, List.find?_append, hfind]

theorem mapGet_mapSet_ne [BEq κ] [LawfulBEq κ] (m : List (κ × α)) (k k₂ : κ) (v : α)
    (hne : k ≠ k₂) : mapGet (mapSet m k v) k₂ = mapGet m k₂ := by
  unfold mapSet
  cases h : (m.any (fun p => p.1 == k)) with
  | true => simp only [if_true, mapGet, find?_map_update_ne m k k₂ v hne]
  | false =>
    have e1 : ((k, v).1 == k₂) = false := by simp [hne]
    simp [mapGet, List.find?_append, e1]

theorem mapGet_mapDelete_self [BEq κ] [LawfulBEq κ] (m : List (κ × α)) (k : κ) :
    mapGet (mapDelete m k) k = none := by
  have hf : List.find? (fun p => p.1 == k) (List.filter (fun p => p.1 != k) m) = none := by
    rw [List.find?_eq_none]
    intro x hx hpk
    have hmem := List.of_mem_filter hx
    simp only [bne_iff_ne, ne_eq] at hmem
    exact hmem (by simpa using hpk)
  simp [mapDelete, mapGet, hf]

theorem mapGet_mapDelete_ne [BEq κ] [LawfulBEq κ] (m : List (κ × α)) (k k₂ : κ)
    (hne : k ≠ k₂) : mapGet (mapDelete m k) k₂ = mapGet m k₂ := by
  unfold mapDelete mapGet
  congr 1
  induction m with
  | nil => rfl
  | cons p m ih =>
    simp only [List.filter_cons]
    cases hp : (p.1 == k₂) with
    | true =>
      have h1 : p.1 = k₂ := by simpa using hp
      have hq : (p.1 != k) = true := by simp [h1, Ne.symm hne]
      simp [hq, List.find?_cons, hp]
    | false =>
      cases hq : (p.1 != k) <;> simp [hq, List.find?_cons, hp, ih]

theorem mapHas_eq_isSome [BEq κ] (m : List (κ × α)) (k : κ) :
    mapHas m k = (mapGet m k).isSome := by
  unfold mapHas mapGet
  induction m with
  | nil => rfl
  | cons p m ih =>
    simp only [List.any_cons]
    cases h : (p.1 == k) <;> simp [h, List.find?_cons, ih]

-- ── pushNew / removeFirst lemmas ──

theorem mem_pushNew [BEq κ] [LawfulBEq κ] (l : List κ) (x y : κ) :
    x ∈ pushNew l y ↔ x ∈ l ∨ x = y := by
  unfold pushNew
  cases h : l.contains y with
  | true =>
    have hy : y ∈ l := by simp [List.elem_iff] at h; exact h
    simp only [if_true]
    constructor
    · exact fun hx => Or.inl hx
    · rintro (hx | rfl)
      · exact hx
      · exact hy
  | false => simp [List.mem_append]

theorem pushNew_nodup [BEq κ] [LawfulBEq κ] (l : List κ) (y : κ) (h : l.Nodup) :
    (pushNew l y).Nodup := by
  unfold pushNew
  cases hc : l.contains y with
  | true => simpa using h
  | false =>
    have hy : y ∉ l := (contains_eq_false_iff l y).mp hc
    simp [List.nodup_append, h, hy]

theorem pushNew_idem [BEq κ] [LawfulBEq κ] (l : List κ) (y : κ) :
    pushNew (pushNew l y) y = pushNew l y := by
  have hy : y ∈ pushNew l y := (mem_pushNew l y y).mpr (Or.inr rfl)
  have hc : (pushNew l y).contains y = true := (List.elem_iff).mpr hy
  show (if (pushNew l y).contains y = true then pushNew l y else pushNew l y ++ [y]) = pushNew l y
  rw [hc]
  simp

theorem mem_removeFirst_of_ne [BEq κ] [LawfulBEq κ] (l : List κ) (x y : κ) (hne : x ≠ y) :
    x ∈ removeFirst l y ↔ x ∈ l := by
  induction l with
  | nil => simp [removeFirst]
  | cons a l ih =>
    unfold removeFirst
    cases h : (a == y) with
    | true =>
      have h1 : a = y := by simpa using h
      subst h1
      simp [List.mem_cons, hne]
    | false => simp [h, List.mem_cons, ih]

theorem removeFirst_subset [BEq κ] (l : List κ) (x y : κ) (h : x ∈ removeFirst l y) :
    x ∈ l := by
  induction l with
  | nil => simpa [removeFirst] using h
  | cons a l ih =>
    unfold removeFirst at h
    cases hb : (a == y) with
    | true =>
      rw [hb, if_pos rfl] at h
      exact List.mem_cons.mpr (Or.inr h)
    | false =>
      rw [hb, if_neg Bool.false_ne_true] at h
      rcases List.mem_cons.mp h with h | h
      · exact List.mem_cons.mpr (Or.inl h)
      · exact List.mem_cons.mpr (Or.inr (ih h))

theorem not_mem_removeFirst [BEq κ] [LawfulBEq κ] (l : List κ) (y : κ) (h : l.Nodup) :
    y ∉ removeFirst l y := by
  induction l with
  | nil => simp [removeFirst]
  | cons a l ih =>
    unfold removeFirst
    cases hb : (a == y) with
    | true =>
      have h1 : a = y := by simpa using hb
      subst h1
      exact (List.nodup_cons.mp h).1
    | false =>
      intro hmem
      rcases List.mem_cons.mp hmem with h1 | hmem
      · rw [h1] at hb
        simp at hb
      · exact ih (List.nodup_cons.mp h).2 hmem

theorem removeFirst_nodup [BEq κ] [LawfulBEq κ] (l : List κ) (y : κ) (h : l.Nodup) :
    (removeFirst l y).Nodup := by
  induction l with
  | nil => simp [removeFirst]
  | cons a l ih =>
    unfold removeFirst
    rcases List.nodup_cons.mp h with ⟨ha, hl⟩
    cases hb : (a == y) with
    | true => exact hl
    | false =>
      rw [if_neg Bool.false_ne_true, List.nodup_cons]
      exact ⟨fun hmem => ha (removeFirst_subset l a y hmem), ih hl⟩

theorem getD_map_removeFirst (o : Option (List String)) (v : String) :
    ((o.map (fun l => removeFirst l v)).getD []) = removeFirst (o.getD []) v := by
  cases o <;> rfl

end Syke

namespace Syke

-- ── Characterisation of the reverse-list edit loops ──

theorem mapGet_removeEdgeTargets (m : List (String × List String)) (v : String)
    (ts : List String) (hnd : ts.Nodup) (b : String) :
    mapGet (removeEdgeTargets m v ts) b =
      if b ∈ ts then (mapGet m b).map (fun l => removeFirst l v) else mapGet m b := by
  induction ts generalizing m with
  | nil => simp [removeEdgeTargets]
  | cons t ts ih =>
    rcases List.nodup_cons.mp hnd with ⟨ht, hts⟩
    have hstep : removeEdgeTargets m v (t :: ts) =
        removeEdgeTargets (match mapGet m t with
          | some l => mapSet m t (removeFirst l v)
          | none => m) v ts := rfl
    rw [hstep]
    set m1 := (match mapGet m t with
      | some l => mapSet m t (removeFirst l v)
      | none => m) with hm1
    have hc : ∀ b2 : String, mapGet m1 b2 =
        if b2 = t then (mapGet m b2).map (fun l => removeFirst l v) else mapGet m b2 := by
      intro b2
      rw [hm1]
      cases hg : mapGet m t with
      | none =>
        by_cases hbt : b2 = t
        · subst hbt
          simp [hg]
        · simp [hbt]
      | some l =>
        by_cases hbt : b2 = t
        · subst hbt
          simp [hg, mapGet_mapSet_self]
        · simp [hbt, mapGet_mapSet_ne m t b2 _ (fun hh => hbt hh.symm)]
    rw [ih m1 hts]
    by_cases hbts : b ∈ ts
    · have hbt : b ≠ t := fun hh => ht (hh ▸ hbts)
      rw [if_pos hbts, if_pos (List.mem_cons.mpr (Or.inr hbts)), hc b, if_neg hbt]
    · rw [if_neg hbts]
      by_cases hbt : b = t
      · subst hbt
        rw [hc b, if_pos rfl, if_pos (List.mem_cons.mpr (Or.inl rfl))]
      · rw [hc b, if_neg hbt, if_neg (by simp [List.mem_cons, hbt, hbts])]

theorem mapGet_addEdgeTargets (m : List (String × List String)) (v : String)
    (ts : List String) (b : String) :
    mapGet (addEdgeTargets m v ts) b =
      if b ∈ ts then some (pushNew ((mapGet m b).getD []) v) else mapGet m b := by
  induction ts generalizing m with
  | nil => simp [addEdgeTargets]
  | cons t ts ih =>
    have hstep : addEdgeTargets m v (t :: ts) =
        addEdgeTargets (match mapGet m t with
          | some l => mapSet m t (pushNew l v)
          | none => mapSet m t [v]) v ts := rfl
    rw [hstep]
    set m1 := (match mapGet m t with
      | some l => mapSet m t (pushNew l v)
      | none => mapSet m t [v]) with hm1
    have hc : ∀ b2 : String, mapGet m1 b2 =
        if b2 = t then some (pushNew ((mapGet m b2).getD []) v) else mapGet m b2 := by
      intro b2
      rw [hm1]
      cases hg : mapGet m t with
      | none =>
        by_cases hbt : b2 = t
        · subst hbt
          simp [hg, mapGet_mapSet_self, pushNew]
        · simp [hbt, mapGet_mapSet_ne m t b2 _ (fun hh => hbt hh.symm)]
      | some l =>
        by_cases hbt : b2 = t
        · subst hbt
          simp [hg, mapGet_mapSet_self]
        · simp [hbt, mapGet_mapSet_ne m t b2 _ (fun hh => hbt hh.symm)]
    rw [ih m1]
    by_cases hbts : b ∈ ts
    · rw [if_pos hbts, if_pos (List.mem_cons.mpr (Or.inr hbts))]
      by_cases hbt : b = t
      · subst hbt
        rw [hc b, if_pos rfl]
        simp [pushNew_idem]
      · rw [hc b, if_neg hbt]
    · rw [if_neg hbts]
      by_cases hbt : b = t
      · subst hbt
        rw [hc b, if_pos rfl, if_pos (List.mem_cons.mpr (Or.inl rfl))]
      · rw [hc b, if_neg hbt, if_neg (by simp [List.mem_cons, hbt, hbts])]

end Syke

namespace Syke

-- ── Incremental operations: projections ──

theorem ite_recompute_forward (c : Bool) (g1 : DependencyGraph) :
    (if c = true then recomputeGraphMetrics g1 else g1).forward = g1.forward := by
  cases c <;> rfl

theorem ite_recompute_reverse (c : Bool) (g1 : DependencyGraph) :
    (if c = true then recomputeGraphMetrics g1 else g1).reverse = g1.reverse := by
  cases c <;> rfl

theorem ite_recompute_files (c : Bool) (g1 : DependencyGraph) :
    (if c = true then recomputeGraphMetrics g1 else g1).files = g1.files := by
  cases c <;> rfl

theorem updateCore_fst_forward (g : DependencyGraph) (f : String) (rawImports : List String) :
    (updateGraphCore g f (some rawImports)).1.forward =
      mapSet g.forward f (rawImports.filter (fun imp => g.files.contains imp)) := by
  unfold updateGraphCore
  dsimp only
  split <;> rfl

theorem updateCore_fst_reverse (g : DependencyGraph) (f : String) (rawImports : List String) :
    (updateGraphCore g f (some rawImports)).1.reverse =
      addEdgeTargets
        (removeEdgeTargets g.reverse f
          (((mapGet g.forward f).getD []).filter
            (fun dep => !((rawImports.filter (fun imp => g.files.contains imp)).contains dep))))
        f
        ((rawImports.filter (fun imp => g.files.contains imp)).filter
          (fun dep => !(((mapGet g.forward f).getD []).contains dep))) := by
  unfold updateGraphCore
  dsimp only
  split <;> rfl

theorem updateCore_fst_files (g : DependencyGraph) (f : String) (rawImports : List String) :
    (updateGraphCore g f (some rawImports)).1.files = g.files := by
  unfold updateGraphCore
  dsimp only
  split <;> rfl

end Syke

namespace Syke

theorem mem_filter_not_contains [BEq κ] [LawfulBEq κ] (l L : List κ) (b : κ) :
    b ∈ l.filter (fun x => !(L.contains x)) ↔ b ∈ l ∧ b ∉ L := by
  rw [List.mem_filter]
  constructor
  · rintro ⟨hb, hc⟩
    refine ⟨hb, fun hm => ?_⟩
    have hcon : L.contains b = true := (List.elem_iff).mpr hm
    rw [hcon] at hc
    simp at hc
  · rintro ⟨hb, hm⟩
    refine ⟨hb, ?_⟩
    cases hcon : L.contains b with
    | true => exact absurd (by simp [List.elem_iff] at hcon; exact hcon) hm
    | false => rfl

theorem updateCore_mutual (g : DependencyGraph) (f : String) (raw : Option (List String))
    (hwf : WellFormedGraph g) : mutualAdjacency (updateGraphCore g f raw).1 := by
  cases raw with
  | none => exact hwf.mutual_adj
  | some rawImports =>
    have hremNodup :
        (((mapGet g.forward f).getD []).filter
          (fun dep => !((rawImports.filter (fun imp => g.files.contains imp)).contains dep))).Nodup :=
      List.Nodup.filter _ (hwf.fwd_nodup f)
    have hfwd : ∀ x : String, fwdList (updateGraphCore g f (some rawImports)).1 x =
        if x = f then rawImports.filter (fun imp => g.files.contains imp)
        else fwdList g x := by
      intro x
      unfold fwdList
      rw [updateCore_fst_forward]
      by_cases hx : x = f
      · subst hx
        rw [mapGet_mapSet_self, if_pos rfl]
        rfl
      · rw [mapGet_mapSet_ne _ _ _ _ (fun hh => hx hh.symm), if_neg hx]
    have hrevE : ∀ b2 : String, revList (updateGraphCore g f (some rawImports)).1 b2 =
        ((if b2 ∈ ((rawImports.filter (fun imp => g.files.contains imp)).filter
            (fun dep => !(((mapGet g.forward f).getD []).contains dep))) then
          some (pushNew
            ((if b2 ∈ (((mapGet g.forward f).getD []).filter
                (fun dep => !((rawImports.filter (fun imp => g.files.contains imp)).contains dep))) then
              (mapGet g.reverse b2).map (fun l => removeFirst l f)
            else mapGet g.reverse b2).getD []) f)
        else
          (if b2 ∈ (((mapGet g.forward f).getD []).filter
              (fun dep => !((rawImports.filter (fun imp => g.files.contains imp)).contains dep))) then
            (mapGet g.reverse b2).map (fun l => removeFirst l f)
          else mapGet g.reverse b2))).getD [] := by
      intro b2
      unfold revList
      rw [updateCore_fst_reverse, mapGet_addEdgeTargets,
          mapGet_removeEdgeTargets _ _ _ hremNodup]
    intro a b
    rw [show fwdList (updateGraphCore g f (some rawImports)).1 a = _ from hfwd a,
        show revList (updateGraphCore g f (some rawImports)).1 b = _ from hrevE b]
    have hmemAdded := mem_filter_not_contains
      (rawImports.filter (fun imp => g.files.contains imp)) ((mapGet g.forward f).getD []) b
    have hmemRemoved := mem_filter_not_contains
      ((mapGet g.forward f).getD []) (rawImports.filter (fun imp => g.files.contains imp)) b
    have hmut := hwf.mutual_adj
    have hfg : fwdList g f = (mapGet g.forward f).getD [] := rfl
    have hrg : ∀ b2 : String, revList g b2 = (mapGet g.reverse b2).getD [] := fun _ => rfl
    by_cases haf : a = f
    · subst haf
      rw [if_pos rfl]
      by_cases h1 : b ∈ ((rawImports.filter (fun imp => g.files.contains imp)).filter
          (fun dep => !(((mapGet g.forward a).getD []).contains dep)))
      · rw [if_pos h1]
        refine iff_of_true (List.mem_of_mem_filter h1) ?_
        rw [Option.getD_some]
        exact (mem_pushNew _ a a).mpr (Or.inr rfl)
      · rw [if_neg h1]
        by_cases h2 : b ∈ (((mapGet g.forward a).getD []).filter
            (fun dep => !((rawImports.filter (fun imp => g.files.contains imp)).contains dep)))
        · rw [if_pos h2]
          refine iff_of_false (hmemRemoved.mp h2).2 ?_
          rw [getD_map_removeFirst]
          exact not_mem_removeFirst _ _ (hwf.rev_nodup b)
        · rw [if_neg h2]
          constructor
          · intro hb
            have hbold : b ∈ (mapGet g.forward a).getD [] := by
              by_contra hbo
              exact h1 (hmemAdded.mpr ⟨hb, hbo⟩)
            exact (hmut a b).mp hbold
          · intro ha
            have hbold : b ∈ fwdList g a := (hmut a b).mpr ha
            by_contra hbnd
            exact h2 (hmemRemoved.mpr ⟨hbold, hbnd⟩)
    · rw [if_neg haf]
      have hmutab := hmut a b
      by_cases h1 : b ∈ ((rawImports.filter (fun imp => g.files.contains imp)).filter
          (fun dep => !(((mapGet g.forward f).getD []).contains dep)))
      · rw [if_pos h1]
        rw [Option.getD_some]
        rw [mem_pushNew]
        by_cases h2 : b ∈ (((mapGet g.forward f).getD []).filter
            (fun dep => !((rawImports.filter (fun imp => g.files.contains imp)).contains dep)))
        · rw [if_pos h2, getD_map_removeFirst, mem_removeFirst_of_ne _ _ _ haf]
          constructor
          · intro hb
            exact Or.inl (hmutab.mp hb)
          · rintro (ha | ha)
            · exact hmutab.mpr ha
            · exact absurd ha haf
        · rw [if_neg h2]
          constructor
          · intro hb
            exact Or.inl (hmutab.mp hb)
          · rintro (ha | ha)
            · exact hmutab.mpr ha
            · exact absurd ha haf
      · rw [if_neg h1]
        by_cases h2 : b ∈ (((mapGet g.forward f).getD []).filter
            (fun dep => !((rawImports.filter (fun imp => g.files.contains imp)).contains dep)))
        · rw [if_pos h2, getD_map_removeFirst, mem_removeFirst_of_ne _ _ _ haf]
          exact hmutab
        · rw [if_neg h2]
          exact hmutab

end Syke

namespace Syke

theorem addCore_none (g : DependencyGraph) (f : String) :
    (addFileCore g f none).1 =
      { g with files := pushNew g.files f,
               forward := mapSet g.forward f [],
               reverse := if mapHas g.reverse f then g.reverse else mapSet g.reverse f [] } := rfl

theorem addCore_fst_forward (g : DependencyGraph) (f : String) (rawImports : List String) :
    (addFileCore g f (some rawImports)).1.forward =
      mapSet (mapSet g.forward f [])
        f (rawImports.filter (fun imp => (pushNew g.files f).contains imp)) := by
  unfold addFileCore
  dsimp only
  split <;> rfl

theorem addCore_fst_reverse (g : DependencyGraph) (f : String) (rawImports : List String) :
    (addFileCore g f (some rawImports)).1.reverse =
      addEdgeTargets
        (if mapHas g.reverse f then g.reverse else mapSet g.reverse f [])
        f (rawImports.filter (fun imp => (pushNew g.files f).contains imp)) := by
  unfold addFileCore
  dsimp only
  split <;> rfl

theorem addCore_fst_files (g : DependencyGraph) (f : String) (rawImports : List String) :
    (addFileCore g f (some rawImports)).1.files = pushNew g.files f := by
  unfold addFileCore
  dsimp only
  split <;> rfl

theorem addCore_mutual (g : DependencyGraph) (f : String) (raw : Option (List String))
    (hwf : WellFormedGraph g) (hf : f ∉ g.files) :
    mutualAdjacency (addFileCore g f raw).1 := by
  have hfwdf : mapGet g.forward f = none := hwf.fwd_dom f hf
  have hrevf : mapGet g.reverse f = none := hwf.rev_dom f hf
  have hhas : mapHas g.reverse f = false := by
    rw [mapHas_eq_isSome, hrevf]
    rfl
  have hnotrev : ∀ b : String, f ∉ revList g b := by
    intro b hb
    have := (hwf.mutual_adj f b).mpr hb
    rw [show fwdList g f = (mapGet g.forward f).getD [] from rfl, hfwdf] at this
    simp at this
  have hnotfwd : ∀ a : String, f ∉ fwdList g a := by
    intro a ha
    exact hf (hwf.fwd_closed a f ha)
  cases raw with
  | none =>
    intro a b
    rw [addCore_none]
    have hfwdR : ∀ x : String,
        fwdList { g with files := pushNew g.files f,
                          forward := mapSet g.forward f [],
                          reverse := if mapHas g.reverse f then g.reverse
                            else mapSet g.reverse f [] } x =
          if x = f then [] else fwdList g x := by
      intro x
      show (mapGet (mapSet g.forward f []) x).getD [] = _
      by_cases hx : x = f
      · subst hx
        rw [mapGet_mapSet_self, if_pos rfl]
        rfl
      · rw [mapGet_mapSet_ne _ _ _ _ (fun hh => hx hh.symm), if_neg hx]
        rfl
    have hrevR : ∀ x : String,
        revList { g with files := pushNew g.files f,
                          forward := mapSet g.forward f [],
                          reverse := if mapHas g.reverse f then g.reverse
                            else mapSet g.reverse f [] } x =
          if x = f then [] else revList g x := by
      intro x
      show (mapGet (if mapHas g.reverse f then g.reverse else mapSet g.reverse f []) x).getD [] = _
      rw [hhas]
      simp only [Bool.false_eq_true, if_false]
      by_cases hx : x = f
      · subst hx
        rw [mapGet_mapSet_self, if_pos rfl]
        rfl
      · rw [mapGet_mapSet_ne _ _ _ _ (fun hh => hx hh.symm), if_neg hx]
        rfl
    rw [hfwdR a, hrevR b]
    by_cases haf : a = f
    · subst haf
      rw [if_pos rfl]
      by_cases hbf : b = a
      · rw [if_pos hbf]
        simp
      · rw [if_neg hbf]
        exact iff_of_false (by simp) (hnotrev b)
    · rw [if_neg haf]
      by_cases hbf : b = f
      · subst hbf
        rw [if_pos rfl]
        exact iff_of_false (hnotfwd a) (by simp)
      · rw [if_neg hbf]
        exact hwf.mutual_adj a b
  | some rawImports =>
    intro a b
    have hfwdR : ∀ x : String, fwdList (addFileCore g f (some rawImports)).1 x =
        if x = f then rawImports.filter (fun imp => (pushNew g.files f).contains imp)
        else fwdList g x := by
      intro x
      show (mapGet (addFileCore g f (some rawImports)).1.forward x).getD [] = _
      rw [addCore_fst_forward]
      by_cases hx : x = f
      · subst hx
        rw [mapGet_mapSet_self, if_pos rfl]
        rfl
      · rw [mapGet_mapSet_ne _ _ _ _ (fun hh => hx hh.symm),
            mapGet_mapSet_ne _ _ _ _ (fun hh => hx hh.symm), if_neg hx]
        rfl
    have hrevR : ∀ x : String, revList (addFileCore g f (some rawImports)).1 x =
        if x ∈ rawImports.filter (fun imp => (pushNew g.files f).contains imp) then
          pushNew (if x = f then [] else revList g x) f
        else (if x = f then [] else revList g x) := by
      intro x
      show (mapGet (addFileCore g f (some rawImports)).1.reverse x).getD [] = _
      rw [addCore_fst_reverse, hhas]
      simp only [Bool.false_eq_true, if_false]
      rw [mapGet_addEdgeTargets]
      have hinner : mapGet (mapSet g.reverse f []) x =
          if x = f then some [] else mapGet g.reverse x := by
        by_cases hx : x = f
        · subst hx
          rw [mapGet_mapSet_self, if_pos rfl]
        · rw [mapGet_mapSet_ne _ _ _ _ (fun hh => hx hh.symm), if_neg hx]
      rw [hinner]
      by_cases hmem : x ∈ rawImports.filter (fun imp => (pushNew g.files f).contains imp)
      · rw [if_pos hmem, if_pos hmem]
        by_cases hx : x = f
        · rw [if_pos hx, if_pos hx]
          rfl
        · rw [if_neg hx, if_neg hx]
          rfl
      · rw [if_neg hmem, if_neg hmem]
        by_cases hx : x = f
        · rw [if_pos hx, if_pos hx]
          rfl
        · rw [if_neg hx, if_neg hx]
          rfl
    rw [hfwdR a, hrevR b]
    by_cases haf : a = f
    · subst haf
      rw [if_pos rfl]
      by_cases hmem : b ∈ rawImports.filter (fun imp => (pushNew g.files a).contains imp)
      · rw [if_pos hmem]
        exact iff_of_true hmem ((mem_pushNew _ a a).mpr (Or.inr rfl))
      · rw [if_neg hmem]
        refine iff_of_false hmem ?_
        by_cases hbf : b = a
        · rw [if_pos hbf]
          simp
        · rw [if_neg hbf]
          exact hnotrev b
    · rw [if_neg haf]
      have hpush : ∀ l : List String, a ∈ pushNew l f ↔ a ∈ l := by
        intro l
        rw [mem_pushNew]
        constructor
        · rintro (h | h)
          · exact h
          · exact absurd h haf
        · exact Or.inl
      by_cases hbf : b = f
      · subst hbf
        have lhsFalse : b ∉ fwdList g a := hnotfwd a
        by_cases hmem : b ∈ rawImports.filter (fun imp => (pushNew g.files b).contains imp)
        · rw [if_pos hmem, if_pos rfl]
          refine iff_of_false lhsFalse ?_
          rw [hpush]
          simp
        · rw [if_neg hmem, if_pos rfl]
          exact iff_of_false lhsFalse (by simp)
      · by_cases hmem : b ∈ rawImports.filter (fun imp => (pushNew g.files f).contains imp)
        · rw [if_pos hmem, if_neg hbf, hpush]
          exact hwf.mutual_adj a b
        · rw [if_neg hmem, if_neg hbf]
          exact hwf.mutual_adj a b

end Syke

namespace Syke

theorem remove_notmem (g : DependencyGraph) (f : String)
    (hf : g.files.contains f = false) :
    removeFileFromGraph g f = (g, emptyResult f) := by
  unfold removeFileFromGraph
  rw [hf]
  rfl

theorem remove_fst_forward (g : DependencyGraph) (f : String)
    (hf : g.files.contains f = true) :
    (removeFileFromGraph g f).1.forward =
      mapDelete
        (removeEdgeTargets g.forward f
          ((mapGet (removeEdgeTargets g.reverse f ((mapGet g.forward f).getD [])) f).getD []))
        f := by
  unfold removeFileFromGraph
  rw [hf, if_neg (by simp)]
  dsimp only
  split <;> rfl

theorem remove_fst_reverse (g : DependencyGraph) (f : String)
    (hf : g.files.contains f = true) :
    (removeFileFromGraph g f).1.reverse =
      mapDelete (removeEdgeTargets g.reverse f ((mapGet g.forward f).getD [])) f := by
  unfold removeFileFromGraph
  rw [hf, if_neg (by simp)]
  dsimp only
  split <;> rfl

theorem remove_fst_files (g : DependencyGraph) (f : String)
    (hf : g.files.contains f = true) :
    (removeFileFromGraph g f).1.files = g.files.filter (fun x => x != f) := by
  unfold removeFileFromGraph
  rw [hf, if_neg (by simp)]
  dsimp only
  split <;> rfl

theorem remove_mutual (g : DependencyGraph) (f : String)
    (hwf : WellFormedGraph g) : mutualAdjacency (removeFileFromGraph g f).1 := by
  cases hf : g.files.contains f with
  | false =>
    rw [remove_notmem g f hf]
    exact hwf.mutual_adj
  | true =>
    have holdNodup : ((mapGet g.forward f).getD []).Nodup := hwf.fwd_nodup f
    -- the reverse map after phase 1
    have hrev1 : ∀ b : String,
        mapGet (removeEdgeTargets g.reverse f ((mapGet g.forward f).getD [])) b =
          if b ∈ (mapGet g.forward f).getD [] then
            (mapGet g.reverse b).map (fun l => removeFirst l f)
          else mapGet g.reverse b :=
      fun b => mapGet_removeEdgeTargets g.reverse f _ holdNodup b
    -- reverseDeps, after possibly removing a self-loop
    have hrevDeps : ((mapGet (removeEdgeTargets g.reverse f ((mapGet g.forward f).getD [])) f).getD []) =
        if f ∈ (mapGet g.forward f).getD [] then removeFirst (revList g f) f
        else revList g f := by
      rw [hrev1 f]
      by_cases hsl : f ∈ (mapGet g.forward f).getD []
      · rw [if_pos hsl, if_pos hsl, getD_map_removeFirst]
        rfl
      · rw [if_neg hsl, if_neg hsl]
        rfl
    have hrevDepsNodup :
        ((mapGet (removeEdgeTargets g.reverse f ((mapGet g.forward f).getD [])) f).getD []).Nodup := by
      rw [hrevDeps]
      by_cases hsl : f ∈ (mapGet g.forward f).getD []
      · rw [if_pos hsl]
        exact removeFirst_nodup _ _ (hwf.rev_nodup f)
      · rw [if_neg hsl]
        exact hwf.rev_nodup f
    have hrevDeps_iff : ∀ x : String, x ≠ f →
        (x ∈ ((mapGet (removeEdgeTargets g.reverse f ((mapGet g.forward f).getD [])) f).getD []) ↔
          x ∈ revList g f) := by
      intro x hx
      rw [hrevDeps]
      by_cases hsl : f ∈ (mapGet g.forward f).getD []
      · rw [if_pos hsl, mem_removeFirst_of_ne _ _ _ hx]
      · rw [if_neg hsl]
    have hfwdR : ∀ x : String, fwdList (removeFileFromGraph g f).1 x =
        if x = f then []
        else if x ∈ ((mapGet (removeEdgeTargets g.reverse f ((mapGet g.forward f).getD [])) f).getD []) then
          removeFirst (fwdList g x) f
        else fwdList g x := by
      intro x
      show (mapGet (removeFileFromGraph g f).1.forward x).getD [] = _
      rw [remove_fst_forward g f hf]
      by_cases hx : x = f
      · subst hx
        rw [mapGet_mapDelete_self, if_pos rfl]
        rfl
      · rw [mapGet_mapDelete_ne _ _ _ (fun hh => hx hh.symm), if_neg hx,
            mapGet_removeEdgeTargets _ _ _ hrevDepsNodup]
        by_cases hmem : x ∈ ((mapGet (removeEdgeTargets g.reverse f ((mapGet g.forward f).getD [])) f).getD [])
        · rw [if_pos hmem, if_pos hmem, getD_map_removeFirst]
          rfl
        · rw [if_neg hmem, if_neg hmem]
          rfl
    have hrevR : ∀ x : String, revList (removeFileFromGraph g f).1 x =
        if x = f then []
        else if x ∈ (mapGet g.forward f).getD [] then removeFirst (revList g x) f
        else revList g x := by
      intro x
      show (mapGet (removeFileFromGraph g f).1.reverse x).getD [] = _
      rw [remove_fst_reverse g f hf]
      by_cases hx : x = f
      · subst hx
        rw [mapGet_mapDelete_self, if_pos rfl]
        rfl
      · rw [mapGet_mapDelete_ne _ _ _ (fun hh => hx hh.symm), if_neg hx, hrev1 x]
        by_cases hmem : x ∈ (mapGet g.forward f).getD []
        · rw [if_pos hmem, if_pos hmem, getD_map_removeFirst]
          rfl
        · rw [if_neg hmem, if_neg hmem]
          rfl
    intro a b
    rw [hfwdR a, hrevR b]
    by_cases haf : a = f
    · subst haf
      rw [if_pos rfl]
      refine iff_of_false (by simp) ?_
      by_cases hbf : b = a
      · rw [if_pos hbf]
        simp
      · rw [if_neg hbf]
        by_cases hmem : b ∈ (mapGet g.forward a).getD []
        · rw [if_pos hmem]
          exact not_mem_removeFirst _ _ (hwf.rev_nodup b)
        · rw [if_neg hmem]
          intro ha
          exact hmem ((hwf.mutual_adj a b).mpr ha)
    · rw [if_neg haf]
      by_cases hbf : b = f
      · subst hbf
        rw [if_pos rfl]
        refine iff_of_false ?_ (by simp)
        by_cases hmem : a ∈ ((mapGet (removeEdgeTargets g.reverse b ((mapGet g.forward b).getD [])) b).getD [])
        · rw [if_pos hmem]
          exact not_mem_removeFirst _ _ (hwf.fwd_nodup a)
        · rw [if_neg hmem]
          intro hb
          have ha : a ∈ revList g b := (hwf.mutual_adj a b).mp hb
          exact hmem ((hrevDeps_iff a haf).mpr ha)
      · rw [if_neg hbf]
        have lhsIff : (b ∈ (if a ∈ ((mapGet (removeEdgeTargets g.reverse f ((mapGet g.forward f).getD [])) f).getD []) then
            removeFirst (fwdList g a) f else fwdList g a)) ↔ b ∈ fwdList g a := by
          by_cases hmem : a ∈ ((mapGet (removeEdgeTargets g.reverse f ((mapGet g.forward f).getD [])) f).getD [])
          · rw [if_pos hmem, mem_removeFirst_of_ne _ _ _ hbf]
          · rw [if_neg hmem]
        have rhsIff : (a ∈ (if b ∈ (mapGet g.forward f).getD [] then
            removeFirst (revList g b) f else revList g b)) ↔ a ∈ revList g b := by
          by_cases hmem : b ∈ (mapGet g.forward f).getD []
          · rw [if_pos hmem, mem_removeFirst_of_ne _ _ _ haf]
          · rw [if_neg hmem]
        rw [lhsIff, rhsIff]
        exact hwf.mutual_adj a b

end Syke

namespace Syke

-- ── Claim C1 ──

theorem dispatch_mutual (g : DependencyGraph) (f : String) (raw : Option (List String))
    (hwf : WellFormedGraph g) :
    mutualAdjacency (if g.files.contains f then updateGraphCore g f raw
      else addFileCore g f raw).1 := by
  cases hc : g.files.contains f with
  | true =>
    rw [if_pos rfl]
    exact updateCore_mutual g f raw hwf
  | false =>
    rw [if_neg Bool.false_ne_true]
    exact addCore_mutual g f raw hwf ((contains_eq_false_iff _ _).mp hc)

/-- Claim C1 (amended): on a graph satisfying the data model's
well-formedness invariants of spec §3 (mutual adjacency, duplicate-free
adjacency lists, adjacency maps defined only on `Files`, forward targets in
`Files`), each of the three incremental operations preserves the
mutual-adjacency invariant `b ∈ Forward[a] ⇔ a ∈ Reverse[b]`.  Without the
duplicate-freeness assumption the invariant can break (see the
counterexample). -/
theorem incremental_ops_preserve_mutual_adjacency
    (g : DependencyGraph) (f : String) (raw : Option (List String))
    (hwf : WellFormedGraph g) :
    mutualAdjacency (updateGraphForFile g f raw).1 ∧
    mutualAdjacency (addFileToGraph g f raw).1 ∧
    mutualAdjacency (removeFileFromGraph g f).1 :=
  ⟨dispatch_mutual g f raw hwf, dispatch_mutual g f raw hwf, remove_mutual g f hwf⟩

/-- Witness for claim C1: the hypotheses are satisfiable — a concrete
well-formed one-file graph, updated with a self-import. -/
theorem incremental_ops_preserve_mutual_adjacency_witness :
    mutualAdjacency (updateGraphForFile exampleWfGraph "a" (some ["a", "b"])).1 ∧
    mutualAdjacency (addFileToGraph exampleWfGraph "a" (some ["a", "b"])).1 ∧
    mutualAdjacency (removeFileFromGraph exampleWfGraph "a").1 := by
  refine incremental_ops_preserve_mutual_adjacency exampleWfGraph "a" (some ["a", "b"]) ?_
  constructor
  · intro a b
    show b ∈ (mapGet [] a).getD [] ↔ a ∈ (mapGet [] b).getD []
    simp [mapGet]
  · intro a
    show (mapGet ([] : List (String × List String)) a).getD [] |>.Nodup
    simp [mapGet]
  · intro b
    show (mapGet ([] : List (String × List String)) b).getD [] |>.Nodup
    simp [mapGet]
  · intro a _
    rfl
  · intro b _
    rfl
  · intro a b hb
    simp [fwdList, mapGet, exampleWfGraph] at hb

/-- The duplicated-reverse graph is reachable: a full build with a
duplicated parse result followed by a benign Modified event (same edge set,
deduplicated parse) yields exactly `dupReverseGraph`. -/
theorem dupReverseGraph_reachable :
    buildGraphCore ["a", "b"] (fun f => if f == "a" then ["b", "b"] else []) =
      dupImportGraph ∧
    (updateGraphForFile dupImportGraph "a" (some ["b"])).1 = dupReverseGraph := by
  constructor <;> rfl

/-- Counterexample for claim C1 as stated ("for every graph"): the
reachable graph `dupReverseGraph` satisfies the mutual-adjacency invariant,
yet a Modified event on `a` that drops the import of `b` splices only one
of the two occurrences of `a` out of `Reverse[b]`, leaving
`a ∈ Reverse[b]` while `b ∉ Forward[a]`. -/
theorem update_breaks_mutual_adjacency_on_duplicates :
    mutualAdjacency dupReverseGraph ∧
    ¬ mutualAdjacency (updateGraphForFile dupReverseGraph "a" (some [])).1 := by
  constructor
  · intro a b
    have hf : fwdList dupReverseGraph a = if a = "a" then ["b"] else [] := by
      show (mapGet [("a", ["b"]), ("b", [])] a).getD [] = _
      rw [mapGet_cons, mapGet_cons]
      by_cases h1 : a = "a"
      · simp [h1]
      · have e1 : ("a" == a) = false := by simp [Ne.symm h1]
        by_cases h2 : a = "b"
        · simp [e1, h2]
        · have e2 : ("b" == a) = false := by simp [Ne.symm h2]
          simp [e1, e2, h1, mapGet]
    have hr : revList dupReverseGraph b = if b = "b" then ["a", "a"] else [] := by
      show (mapGet [("b", ["a", "a"])] b).getD [] = _
      rw [mapGet_cons]
      by_cases h2 : b = "b"
      · simp [h2]
      · have e2 : ("b" == b) = false := by simp [Ne.symm h2]
        simp [e2, h2, mapGet]
    rw [hf, hr]
    by_cases h1 : a = "a" <;> by_cases h2 : b = "b" <;> simp [h1, h2]
  · intro h
    have ha : "a" ∈ revList (updateGraphForFile dupReverseGraph "a" (some [])).1 "b" := by
      decide
    have hb : "b" ∉ fwdList (updateGraphForFile dupReverseGraph "a" (some [])).1 "a" := by
      decide
    exact hb ((h "a" "b").mpr ha)

end Syke

namespace Syke

-- ── Claim C8 ──

theorem nodupValues_mapSet (m : List (String × List String)) (k : String)
    (v : List String) (hm : ∀ x, ((mapGet m x).getD []).Nodup) (hv : v.Nodup) :
    ∀ x, ((mapGet (mapSet m k v) x).getD []).Nodup := by
  intro x
  by_cases hx : x = k
  · subst hx
    rw [mapGet_mapSet_self]
    exact hv
  · rw [mapGet_mapSet_ne _ _ _ _ (fun hh => hx hh.symm)]
    exact hm x

theorem inner_fold_fst (files : List String) (f' : String) (imports : List String)
    (acc : List String × List (String × List String)) :
    (imports.foldl
      (fun acc2 imp => if !(files.contains imp) then acc2
        else (acc2.1 ++ [imp], mapSet acc2.2 imp (((mapGet acc2.2 imp).getD []) ++ [f'])))
      acc).1
    = acc.1 ++ imports.filter (fun imp => files.contains imp) := by
  induction imports generalizing acc with
  | nil => simp
  | cons imp rest ih =>
    simp only [List.foldl_cons, List.filter_cons]
    cases h : files.contains imp with
    | true =>
      rw [ih]
      simp
    | false =>
      rw [ih]
      simp

theorem buildGraphCore_forward_nodup (sourceFiles : List String)
    (parse : String → List String) (hparse : ∀ x, (parse x).Nodup) :
    ∀ x : String, (fwdList (buildGraphCore sourceFiles parse) x).Nodup := by
  intro x
  unfold buildGraphCore fwdList
  dsimp only
  -- the forward map of the initial pass holds only empty (nodup) lists
  have base : ∀ (sf : List String) (m : List (String × List String)),
      (∀ y, ((mapGet m y).getD []).Nodup) →
      ∀ y, ((mapGet (sf.foldl
        (fun fwd f => if mapHas fwd f then fwd else mapSet fwd f []) m) y).getD []).Nodup := by
    intro sf
    induction sf with
    | nil => intro m hm y; exact hm y
    | cons f rest ih =>
      intro m hm y
      simp only [List.foldl_cons]
      cases hh : mapHas m f with
      | true =>
        rw [if_pos rfl]
        exact ih m hm y
      | false =>
        rw [if_neg Bool.false_ne_true]
        exact ih _ (nodupValues_mapSet m f [] hm List.nodup_nil) y
  have main : ∀ (sf : List String)
      (m : List (String × List String) × List (String × List String)),
      (∀ y, ((mapGet m.1 y).getD []).Nodup) →
      ∀ y, ((mapGet (sf.foldl
        (fun acc f =>
          if !((sourceFiles.foldl pushNew []).contains f) then acc
          else
            let inner := (parse f).foldl
              (fun acc2 imp => if !((sourceFiles.foldl pushNew []).contains imp) then acc2
                else (acc2.1 ++ [imp],
                      mapSet acc2.2 imp (((mapGet acc2.2 imp).getD []) ++ [f])))
              ([], acc.2)
            (mapSet acc.1 f inner.1, inner.2)) m).1 y).getD []).Nodup := by
    intro sf
    induction sf with
    | nil => intro m hm y; exact hm y
    | cons f rest ih =>
      intro m hm y
      simp only [List.foldl_cons]
      cases hh : (sourceFiles.foldl pushNew []).contains f with
      | true =>
        rw [if_neg (by simp)]
        refine ih _ ?_ y
        intro z
        dsimp only
        rw [inner_fold_fst]
        refine nodupValues_mapSet _ _ _ hm ?_ z
        simpa using List.Nodup.filter _ (hparse f)
      | false =>
        rw [if_pos (show (!false) = true from rfl)]
        exact ih m hm y
  exact main sourceFiles _ (fun y => by rw [mapGet]; exact base sourceFiles [] (fun z => by simp [mapGet]) y) x

end Syke

namespace Syke

/-- Claim C8 (amended): `buildGraph` and the Modified path of the
incremental updater store the parsed import list filtered to `Files`
without deduplicating it, so `Forward[f]` is duplicate-free exactly when
the parse result is; the claimed unconditional deduplication does not
happen (see the counterexample). -/
theorem forward_lists_nodup_when_parse_nodup
    (sourceFiles : List String) (parse : String → List String)
    (g : DependencyGraph) (f : String) (rawImports : List String)
    (hparse : ∀ x, (parse x).Nodup) (hraw : rawImports.Nodup) :
    (∀ x : String, (fwdList (buildGraphCore sourceFiles parse) x).Nodup) ∧
    (fwdList (updateGraphForFile g f (some rawImports)).1 f).Nodup := by
  refine ⟨buildGraphCore_forward_nodup sourceFiles parse hparse, ?_⟩
  unfold updateGraphForFile
  cases hc : g.files.contains f with
  | true =>
    rw [if_pos rfl]
    show ((mapGet (updateGraphCore g f (some rawImports)).1.forward f).getD []).Nodup
    rw [updateCore_fst_forward, mapGet_mapSet_self]
    exact List.Nodup.filter _ hraw
  | false =>
    rw [if_neg Bool.false_ne_true]
    show ((mapGet (addFileCore g f (some rawImports)).1.forward f).getD []).Nodup
    rw [addCore_fst_forward, mapGet_mapSet_self]
    exact List.Nodup.filter _ hraw

/-- Witness for claim C8 (amended) at concrete inputs. -/
theorem forward_lists_nodup_when_parse_nodup_witness :
    (∀ x : String, (fwdList (buildGraphCore ["a", "b"] (fun _ => [])) x).Nodup) ∧
    (fwdList (updateGraphForFile chainGraphBase "a" (some ["b", "c"])).1 "a").Nodup :=
  forward_lists_nodup_when_parse_nodup ["a", "b"] (fun _ => []) chainGraphBase "a"
    ["b", "c"] (fun _ => List.nodup_nil) (by decide)

/-- Counterexample for claim C8 as stated: a parse result reporting the
same import twice leaves a duplicated `Forward` list, both after a full
`buildGraph` and after a Modified incremental update. -/
theorem forward_lists_keep_duplicates :
    ¬ (fwdList (buildGraphCore ["a", "b"]
        (fun f => if f == "a" then ["b", "b"] else [])) "a").Nodup ∧
    ¬ (fwdList (updateGraphForFile chainGraphBase "a" (some ["b", "b"])).1 "a").Nodup := by
  decide

end Syke

namespace Syke

-- ── Claim C5 ──

/-- Claim C5: on the three-file cycle `x→y, y→z, z→x` (one cyclic SCC),
`analyzeImpact(x)` returns both `y` and `z` as direct dependents,
`totalImpacted = 2`, `circularCluster` holding exactly the other two files,
and cascade level 0 for both. -/
theorem cycle_impact_analysis :
    "y" ∈ (analyzeImpact emptyMemoCache cycleGraph "x" id id 0).1.directDependents ∧
    "z" ∈ (analyzeImpact emptyMemoCache cycleGraph "x" id id 0).1.directDependents ∧
    (analyzeImpact emptyMemoCache cycleGraph "x" id id 0).1.directDependents.length = 2 ∧
    (analyzeImpact emptyMemoCache cycleGraph "x" id id 0).1.totalImpacted = 2 ∧
    (analyzeImpact emptyMemoCache cycleGraph "x" id id 0).1.circularCluster = some ["z", "y"] ∧
    mapGet (((analyzeImpact emptyMemoCache cycleGraph "x" id id 0).1.cascadeLevels).getD []) "y" =
      some 0 ∧
    mapGet (((analyzeImpact emptyMemoCache cycleGraph "x" id id 0).1.cascadeLevels).getD []) "z" =
      some 0 := by
  decide

-- ── Claim C4 ──

/-- Counterexample for claim C4 as stated: `analyzeImpact` never checks
membership in `Files`; for the absent file `w` it returns an ordinary
impact result (risk `NONE`, empty dependents) — its return type has no
error variant — instead of a structured `FileNotInGraph` error. -/
theorem analyzer_returns_ordinary_result_for_unknown_file :
    ("w" ∉ cycleGraph.files) ∧
    (analyzeImpact emptyMemoCache cycleGraph "w" id id 0).1 =
      { filePath := "w", relativePath := "w", riskLevel := .NONE,
        directDependents := [], transitiveDependents := [], totalImpacted := 0,
        cascadeLevels := none, circularCluster := none, sccCount := none,
        cyclicSCCs := none, fromCache := none } := by
  decide

theorem impactBfs_nil (g : DependencyGraph) (n : String) (fuel : Nat) (visited : List String) :
    impactBfs g n fuel [] visited = visited := by
  cases fuel <;> rfl

/-- Claim C4 (amended): the membership check and the structured error
live in the route handler, not the analyser.  For a file `f` absent from
`Files` (hence, on a well-formed graph, absent from the reverse map, the
memo cache and the SCC node map) the route returns the structured
`FileNotInGraph` error without invoking the analyser, while the analyser
itself is total and returns an ordinary empty result with risk `NONE`. -/
theorem unknown_file_route_error_and_total_analyzer
    (memo : MemoCache) (g : DependencyGraph) (f : String)
    (toRel toAbs : String → String) (now : Nat)
    (hnot : f ∉ g.files)
    (hmiss : mapGet memo.cache f = none)
    (hrev : mapGet g.reverse f = none)
    (hscc : g.scc.all (fun scc => (mapGet scc.nodeToComponent f).isNone) = true) :
    (impactRoute memo g f toRel toAbs now).1 =
      .fileNotFound ("File not found in graph: " ++ f) ∧
    (analyzeImpact memo g f toRel toAbs now).1.riskLevel = RiskLevel.NONE ∧
    (analyzeImpact memo g f toRel toAbs now).1.directDependents = [] ∧
    (analyzeImpact memo g f toRel toAbs now).1.transitiveDependents = [] ∧
    (analyzeImpact memo g f toRel toAbs now).1.totalImpacted = 0 := by
  have hroute : (impactRoute memo g f toRel toAbs now).1 =
      .fileNotFound ("File not found in graph: " ++ f) := by
    unfold impactRoute
    rw [if_pos (by rw [(contains_eq_false_iff g.files f).mpr hnot]; rfl)]
  have hget : memoGet memo f = (none, { memo with misses := memo.misses + 1 }) := by
    unfold memoGet
    rw [hmiss]
  have hbfs : analyzeImpactBFS f g toRel =
      { filePath := f, relativePath := toRel f, riskLevel := RiskLevel.NONE,
        directDependents := [], transitiveDependents := [], totalImpacted := 0,
        cascadeLevels := none, circularCluster := none, sccCount := none,
        cyclicSCCs := none, fromCache := none } := by
    unfold analyzeImpactBFS
    rw [hrev]
    dsimp only [Option.getD_none]
    rw [impactBfs_nil]
    rfl
  have hresult : (analyzeImpact memo g f toRel toAbs now).1 =
      analyzeImpactBFS f g toRel := by
    unfold analyzeImpact
    dsimp only
    rw [hget]
    dsimp only
    cases hg : g.scc with
    | none => rfl
    | some scc =>
      rw [hg] at hscc
      have hlook : mapGet scc.nodeToComponent f = none := by
        simp only [Option.all_some] at hscc
        exact Option.isNone_iff_eq_none.mp hscc
      dsimp only
      unfold analyzeImpactWithSCC
      rw [hlook]
  refine ⟨hroute, ?_, ?_, ?_, ?_⟩ <;> rw [hresult, hbfs]

/-- Witness for claim C4 (amended) at concrete inputs. -/
theorem unknown_file_route_error_and_total_analyzer_witness :
    (impactRoute emptyMemoCache cycleGraph "w" id id 0).1 =
      .fileNotFound ("File not found in graph: " ++ "w") ∧
    (analyzeImpact emptyMemoCache cycleGraph "w" id id 0).1.riskLevel = RiskLevel.NONE ∧
    (analyzeImpact emptyMemoCache cycleGraph "w" id id 0).1.directDependents = [] ∧
    (analyzeImpact emptyMemoCache cycleGraph "w" id id 0).1.transitiveDependents = [] ∧
    (analyzeImpact emptyMemoCache cycleGraph "w" id id 0).1.totalImpacted = 0 :=
  unknown_file_route_error_and_total_analyzer emptyMemoCache cycleGraph "w" id id 0
    (by decide) (by decide) (by decide) (by decide)

end Syke

namespace Syke

-- ── Claim C3 ──

/-- Counterexample for claim C3 as stated: the first event the watcher
emits is the `change` event, and the graph it exposes to its listeners at
that moment is the pre-update graph, which differs from the post-update
graph the handler finally returns — so a `change` observer does see the
graph in its pre-update state. -/
theorem change_event_observes_pre_update_graph :
    (handleFileEvent chainGraph emptyMemoCache ChangeType.modified "a" (some [])).2.2.head? =
      some { kind := .change, graphAtEmission := chainGraph,
             memoAtEmission := emptyMemoCache } ∧
    (handleFileEvent chainGraph emptyMemoCache ChangeType.modified "a" (some [])).1 ≠
      chainGraph := by
  decide

/-- Claim C3 (amended): `handleFileEvent` emits the `change` event first,
observing the pre-update graph and memo cache, and only then applies the
incremental update and memo invalidation; the subsequent `graph-updated`
event observes exactly the final post-update, post-invalidation state. -/
theorem watcher_emits_change_before_update
    (g : DependencyGraph) (memo : MemoCache) (type : ChangeType) (absPath : String)
    (raw : Option (List String)) :
    (handleFileEvent g memo type absPath raw).2.2 =
      [{ kind := .change, graphAtEmission := g, memoAtEmission := memo },
       { kind := .graphUpdated,
         graphAtEmission := (handleFileEvent g memo type absPath raw).1,
         memoAtEmission := (handleFileEvent g memo type absPath raw).2.1 }] := rfl

-- ── Claim C10 ──

theorem handleFileEvent_memo_unchanged
    (g : DependencyGraph) (memo : MemoCache) (type : ChangeType) (absPath : String)
    (raw : Option (List String))
    (h : (match type with
      | ChangeType.modified => updateGraphForFile g absPath raw
      | ChangeType.added => addFileToGraph g absPath raw
      | ChangeType.deleted => removeFileFromGraph g absPath).2.edgesChanged = false) :
    (handleFileEvent g memo type absPath raw).2.1 = memo := by
  unfold handleFileEvent
  dsimp only
  rw [h]
  rfl

theorem remove_isolated_edgesChanged (g : DependencyGraph) (f : String)
    (hf : g.files.contains f = true)
    (hfwd : (mapGet g.forward f).getD [] = [])
    (hrev : (mapGet g.reverse f).getD [] = []) :
    (removeFileFromGraph g f).2.edgesChanged = false := by
  unfold removeFileFromGraph
  rw [hf, if_neg (by simp)]
  dsimp only
  rw [hfwd]
  dsimp only [removeEdgeTargets, List.foldl_nil]
  rw [hrev]
  rfl

theorem add_no_imports_edgesChanged (g : DependencyGraph) (f : String)
    (rawImports : List String)
    (hf : g.files.contains f = false)
    (hfilter : rawImports.filter (fun imp => (pushNew g.files f).contains imp) = []) :
    (addFileToGraph g f (some rawImports)).2.edgesChanged = false := by
  unfold addFileToGraph
  rw [hf, if_neg Bool.false_ne_true]
  unfold addFileCore
  dsimp only
  rw [hfilter]
  rfl

/-- Claim C10: the watcher invalidates the memo cache only when the
incremental update reports at least one added or removed edge.  In
particular, deleting a file with no forward and no reverse edges removes it
from `Files` but leaves every memo entry — including one keyed by that very
file — resident and retrievable, and adding a file none of whose
parsed imports resolves into the graph likewise leaves the memo
untouched. -/
theorem watcher_invalidates_only_on_edge_changes
    (g : DependencyGraph) (memo : MemoCache) (type : ChangeType) (absPath : String)
    (raw : Option (List String)) (f : String) (e : MemoEntry) (rawImports : List String) :
    ((match type with
      | ChangeType.modified => updateGraphForFile g absPath raw
      | ChangeType.added => addFileToGraph g absPath raw
      | ChangeType.deleted => removeFileFromGraph g absPath).2.edgesChanged = false →
      (handleFileEvent g memo type absPath raw).2.1 = memo) ∧
    (f ∈ g.files → (mapGet g.forward f).getD [] = [] → (mapGet g.reverse f).getD [] = [] →
      (handleFileEvent g memo ChangeType.deleted f raw).2.1 = memo ∧
      f ∉ (handleFileEvent g memo ChangeType.deleted f raw).1.files ∧
      (mapGet memo.cache f = some e →
        (memoGet (handleFileEvent g memo ChangeType.deleted f raw).2.1 f).1 = some e)) ∧
    (f ∉ g.files → rawImports.filter (fun imp => (pushNew g.files f).contains imp) = [] →
      (handleFileEvent g memo ChangeType.added f (some rawImports)).2.1 = memo) := by
  refine ⟨handleFileEvent_memo_unchanged g memo type absPath raw, ?_, ?_⟩
  · intro hmem hfwd hrev
    have hc : g.files.contains f = true := (List.elem_iff).mpr hmem
    have hchanged : (removeFileFromGraph g f).2.edgesChanged = false :=
      remove_isolated_edgesChanged g f hc hfwd hrev
    have hunch : (handleFileEvent g memo ChangeType.deleted f raw).2.1 = memo :=
      handleFileEvent_memo_unchanged g memo ChangeType.deleted f raw hchanged
    refine ⟨hunch, ?_, ?_⟩
    · have hfiles : (handleFileEvent g memo ChangeType.deleted f raw).1.files =
          g.files.filter (fun x => x != f) := by
        show (removeFileFromGraph g f).1.files = _
        exact remove_fst_files g f hc
      rw [hfiles]
      intro hbad
      have := List.of_mem_filter hbad
      simp at this
    · intro hsome
      rw [hunch]
      unfold memoGet
      rw [hsome]
  · intro hnot hfilter
    have hc : g.files.contains f = false := (contains_eq_false_iff _ _).mpr hnot
    exact handleFileEvent_memo_unchanged g memo ChangeType.added f (some rawImports)
      (add_no_imports_edgesChanged g f rawImports hc hfilter)

/-- Witness for claim C10 at concrete inputs: deleting the isolated file
`a` (which has a cached memo entry) and adding an unknown file `d` with an
unresolvable import. -/
theorem watcher_invalidates_only_on_edge_changes_witness :
    ((match ChangeType.deleted with
      | ChangeType.modified => updateGraphForFile exampleWfGraph "a" none
      | ChangeType.added => addFileToGraph exampleWfGraph "a" none
      | ChangeType.deleted => removeFileFromGraph exampleWfGraph "a").2.edgesChanged = false →
      (handleFileEvent exampleWfGraph exampleMemo ChangeType.deleted "a" none).2.1 =
        exampleMemo) ∧
    ("a" ∈ exampleWfGraph.files →
      (mapGet exampleWfGraph.forward "a").getD [] = [] →
      (mapGet exampleWfGraph.reverse "a").getD [] = [] →
      (handleFileEvent exampleWfGraph exampleMemo ChangeType.deleted "a" none).2.1 =
        exampleMemo ∧
      "a" ∉ (handleFileEvent exampleWfGraph exampleMemo ChangeType.deleted "a" none).1.files ∧
      (mapGet exampleMemo.cache "a" = some exampleEntry →
        (memoGet (handleFileEvent exampleWfGraph exampleMemo
          ChangeType.deleted "a" none).2.1 "a").1 = some exampleEntry)) ∧
    ("a" ∉ exampleWfGraph.files →
      List.filter (fun imp => (pushNew exampleWfGraph.files "a").contains imp) ["q"] = [] →
      (handleFileEvent exampleWfGraph exampleMemo ChangeType.added "a" (some ["q"])).2.1 =
        exampleMemo) :=
  watcher_invalidates_only_on_edge_changes exampleWfGraph exampleMemo ChangeType.deleted
    "a" none "a" exampleEntry ["q"]

end Syke

namespace Syke

-- ── Claim C7: supporting lemmas ──

theorem removeFirst_of_not_mem [BEq κ] [LawfulBEq κ] (l : List κ) (y : κ) (h : y ∉ l) :
    removeFirst l y = l := by
  induction l with
  | nil => rfl
  | cons a l ih =>
    unfold removeFirst
    have ha : (a == y) = false := by
      simp only [List.mem_cons, not_or] at h
      simp [Ne.symm h.1]
    rw [ha, if_neg Bool.false_ne_true,
        ih (fun hm => h (List.mem_cons.mpr (Or.inr hm)))]

theorem mem_removeFirst_iff [BEq κ] [LawfulBEq κ] (l : List κ) (x y : κ) (h : l.Nodup) :
    x ∈ removeFirst l y ↔ x ∈ l ∧ x ≠ y := by
  by_cases hxy : x = y
  · subst hxy
    simp only [ne_eq, not_true_eq_false, and_false, iff_false]
    exact not_mem_removeFirst l x h
  · rw [mem_removeFirst_of_ne l x y hxy]
    simp [hxy]

theorem removeFirst_eq_filter (l : List String) (y : String) (h : l.Nodup) :
    removeFirst l y = l.filter (fun x => x != y) := by
  induction l with
  | nil => rfl
  | cons a l ih =>
    rcases List.nodup_cons.mp h with ⟨ha, hl⟩
    unfold removeFirst
    simp only [List.filter_cons]
    by_cases hay : a = y
    · subst hay
      rw [if_pos (by simp), if_neg (by simp)]
      rw [List.filter_eq_self.mpr]
      intro x hx
      simp only [bne_iff_ne, ne_eq]
      intro hxa
      exact ha (hxa ▸ hx)
    · rw [if_neg (by simp [hay]), if_pos (by simp [hay]), ih hl]

theorem mapDelete_eq_self_of_get_none [BEq κ] [LawfulBEq κ] (m : List (κ × α)) (k : κ)
    (h : mapGet m k = none) : mapDelete m k = m := by
  unfold mapDelete
  rw [List.filter_eq_self]
  intro p hp
  simp only [bne_iff_ne, ne_eq]
  intro hpk
  unfold mapGet at h
  have hf : List.find? (fun p => p.1 == k) m = none := by
    cases hff : List.find? (fun p => p.1 == k) m with
    | none => rfl
    | some q => rw [hff] at h; simp at h
  rw [List.find?_eq_none] at hf
  exact absurd (by simp [hpk] : (fun p : κ × α => p.1 == k) p = true) (hf p hp)

theorem mem_foldl_pushNew (l acc : List String) (x : String) :
    x ∈ l.foldl pushNew acc ↔ x ∈ acc ∨ x ∈ l := by
  induction l generalizing acc with
  | nil => simp
  | cons a l ih =>
    simp only [List.foldl_cons, ih, mem_pushNew, List.mem_cons]
    tauto

theorem nodup_foldl_pushNew (l acc : List String) (h : acc.Nodup) :
    (l.foldl pushNew acc).Nodup := by
  induction l generalizing acc with
  | nil => exact h
  | cons a l ih => exact ih _ (pushNew_nodup acc a h)

theorem getD_removeIndexKey (r : List (String × List String)) (file key b : String) :
    (mapGet (removeIndexKey r file key) b).getD [] =
      if b = file then removeFirst ((mapGet r b).getD []) key
      else (mapGet r b).getD [] := by
  unfold removeIndexKey
  cases hg : mapGet r file with
  | none =>
    by_cases hb : b = file
    · subst hb
      rw [if_pos rfl, hg]
      rfl
    · rw [if_neg hb]
  | some keys =>
    dsimp only
    cases he : (removeFirst keys key).isEmpty with
    | true =>
      rw [if_pos rfl]
      have hemp : removeFirst keys key = [] := by
        cases hrf : removeFirst keys key with
        | nil => rfl
        | cons z zs => rw [hrf] at he; simp at he
      by_cases hb : b = file
      · subst hb
        rw [mapGet_mapDelete_self, if_pos rfl, hg]
        simp [hemp]
      · rw [mapGet_mapDelete_ne _ _ _ (fun hh => hb hh.symm), if_neg hb]
    | false =>
      rw [if_neg Bool.false_ne_true]
      by_cases hb : b = file
      · subst hb
        rw [mapGet_mapSet_self, if_pos rfl, hg]
        rfl
      · rw [mapGet_mapSet_ne _ _ _ _ (fun hh => hb hh.symm), if_neg hb]

theorem getD_foldl_removeIndexKey (files : List String) (key : String)
    (r : List (String × List String)) (hnd : ∀ b, ((mapGet r b).getD []).Nodup) (b : String) :
    (mapGet (files.foldl (fun acc file => removeIndexKey acc file key) r) b).getD [] =
      if b ∈ files then removeFirst ((mapGet r b).getD []) key
      else (mapGet r b).getD [] := by
  induction files generalizing r with
  | nil => simp
  | cons file rest ih =>
    simp only [List.foldl_cons]
    have hstepnd : ∀ b2, ((mapGet (removeIndexKey r file key) b2).getD []).Nodup := by
      intro b2
      rw [getD_removeIndexKey]
      by_cases hb2 : b2 = file
      · rw [if_pos hb2]
        exact removeFirst_nodup _ _ (hnd b2)
      · rw [if_neg hb2]
        exact hnd b2
    rw [ih _ hstepnd]
    by_cases hmem : b ∈ rest
    · rw [if_pos hmem, if_pos (List.mem_cons.mpr (Or.inr hmem)), getD_removeIndexKey]
      by_cases hb : b = file
      · rw [if_pos hb]
        rw [removeFirst_of_not_mem _ _ (not_mem_removeFirst _ _ (hnd b))]
      · rw [if_neg hb]
    · rw [if_neg hmem, getD_removeIndexKey]
      by_cases hb : b = file
      · rw [if_pos hb, if_pos (List.mem_cons.mpr (Or.inl hb))]
      · rw [if_neg hb, if_neg (by simp [List.mem_cons, hb, hmem])]

end Syke

namespace Syke

theorem removeEntry_cache (c : MemoCache) (k : String) :
    (removeEntry c k).cache = mapDelete c.cache k := by
  unfold removeEntry
  cases hg : mapGet c.cache k with
  | none => exact (mapDelete_eq_self_of_get_none c.cache k hg).symm
  | some e => rfl

theorem removeEntry_counters (c : MemoCache) (k : String) :
    (removeEntry c k).hits = c.hits ∧ (removeEntry c k).misses = c.misses ∧
    (removeEntry c k).maxSize = c.maxSize := by
  unfold removeEntry
  cases hg : mapGet c.cache k with
  | none => exact ⟨rfl, rfl, rfl⟩
  | some e => exact ⟨rfl, rfl, rfl⟩

theorem removeEntry_accessOrder (c : MemoCache) (k : String)
    (hord : ∀ x ∈ c.accessOrder, (mapGet c.cache x).isSome = true) :
    (removeEntry c k).accessOrder = removeFirst c.accessOrder k := by
  unfold removeEntry
  cases hg : mapGet c.cache k with
  | none =>
    dsimp only
    rw [removeFirst_of_not_mem]
    intro hk
    have := hord k hk
    rw [hg] at this
    simp at this
  | some e => rfl

theorem removeEntry_rindex_getD (c : MemoCache) (k : String)
    (hnd : ∀ b, ((mapGet c.reverseIndex b).getD []).Nodup) (b : String) :
    ((mapGet (removeEntry c k).reverseIndex b).getD []) =
      match mapGet c.cache k with
      | none => (mapGet c.reverseIndex b).getD []
      | some e =>
        if b ∈ e.impactSet ∨ b = k then removeFirst ((mapGet c.reverseIndex b).getD []) k
        else (mapGet c.reverseIndex b).getD [] := by
  unfold removeEntry
  cases hg : mapGet c.cache k with
  | none => rfl
  | some e =>
    dsimp only
    have hfold := getD_foldl_removeIndexKey e.impactSet k c.reverseIndex hnd
    have hfoldnd : ∀ b2, ((mapGet (e.impactSet.foldl
        (fun acc file => removeIndexKey acc file k) c.reverseIndex) b2).getD []).Nodup := by
      intro b2
      rw [hfold b2]
      by_cases hb2 : b2 ∈ e.impactSet
      · rw [if_pos hb2]
        exact removeFirst_nodup _ _ (hnd b2)
      · rw [if_neg hb2]
        exact hnd b2
    rw [getD_removeIndexKey, hfold]
    by_cases hbk : b = k
    · rw [if_pos hbk, if_pos (Or.inr hbk)]
      by_cases hbi : b ∈ e.impactSet
      · rw [if_pos hbi, removeFirst_of_not_mem _ _ (not_mem_removeFirst _ _ (hnd b))]
      · rw [if_neg hbi]
    · rw [if_neg hbk]
      by_cases hbi : b ∈ e.impactSet
      · rw [if_pos hbi, if_pos (Or.inl hbi)]
      · rw [if_neg hbi, if_neg (by tauto)]

theorem removeEntry_rindex_nodup (c : MemoCache) (k : String)
    (hnd : ∀ b, ((mapGet c.reverseIndex b).getD []).Nodup) :
    ∀ b, ((mapGet (removeEntry c k).reverseIndex b).getD []).Nodup := by
  intro b
  rw [removeEntry_rindex_getD c k hnd b]
  cases hg : mapGet c.cache k with
  | none => exact hnd b
  | some e =>
    dsimp only
    by_cases hb : b ∈ e.impactSet ∨ b = k
    · rw [if_pos hb]
      exact removeFirst_nodup _ _ (hnd b)
    · rw [if_neg hb]
      exact hnd b

theorem removeEntry_rindex_mem_of_ne (c : MemoCache) (k k₂ : String) (hne : k₂ ≠ k)
    (hnd : ∀ b, ((mapGet c.reverseIndex b).getD []).Nodup) (b : String) :
    (k₂ ∈ (mapGet (removeEntry c k).reverseIndex b).getD [] ↔
      k₂ ∈ (mapGet c.reverseIndex b).getD []) := by
  rw [removeEntry_rindex_getD c k hnd b]
  cases hg : mapGet c.cache k with
  | none => rfl
  | some e =>
    dsimp only
    by_cases hb : b ∈ e.impactSet ∨ b = k
    · rw [if_pos hb, mem_removeFirst_of_ne _ _ _ hne]
    · rw [if_neg hb]

theorem invalidate_fold_char (ks : List String) :
    ∀ c : MemoCache, ks.Nodup →
    ((c.cache.map Prod.fst).Nodup) →
    (∀ b, ((mapGet c.reverseIndex b).getD []).Nodup) →
    c.accessOrder.Nodup →
    (∀ x ∈ c.accessOrder, (mapGet c.cache x).isSome = true) →
    (∀ x, mapGet (ks.foldl removeEntry c).cache x =
      if x ∈ ks then none else mapGet c.cache x) ∧
    ((ks.foldl removeEntry c).accessOrder = c.accessOrder.filter (fun x => !(ks.contains x))) ∧
    (∀ b k₂, k₂ ∉ ks →
      (k₂ ∈ (mapGet (ks.foldl removeEntry c).reverseIndex b).getD [] ↔
        k₂ ∈ (mapGet c.reverseIndex b).getD [])) ∧
    (ks.foldl removeEntry c).hits = c.hits ∧
    (ks.foldl removeEntry c).misses = c.misses := by
  induction ks with
  | nil =>
    intro c _ _ _ _ _
    refine ⟨fun x => by simp, by simp, fun b k₂ _ => Iff.rfl, rfl, rfl⟩
  | cons k rest ih =>
    intro c hks hkeys hrnd hond homem
    rcases List.nodup_cons.mp hks with ⟨hkrest, hrestnd⟩
    -- facts about the single step
    have s_cache : (removeEntry c k).cache = mapDelete c.cache k := removeEntry_cache c k
    have s_order : (removeEntry c k).accessOrder = removeFirst c.accessOrder k :=
      removeEntry_accessOrder c k homem
    -- re-established invariants
    have hkeys1 : ((removeEntry c k).cache.map Prod.fst).Nodup := by
      rw [s_cache]
      exact List.Nodup.sublist (List.Sublist.map Prod.fst (List.filter_sublist _)) hkeys
    have hrnd1 : ∀ b, ((mapGet (removeEntry c k).reverseIndex b).getD []).Nodup :=
      removeEntry_rindex_nodup c k hrnd
    have hond1 : (removeEntry c k).accessOrder.Nodup := by
      rw [s_order]
      exact removeFirst_nodup _ _ hond
    have homem1 : ∀ x ∈ (removeEntry c k).accessOrder,
        (mapGet (removeEntry c k).cache x).isSome = true := by
      intro x hx
      rw [s_order] at hx
      have hxord : x ∈ c.accessOrder := removeFirst_subset _ _ _ hx
      have hxk : x ≠ k := ((mem_removeFirst_iff _ _ _ hond).mp hx).2
      rw [s_cache, mapGet_mapDelete_ne _ _ _ (fun hh => hxk hh.symm)]
      exact homem x hxord
    have main := ih (removeEntry c k) hrestnd hkeys1 hrnd1 hond1 homem1
    rcases main with ⟨mcache, morder, mrindex, mhits, mmiss⟩
    simp only [List.foldl_cons]
    refine ⟨?_, ?_, ?_, ?_, ?_⟩
    · intro x
      rw [mcache x]
      by_cases hx : x ∈ rest
      · rw [if_pos hx, if_pos (List.mem_cons.mpr (Or.inr hx))]
      · rw [if_neg hx, s_cache]
        by_cases hxk : x = k
        · subst hxk
          rw [mapGet_mapDelete_self, if_pos (List.mem_cons.mpr (Or.inl rfl))]
        · rw [mapGet_mapDelete_ne _ _ _ (fun hh => hxk hh.symm),
              if_neg (by simp [List.mem_cons, hxk, hx])]
    · rw [morder, s_order, removeFirst_eq_filter _ _ hond, List.filter_filter]
      refine List.filter_congr ?_
      intro x _
      by_cases hxk : x = k
      · subst hxk
        simp
      · by_cases hxr : x ∈ rest <;>
          simp [hxk, hxr, List.elem_iff, List.mem_cons]
    · intro b k₂ hk₂
      have hk₂k : k₂ ≠ k := fun hh => hk₂ (List.mem_cons.mpr (Or.inl hh))
      have hk₂r : k₂ ∉ rest := fun hh => hk₂ (List.mem_cons.mpr (Or.inr hh))
      rw [mrindex b k₂ hk₂r, removeEntry_rindex_mem_of_ne c k k₂ hk₂k hrnd b]
    · rw [mhits, (removeEntry_counters c k).1]
    · rw [mmiss, (removeEntry_counters c k).2.1]

end Syke

namespace Syke

theorem mem_collect_rindex (Δ : List String) (r : String → List String)
    (acc : List String) (x : String) :
    x ∈ Δ.foldl (fun acc2 f => (r f).foldl pushNew acc2) acc ↔
      x ∈ acc ∨ ∃ f ∈ Δ, x ∈ r f := by
  induction Δ generalizing acc with
  | nil => simp
  | cons f rest ih =>
    simp only [List.foldl_cons, ih, mem_foldl_pushNew, List.mem_cons]
    constructor
    · rintro (( h | h) | ⟨f2, hf2, hx⟩)
      · exact Or.inl h
      · exact Or.inr ⟨f, Or.inl rfl, h⟩
      · exact Or.inr ⟨f2, Or.inr hf2, hx⟩
    · rintro (h | ⟨f2, (rfl | hf2), hx⟩)
      · exact Or.inl (Or.inl h)
      · exact Or.inl (Or.inr hx)
      · exact Or.inr ⟨f2, hf2, hx⟩

theorem nodup_collect_rindex (Δ : List String) (r : String → List String)
    (acc : List String) (h : acc.Nodup) :
    (Δ.foldl (fun acc2 f => (r f).foldl pushNew acc2) acc).Nodup := by
  induction Δ generalizing acc with
  | nil => exact h
  | cons f rest ih => exact ih _ (nodup_foldl_pushNew _ _ h)

theorem invalidationHitB_iff (c : MemoCache) (Δ : List String) (k : String) :
    invalidationHitB c Δ k = true ↔
      ∃ e, mapGet c.cache k = some e ∧ ∃ f ∈ Δ, (f ∈ e.impactSet ∨ f = k) := by
  unfold invalidationHitB
  cases hg : mapGet c.cache k with
  | none => simp
  | some e =>
    simp only [List.any_eq_true, Bool.or_eq_true, Option.some.injEq]
    constructor
    · rintro ⟨f, hf, hor⟩
      refine ⟨e, rfl, f, hf, ?_⟩
      rcases hor with h | h
      · exact Or.inl ((List.elem_iff).mp h)
      · exact Or.inr (by simpa using h)
    · rintro ⟨e2, he2, f, hf, hor⟩
      cases he2
      refine ⟨f, hf, ?_⟩
      rcases hor with h | h
      · exact Or.inl ((List.elem_iff).mpr h)
      · exact Or.inr (by simp [h])

theorem mapGet_some_mem_keys [BEq κ] [LawfulBEq κ] (m : List (κ × α)) (k : κ) (v : α)
    (h : mapGet m k = some v) : k ∈ m.map Prod.fst := by
  unfold mapGet at h
  cases hf : List.find? (fun p => p.1 == k) m with
  | none => rw [hf] at h; simp at h
  | some p =>
    have hp : p ∈ m := List.mem_of_find?_eq_some hf
    have hpk := List.find?_some hf
    have : p.1 = k := by simpa using hpk
    exact this ▸ List.mem_map_of_mem Prod.fst hp

/-- Claim C7: `invalidate(Δ)` removes exactly the resident keys whose
impact set (or the key itself) meets `Δ`, returns the number of keys
removed, and leaves every surviving entry untouched: value, reverse-index
contributions, relative recency position, and the hit/miss counters. -/
theorem memo_invalidate_exact (c : MemoCache) (Δ : List String) (hwf : MemoWF c) :
    (memoInvalidate c Δ).1 =
      ((c.cache.map Prod.fst).filter (invalidationHitB c Δ)).length ∧
    (∀ k, invalidationHitB c Δ k = true → mapGet (memoInvalidate c Δ).2.cache k = none) ∧
    (∀ k, invalidationHitB c Δ k = false →
      mapGet (memoInvalidate c Δ).2.cache k = mapGet c.cache k) ∧
    (memoInvalidate c Δ).2.accessOrder =
      c.accessOrder.filter (fun k => !(invalidationHitB c Δ k)) ∧
    (∀ b k, invalidationHitB c Δ k = false →
      (k ∈ (mapGet (memoInvalidate c Δ).2.reverseIndex b).getD [] ↔
        k ∈ (mapGet c.reverseIndex b).getD [])) ∧
    (memoInvalidate c Δ).2.hits = c.hits ∧
    (memoInvalidate c Δ).2.misses = c.misses := by
  have hKmem : ∀ k, k ∈ Δ.foldl
      (fun acc file => ((mapGet c.reverseIndex file).getD []).foldl pushNew acc) [] ↔
      invalidationHitB c Δ k = true := by
    intro k
    rw [mem_collect_rindex Δ (fun f => (mapGet c.reverseIndex f).getD []) [] k,
        invalidationHitB_iff]
    simp only [List.not_mem_nil, false_or]
    constructor
    · rintro ⟨f, hf, hk⟩
      rcases (hwf.rindex_inv f k).mp hk with ⟨e, he, hor⟩
      exact ⟨e, he, f, hf, hor⟩
    · rintro ⟨e, he, f, hf, hor⟩
      exact ⟨f, hf, (hwf.rindex_inv f k).mpr ⟨e, he, hor⟩⟩
  have hKnd : (Δ.foldl
      (fun acc file => ((mapGet c.reverseIndex file).getD []).foldl pushNew acc) []).Nodup :=
    nodup_collect_rindex Δ _ [] List.nodup_nil
  have hchar := invalidate_fold_char
    (Δ.foldl (fun acc file => ((mapGet c.reverseIndex file).getD []).foldl pushNew acc) [])
    c hKnd hwf.keys_nodup hwf.rindex_nodup hwf.order_nodup hwf.order_mem
  rcases hchar with ⟨mcache, morder, mrindex, mhits, mmiss⟩
  have hsnd : (memoInvalidate c Δ).2 =
      (Δ.foldl (fun acc file => ((mapGet c.reverseIndex file).getD []).foldl pushNew acc)
        []).foldl removeEntry c := rfl
  refine ⟨?_, ?_, ?_, ?_, ?_, ?_, ?_⟩
  · show (Δ.foldl (fun acc file => ((mapGet c.reverseIndex file).getD []).foldl pushNew acc)
      []).length = _
    refine List.Perm.length_eq ((List.perm_ext_iff_of_nodup hKnd ?_).mpr ?_)
    · exact List.Nodup.sublist (List.filter_sublist _) hwf.keys_nodup
    · intro a
      rw [hKmem a, List.mem_filter]
      constructor
      · intro h
        rcases (invalidationHitB_iff c Δ a).mp h with ⟨e, he, _⟩
        exact ⟨mapGet_some_mem_keys _ _ _ he, h⟩
      · exact fun h => h.2
  · intro k hk
    rw [hsnd, mcache k, if_pos ((hKmem k).mpr hk)]
  · intro k hk
    rw [hsnd, mcache k, if_neg (fun hm => by rw [(hKmem k).mp hm] at hk; exact absurd hk (by simp))]
  · rw [hsnd, morder]
    refine List.filter_congr ?_
    intro x _
    cases h : invalidationHitB c Δ x with
    | true =>
      have hc : (Δ.foldl (fun acc file =>
          ((mapGet c.reverseIndex file).getD []).foldl pushNew acc) []).contains x = true :=
        (List.elem_iff).mpr ((hKmem x).mpr h)
      rw [hc]
    | false =>
      have hc : (Δ.foldl (fun acc file =>
          ((mapGet c.reverseIndex file).getD []).foldl pushNew acc) []).contains x = false :=
        (contains_eq_false_iff _ _).mpr (fun hm => by
          rw [(hKmem x).mp hm] at h
          exact absurd h (by simp))
      rw [hc]
  · intro b k hk
    rw [hsnd]
    exact mrindex b k (fun hm => by rw [(hKmem k).mp hm] at hk; exact absurd hk (by simp))
  · rw [hsnd, mhits]
  · rw [hsnd, mmiss]

end Syke

namespace Syke

theorem exampleMemo_wf : MemoWF exampleMemo := by
  have hcache : exampleMemo.cache = [("a", exampleEntry)] := rfl
  have hrindex : exampleMemo.reverseIndex = [("a", ["a"])] := rfl
  have horder : exampleMemo.accessOrder = ["a"] := rfl
  constructor
  · rw [hcache]
    decide
  · intro f k
    rw [hrindex, hcache, mapGet_cons, mapGet_cons]
    by_cases hf : f = "a"
    · subst hf
      simp only [beq_self_eq_true, if_true, Option.getD_some, List.mem_singleton]
      constructor
      · intro hk
        subst hk
        exact ⟨exampleEntry, by simp, Or.inr rfl⟩
      · rintro ⟨e, he, hor⟩
        by_cases hk : ("a" == k) = true
        · have : "a" = k := by simpa using hk
          exact this.symm
        · rw [if_neg hk] at he
          simp [mapGet] at he
    · have hfb : ("a" == f) = false := by simp [Ne.symm hf]
      simp only [hfb, Bool.false_eq_true, if_false]
      constructor
      · intro hk
        simp [mapGet] at hk
      · rintro ⟨e, he, hor⟩
        by_cases hk : ("a" == k) = true
        · rw [if_pos hk] at he
          have hk2 : k = "a" := by
            have : "a" = k := by simpa using hk
            exact this.symm
          have he2 : e = exampleEntry := by simpa using he.symm
          subst hk2
          subst he2
          rcases hor with h | h
          · simp [exampleEntry] at h
          · exact absurd h.symm (fun hh => hf hh.symm)
        · rw [if_neg hk] at he
          simp [mapGet] at he
  · intro f
    rw [hrindex, mapGet_cons]
    by_cases hf : ("a" == f) = true
    · rw [if_pos hf]
      decide
    · rw [if_neg hf]
      simp [mapGet]
  · rw [horder]
    decide
  · intro x hx
    rw [horder] at hx
    simp only [List.mem_singleton] at hx
    subst hx
    rw [hcache, mapGet_cons]
    rfl

/-- Witness for claim C7 at concrete inputs: invalidating `{"a"}` on a
cache holding the single entry for `a`. -/
theorem memo_invalidate_exact_witness :
    (memoInvalidate exampleMemo ["a"]).1 =
      ((exampleMemo.cache.map Prod.fst).filter (invalidationHitB exampleMemo ["a"])).length ∧
    (∀ k, invalidationHitB exampleMemo ["a"] k = true →
      mapGet (memoInvalidate exampleMemo ["a"]).2.cache k = none) ∧
    (∀ k, invalidationHitB exampleMemo ["a"] k = false →
      mapGet (memoInvalidate exampleMemo ["a"]).2.cache k = mapGet exampleMemo.cache k) ∧
    (memoInvalidate exampleMemo ["a"]).2.accessOrder =
      exampleMemo.accessOrder.filter (fun k => !(invalidationHitB exampleMemo ["a"] k)) ∧
    (∀ b k, invalidationHitB exampleMemo ["a"] k = false →
      (k ∈ (mapGet (memoInvalidate exampleMemo ["a"]).2.reverseIndex b).getD [] ↔
        k ∈ (mapGet exampleMemo.reverseIndex b).getD [])) ∧
    (memoInvalidate exampleMemo ["a"]).2.hits = exampleMemo.hits ∧
    (memoInvalidate exampleMemo ["a"]).2.misses = exampleMemo.misses :=
  memo_invalidate_exact exampleMemo ["a"] exampleMemo_wf

end Syke

namespace Syke

-- ── Claim C2: supporting lemmas ──

theorem foldl_pushNew_eq_append (l acc : List String) (hnd : l.Nodup)
    (hdis : ∀ x ∈ l, x ∉ acc) : l.foldl pushNew acc = acc ++ l := by
  induction l generalizing acc with
  | nil => simp
  | cons a rest ih =>
    rcases List.nodup_cons.mp hnd with ⟨hna, hrest⟩
    simp only [List.foldl_cons]
    have hstep : pushNew acc a = acc ++ [a] := by
      unfold pushNew
      rw [if_neg]
      intro hc
      exact hdis a (List.mem_cons.mpr (Or.inl rfl)) ((List.elem_iff).mp hc)
    rw [hstep, ih (acc ++ [a]) hrest]
    · simp
    · intro x hx
      rw [List.mem_append, List.mem_singleton]
      rintro (hmem | rfl)
      · exact hdis x (List.mem_cons.mpr (Or.inr hx)) hmem
      · exact hna hx

theorem impactBfs_step_aux (deps : List String) (n : String)
    (acc : List String × List String) (hnd : acc.1.Nodup) :
    ((deps.foldl
      (fun acc2 dep => if acc2.1.contains dep || dep == n then acc2
        else (acc2.1 ++ [dep], acc2.2 ++ [dep])) acc).1.Nodup) ∧
    (∀ x ∈ acc.1, x ∈ (deps.foldl
      (fun acc2 dep => if acc2.1.contains dep || dep == n then acc2
        else (acc2.1 ++ [dep], acc2.2 ++ [dep])) acc).1) := by
  induction deps generalizing acc with
  | nil => exact ⟨hnd, fun x hx => hx⟩
  | cons d rest ih =>
    simp only [List.foldl_cons]
    cases hc : (acc.1.contains d || d == n) with
    | true =>
      rw [if_pos rfl]
      exact ih acc hnd
    | false =>
      rw [if_neg Bool.false_ne_true]
      have hdn : d ∉ acc.1 := by
        rcases Bool.or_eq_false_iff.mp hc with ⟨h1, _⟩
        exact (contains_eq_false_iff _ _).mp h1
      have hnd2 : (acc.1 ++ [d]).Nodup := by
        simp [List.nodup_append, hnd, hdn]
      rcases ih (acc.1 ++ [d], acc.2 ++ [d]) hnd2 with ⟨ha, hb⟩
      refine ⟨ha, fun x hx => hb x ?_⟩
      exact List.mem_append.mpr (Or.inl hx)

theorem impactBfs_nodup_supset (g : DependencyGraph) (n : String) :
    ∀ (fuel : Nat) (queue visited : List String), visited.Nodup →
    ((impactBfs g n fuel queue visited).Nodup ∧
     ∀ x ∈ visited, x ∈ impactBfs g n fuel queue visited) := by
  intro fuel
  induction fuel with
  | zero => exact fun queue visited h => ⟨h, fun x hx => hx⟩
  | succ fuel ih =>
    intro queue visited h
    cases queue with
    | nil => exact ⟨h, fun x hx => hx⟩
    | cons current rest =>
      show ((impactBfs g n (fuel + 1) (current :: rest) visited).Nodup ∧ _)
      unfold impactBfs
      rcases impactBfs_step_aux ((mapGet g.reverse current).getD []) n (visited, rest) h
        with ⟨ha, hb⟩
      rcases ih _ _ ha with ⟨hc, hd⟩
      exact ⟨hc, fun x hx => hd x (hb x hx)⟩

end Syke

namespace Syke

theorem length_filter_mem_eq (visited raw : List String) (hv : visited.Nodup)
    (hr : raw.Nodup) (hsub : ∀ x ∈ raw, x ∈ visited) :
    (visited.filter (fun x => raw.contains x)).length = raw.length := by
  refine List.Perm.length_eq ((List.perm_ext_iff_of_nodup ?_ hr).mpr ?_)
  · exact List.Nodup.sublist (List.filter_sublist _) hv
  · intro a
    rw [List.mem_filter]
    constructor
    · rintro ⟨_, hc⟩
      exact (List.elem_iff).mp hc
    · intro ha
      exact ⟨hsub a ha, (List.elem_iff).mpr ha⟩

theorem analyzeImpactBFS_total (g : DependencyGraph) (f : String) (toRel : String → String)
    (hrevnd : ((mapGet g.reverse f).getD []).Nodup) :
    (analyzeImpactBFS f g toRel).totalImpacted =
      (analyzeImpactBFS f g toRel).directDependents.length +
      (analyzeImpactBFS f g toRel).transitiveDependents.length := by
  unfold analyzeImpactBFS
  dsimp only
  have hinit : ((mapGet g.reverse f).getD []).foldl pushNew [] = (mapGet g.reverse f).getD [] := by
    rw [foldl_pushNew_eq_append _ [] hrevnd (fun x _ => List.not_mem_nil x)]
    simp
  rw [hinit]
  rcases impactBfs_nodup_supset g f (bfsFuel g + ((mapGet g.reverse f).getD []).length + 1)
    ((mapGet g.reverse f).getD []) ((mapGet g.reverse f).getD []) hrevnd with ⟨hvnd, hsub⟩
  rw [List.length_map, List.length_map]
  rw [show (impactBfs g f (bfsFuel g + ((mapGet g.reverse f).getD []).length + 1)
      ((mapGet g.reverse f).getD []) ((mapGet g.reverse f).getD [])).length =
    ((impactBfs g f (bfsFuel g + ((mapGet g.reverse f).getD []).length + 1)
      ((mapGet g.reverse f).getD []) ((mapGet g.reverse f).getD [])).filter
        (fun x => ((mapGet g.reverse f).getD []).contains x)).length +
    ((impactBfs g f (bfsFuel g + ((mapGet g.reverse f).getD []).length + 1)
      ((mapGet g.reverse f).getD []) ((mapGet g.reverse f).getD [])).filter
        (fun x => !(((mapGet g.reverse f).getD []).contains x))).length
    from List.length_eq_length_filter_add _]
  rw [length_filter_mem_eq _ _ hvnd hrevnd hsub]

theorem analyzeImpactWithSCC_total (g : DependencyGraph) (scc : SCCResult) (f : String)
    (toRel : String → String) (hrevnd : ((mapGet g.reverse f).getD []).Nodup) :
    (analyzeImpactWithSCC f g scc toRel).totalImpacted =
      (analyzeImpactWithSCC f g scc toRel).directDependents.length +
      (analyzeImpactWithSCC f g scc toRel).transitiveDependents.length := by
  unfold analyzeImpactWithSCC
  cases hg : mapGet scc.nodeToComponent f with
  | none =>
    dsimp only
    exact analyzeImpactBFS_total g f toRel hrevnd
  | some sccIndex =>
    dsimp only
    rw [List.length_map, List.length_map]
    exact List.length_eq_length_filter_add _

end Syke

namespace Syke

theorem any_eq_false_of_get_none [BEq κ] [LawfulBEq κ] (m : List (κ × α)) (k : κ)
    (h : mapGet m k = none) : m.any (fun p => p.1 == k) = false := by
  unfold mapGet at h
  have hf : List.find? (fun p => p.1 == k) m = none := by
    cases hff : List.find? (fun p => p.1 == k) m with
    | none => rfl
    | some q => rw [hff] at h; simp at h
  rw [List.find?_eq_none] at hf
  cases ha : m.any (fun p => p.1 == k) with
  | false => rfl
  | true =>
    rcases List.any_eq_true.mp ha with ⟨p, hp, hpk⟩
    exact absurd hpk (hf p hp)

theorem mapSet_length_fresh [BEq κ] [LawfulBEq κ] (m : List (κ × α)) (k : κ) (v : α)
    (h : mapGet m k = none) : (mapSet m k v).length = m.length + 1 := by
  unfold mapSet
  rw [any_eq_false_of_get_none m k h]
  simp

theorem evictAux_no_evict (fuel : Nat) (c : MemoCache)
    (h : ¬(c.cache.length > c.maxSize)) : evictAux fuel c = c := by
  cases fuel with
  | zero => rfl
  | succ fuel =>
    unfold evictAux
    rw [if_neg]
    intro hcond
    have h1 : decide (c.cache.length > c.maxSize) = true := by
      cases hh : decide (c.cache.length > c.maxSize) with
      | false => rw [hh] at hcond; simp at hcond
      | true => rfl
    exact h (of_decide_eq_true h1)

theorem memoSet_cache_fresh (c : MemoCache) (f : String) (e : MemoEntry)
    (hmiss : mapGet c.cache f = none) (hsize : c.cache.length < c.maxSize) :
    (memoSet c f e).cache = mapSet c.cache f e := by
  unfold memoSet
  rw [hmiss]
  rw [if_neg (by simp : ¬(((none : Option MemoEntry).isSome) = true))]
  dsimp only
  unfold evictLRU
  rw [evictAux_no_evict]
  · rfl
  · intro hgt
    have hlen : (mapSet c.cache f e).length = c.cache.length + 1 :=
      mapSet_length_fresh c.cache f e hmiss
    have hgt2 : (mapSet c.cache f e).length > c.maxSize := hgt
    rw [hlen] at hgt2
    omega

theorem memoSet_get_fresh (c : MemoCache) (f : String) (e : MemoEntry)
    (hmiss : mapGet c.cache f = none) (hsize : c.cache.length < c.maxSize) :
    mapGet (memoSet c f e).cache f = some e := by
  rw [memoSet_cache_fresh c f e hmiss hsize, mapGet_mapSet_self]

end Syke


namespace Syke

/-- Hit branch of the analyser: when the memo already holds an entry for
the queried file, the result is reconstituted from the cached entry and a
fresh read of `Reverse[f]`, with the SCC-related fields left unset. -/
theorem analyzeImpact_hit (memo : MemoCache) (g : DependencyGraph) (f : String)
    (toRel toAbs : String → String) (now : Nat) (e : MemoEntry)
    (hhit : mapGet memo.cache f = some e) :
    (analyzeImpact memo g f toRel toAbs now).1 =
      { filePath := f, relativePath := toRel f,
        riskLevel := e.riskLevel,
        directDependents := ((mapGet g.reverse f).getD []).map toRel,
        transitiveDependents := (e.impactSet.map toRel).filter
          (fun rel => !((((mapGet g.reverse f).getD []).map toRel).contains rel)),
        totalImpacted := e.directCount + e.transitiveCount,
        cascadeLevels := e.cascadeLevels,
        circularCluster := none, sccCount := none, cyclicSCCs := none,
        fromCache := some true } := by
  have hget : memoGet memo f = (some e, { touchKey memo f with hits := memo.hits + 1 }) := by
    unfold memoGet
    rw [hhit]
  unfold analyzeImpact
  dsimp only
  rw [hget]

/-- Claim C2 (amended): with no graph mutation in between, the second
(memo fast-path) call agrees with the first freshly-computed call on
`totalImpacted`, `riskLevel` and `cascadeLevels` and sets `fromCache`; but
it reconstructs `directDependents` as the relativised `Reverse[f]` only and
`transitiveDependents` as the cached impact set minus those, and it leaves
`circularCluster`, `sccCount` and `cyclicSCCs` unset. On a cyclic SCC the
reconstructed direct/transitive split therefore differs from the first
result (see the counterexample). -/
theorem memo_fast_path_reconstruction
    (memo : MemoCache) (g : DependencyGraph) (f : String)
    (toRel toAbs : String → String) (now now2 : Nat)
    (hmiss : mapGet memo.cache f = none)
    (hsize : memo.cache.length < memo.maxSize)
    (hrevnd : ((mapGet g.reverse f).getD []).Nodup) :
    (analyzeImpact (analyzeImpact memo g f toRel toAbs now).2 g f toRel toAbs now2).1.fromCache =
      some true ∧
    (analyzeImpact (analyzeImpact memo g f toRel toAbs now).2 g f toRel toAbs now2).1.riskLevel =
      (analyzeImpact memo g f toRel toAbs now).1.riskLevel ∧
    (analyzeImpact (analyzeImpact memo g f toRel toAbs now).2 g f toRel toAbs now2).1.cascadeLevels =
      (analyzeImpact memo g f toRel toAbs now).1.cascadeLevels ∧
    (analyzeImpact (analyzeImpact memo g f toRel toAbs now).2 g f toRel toAbs now2).1.totalImpacted =
      (analyzeImpact memo g f toRel toAbs now).1.totalImpacted ∧
    (analyzeImpact (analyzeImpact memo g f toRel toAbs now).2 g f toRel toAbs now2).1.directDependents =
      ((mapGet g.reverse f).getD []).map toRel ∧
    (analyzeImpact (analyzeImpact memo g f toRel toAbs now).2 g f toRel toAbs now2).1.transitiveDependents =
      ((((analyzeImpact memo g f toRel toAbs now).1.directDependents ++
         (analyzeImpact memo g f toRel toAbs now).1.transitiveDependents).map toAbs).map toRel).filter
        (fun rel => !((((mapGet g.reverse f).getD []).map toRel).contains rel)) ∧
    (analyzeImpact (analyzeImpact memo g f toRel toAbs now).2 g f toRel toAbs now2).1.circularCluster =
      none ∧
    (analyzeImpact (analyzeImpact memo g f toRel toAbs now).2 g f toRel toAbs now2).1.sccCount =
      none ∧
    (analyzeImpact (analyzeImpact memo g f toRel toAbs now).2 g f toRel toAbs now2).1.cyclicSCCs =
      none := by
  have hget0 : memoGet memo f = (none, { memo with misses := memo.misses + 1 }) := by
    unfold memoGet
    rw [hmiss]
  obtain ⟨R, hR, hfirst⟩ : ∃ R,
      (match g.scc with
        | some scc => analyzeImpactWithSCC f g scc toRel
        | none => analyzeImpactBFS f g toRel) = R ∧
      analyzeImpact memo g f toRel toAbs now =
        (R, memoSet { memo with misses := memo.misses + 1 } f
          ⟨(R.directDependents ++ R.transitiveDependents).map toAbs,
            R.directDependents.length, R.transitiveDependents.length,
            R.riskLevel, R.cascadeLevels, now⟩) := by
    refine ⟨_, rfl, ?_⟩
    unfold analyzeImpact
    dsimp only
    rw [hget0]
  have hcache1 : mapGet (analyzeImpact memo g f toRel toAbs now).2.cache f =
      some ⟨(R.directDependents ++ R.transitiveDependents).map toAbs,
        R.directDependents.length, R.transitiveDependents.length,
        R.riskLevel, R.cascadeLevels, now⟩ := by
    rw [hfirst]
    exact memoSet_get_fresh _ f _ hmiss hsize
  have hr1 : (analyzeImpact memo g f toRel toAbs now).1 = R := by
    rw [hfirst]
  have htotal : R.totalImpacted =
      R.directDependents.length + R.transitiveDependents.length := by
    rw [← hR]
    cases hscc : g.scc with
    | none => exact analyzeImpactBFS_total g f toRel hrevnd
    | some scc => exact analyzeImpactWithSCC_total g scc f toRel hrevnd
  rw [analyzeImpact_hit ((analyzeImpact memo g f toRel toAbs now).2) g f toRel toAbs now2 _
    hcache1, hr1]
  exact ⟨rfl, rfl, rfl, htotal.symm, rfl, rfl, rfl, rfl, rfl⟩

/-- Counterexample for claim C2 as stated: on the three-file cycle the
second (cached) call reconstructs `directDependents` as `Reverse[x] = [z]`
only, while the fresh first call returned `[z, y]` (the cyclic-SCC
co-members count as direct); the cached call also drops `circularCluster`
and `sccCount` entirely. -/
theorem memo_fast_path_differs_on_cycle :
    (analyzeImpact (analyzeImpact emptyMemoCache cycleGraph "x" id id 0).2
      cycleGraph "x" id id 1).1.fromCache = some true ∧
    (analyzeImpact emptyMemoCache cycleGraph "x" id id 0).1.directDependents = ["z", "y"] ∧
    (analyzeImpact (analyzeImpact emptyMemoCache cycleGraph "x" id id 0).2
      cycleGraph "x" id id 1).1.directDependents = ["z"] ∧
    (analyzeImpact emptyMemoCache cycleGraph "x" id id 0).1.circularCluster = some ["z", "y"] ∧
    (analyzeImpact (analyzeImpact emptyMemoCache cycleGraph "x" id id 0).2
      cycleGraph "x" id id 1).1.circularCluster = none ∧
    (analyzeImpact emptyMemoCache cycleGraph "x" id id 0).1.sccCount = some 1 ∧
    (analyzeImpact (analyzeImpact emptyMemoCache cycleGraph "x" id id 0).2
      cycleGraph "x" id id 1).1.sccCount = none := by
  decide

/-- Witness for claim C2 (amended) at concrete inputs: the acyclic chain
`a → b → c`, queried at `c` twice. -/
theorem memo_fast_path_reconstruction_witness :
    (analyzeImpact (analyzeImpact emptyMemoCache chainGraph "c" id id 0).2
      chainGraph "c" id id 1).1.fromCache = some true ∧
    (analyzeImpact (analyzeImpact emptyMemoCache chainGraph "c" id id 0).2
      chainGraph "c" id id 1).1.riskLevel =
      (analyzeImpact emptyMemoCache chainGraph "c" id id 0).1.riskLevel ∧
    (analyzeImpact (analyzeImpact emptyMemoCache chainGraph "c" id id 0).2
      chainGraph "c" id id 1).1.cascadeLevels =
      (analyzeImpact emptyMemoCache chainGraph "c" id id 0).1.cascadeLevels ∧
    (analyzeImpact (analyzeImpact emptyMemoCache chainGraph "c" id id 0).2
      chainGraph "c" id id 1).1.totalImpacted =
      (analyzeImpact emptyMemoCache chainGraph "c" id id 0).1.totalImpacted ∧
    (analyzeImpact (analyzeImpact emptyMemoCache chainGraph "c" id id 0).2
      chainGraph "c" id id 1).1.directDependents =
      ((mapGet chainGraph.reverse "c").getD []).map id ∧
    (analyzeImpact (analyzeImpact emptyMemoCache chainGraph "c" id id 0).2
      chainGraph "c" id id 1).1.transitiveDependents =
      ((((analyzeImpact emptyMemoCache chainGraph "c" id id 0).1.directDependents ++
         (analyzeImpact emptyMemoCache chainGraph "c" id id 0).1.transitiveDependents).map
          id).map id).filter
        (fun rel => !((((mapGet chainGraph.reverse "c").getD []).map id).contains rel)) ∧
    (analyzeImpact (analyzeImpact emptyMemoCache chainGraph "c" id id 0).2
      chainGraph "c" id id 1).1.circularCluster = none ∧
    (analyzeImpact (analyzeImpact emptyMemoCache chainGraph "c" id id 0).2
      chainGraph "c" id id 1).1.sccCount = none ∧
    (analyzeImpact (analyzeImpact emptyMemoCache chainGraph "c" id id 0).2
      chainGraph "c" id id 1).1.cyclicSCCs = none :=
  memo_fast_path_reconstruction emptyMemoCache chainGraph "c" id id 0 1
    (by decide) (by decide) (by decide)

end Syke

namespace Syke

-- ── Claim C9: supporting lemmas ──

theorem mem_mapSet_elim [BEq κ] [LawfulBEq κ] (m : List (κ × α)) (k : κ) (v : α)
    (p : κ × α) (hp : p ∈ mapSet m k v) : p ∈ m ∨ p.1 = k := by
  unfold mapSet at hp
  by_cases h : m.any (fun q => q.1 == k) = true
  · rw [if_pos h] at hp
    rcases List.mem_map.mp hp with ⟨q, hq, he⟩
    by_cases hqk : (q.1 == k) = true
    · rw [if_pos hqk] at he
      right
      rw [← he]
    · rw [if_neg hqk] at he
      left
      rw [← he]
      exact hq
  · rw [if_neg h] at hp
    rcases List.mem_append.mp hp with h1 | h1
    · exact Or.inl h1
    · right
      rw [List.mem_singleton.mp h1]

theorem getD_countStep_mono (m : List (String × Nat)) (f x : String) :
    (mapGet m x).getD 0 ≤
      (mapGet (mapSet m f (((mapGet m f).getD 0) + 1)) x).getD 0 := by
  by_cases hfx : f = x
  · subst hfx
    rw [mapGet_mapSet_self]
    exact Nat.le_succ _
  · rw [mapGet_mapSet_ne m f x _ hfx]

theorem getD_counts_fold_mono (l : List String) :
    ∀ (m : List (String × Nat)) (x : String),
      (mapGet m x).getD 0 ≤
        (mapGet (l.foldl (fun m file => mapSet m file (((mapGet m file).getD 0) + 1)) m)
          x).getD 0 := by
  induction l with
  | nil => intro m x; exact Nat.le_refl _
  | cons f l ih =>
    intro m x
    rw [List.foldl_cons]
    exact Nat.le_trans (getD_countStep_mono m f x) (ih _ x)

theorem getD_counts_fold_mem (l : List String) :
    ∀ (m : List (String × Nat)) (x : String), x ∈ l →
      1 ≤ (mapGet (l.foldl (fun m file => mapSet m file (((mapGet m file).getD 0) + 1)) m)
          x).getD 0 := by
  induction l with
  | nil => intro m x hx; cases hx
  | cons f l ih =>
    intro m x hx
    rw [List.foldl_cons]
    rcases List.mem_cons.mp hx with h1 | h1
    · subst h1
      refine Nat.le_trans ?_ (getD_counts_fold_mono l _ x)
      rw [mapGet_mapSet_self]
      exact Nat.le_add_left 1 _
    · exact ih _ x h1

theorem mem_indexPairs (l : List α) (hnd : l.Nodup) (p : α × α)
    (hp : p ∈ indexPairs l) : p.1 ∈ l ∧ p.2 ∈ l ∧ p.1 ≠ p.2 := by
  induction l with
  | nil => cases hp
  | cons x xs ih =>
    unfold indexPairs at hp
    rcases List.mem_append.mp hp with h1 | h1
    · rcases List.mem_map.mp h1 with ⟨y, hy, he⟩
      have hx : x ∉ xs := (List.nodup_cons.mp hnd).1
      refine ⟨?_, ?_, ?_⟩
      · rw [← he]; exact List.mem_cons_self x xs
      · rw [← he]; exact List.mem_cons_of_mem x hy
      · rw [← he]
        intro hcon
        have hxy : x = y := hcon
        exact hx (hxy ▸ hy)
    · rcases ih (List.nodup_cons.mp hnd).2 h1 with ⟨h2, h3, h4⟩
      exact ⟨List.mem_cons_of_mem x h2, List.mem_cons_of_mem x h3, h4⟩

theorem charListLt_total : ∀ (x y : List Char), x ≠ y → charListLt x y = false →
    charListLt y x = true := by
  intro x
  induction x with
  | nil =>
    intro y hne hf
    cases y with
    | nil => exact absurd rfl hne
    | cons b bs => exact absurd hf (by simp [charListLt])
  | cons a as ih =>
    intro y hne hf
    cases y with
    | nil => rfl
    | cons b bs =>
      simp only [charListLt] at hf ⊢
      by_cases hab : a < b
      · rw [if_pos hab] at hf
        cases hf
      · rw [if_neg hab] at hf
        by_cases hba : b < a
        · rw [if_pos hba]
        · rw [if_neg hba] at hf
          have hEq : a = b := le_antisymm (not_lt.mp hba) (not_lt.mp hab)
          subst hEq
          rw [if_neg hab, if_neg hab]
          refine ih bs (fun hh => hne ?_) hf
          rw [hh]

theorem string_data_inj {a b : String} (h : a.data = b.data) : a = b := by
  cases a with
  | mk xs =>
    cases b with
    | mk ys =>
      have h2 : xs = ys := h
      rw [h2]

theorem strLt_total (a b : String) (hne : a ≠ b) (h : strLt a b = false) :
    strLt b a = true := by
  unfold strLt at h ⊢
  exact charListLt_total a.data b.data (fun hd => hne (string_data_inj hd)) h

theorem pairKey_cases (a b : String) :
    pairKey a b = (a, b) ∨ pairKey a b = (b, a) := by
  unfold pairKey
  cases h : strLt a b with
  | true => rw [if_pos rfl]; exact Or.inl rfl
  | false => rw [if_neg Bool.false_ne_true]; exact Or.inr rfl

theorem pairKey_strLt (a b : String) (hne : a ≠ b) :
    strLt (pairKey a b).1 (pairKey a b).2 = true := by
  unfold pairKey
  cases h : strLt a b with
  | true => rw [if_pos rfl]; exact h
  | false => rw [if_neg Bool.false_ne_true]; exact strLt_total a b hne h

theorem mem_pairsFold (l : List (String × String)) :
    ∀ (m : List ((String × String) × Nat)) (p : (String × String) × Nat),
      p ∈ l.foldl
        (fun m q =>
          let key := pairKey q.1 q.2
          mapSet m key (((mapGet m key).getD 0) + 1)) m →
      p ∈ m ∨ ∃ q ∈ l, p.1 = pairKey q.1 q.2 := by
  induction l with
  | nil => intro m p hp; exact Or.inl hp
  | cons q l ih =>
    intro m p hp
    rw [List.foldl_cons] at hp
    rcases ih _ p hp with h1 | ⟨r, hr, he⟩
    · dsimp only at h1
      rcases mem_mapSet_elim _ _ _ p h1 with h2 | h2
      · exact Or.inl h2
      · exact Or.inr ⟨q, List.mem_cons_self q l, h2⟩
    · exact Or.inr ⟨r, List.mem_cons_of_mem q hr, he⟩

end Syke

namespace Syke

theorem processCommit_inv (norm : String → String) (isSrc : String → Bool)
    (maxF : Nat) (st : MiningState) (cf : List String)
    (hnd : ((cf.map norm).filter isSrc).Nodup)
    (hinv : MiningInv st) : MiningInv (processCommit norm isSrc maxF st cf) := by
  unfold MiningInv at hinv ⊢
  unfold processCommit
  dsimp only
  intro k c
  split
  · dsimp only
    split
    · dsimp only
      intro hkc
      rcases hinv k c hkc with ⟨h1, h2, h3⟩
      exact ⟨h1, Nat.le_trans h2 (getD_countStep_mono _ _ _),
        Nat.le_trans h3 (getD_countStep_mono _ _ _)⟩
    · exact hinv k c
  · dsimp only
    intro hkc
    rcases mem_pairsFold _ _ (k, c) hkc with hold | ⟨q, hq, hkey⟩
    · rcases hinv k c hold with ⟨h1, h2, h3⟩
      exact ⟨h1, Nat.le_trans h2 (getD_counts_fold_mono _ _ _),
        Nat.le_trans h3 (getD_counts_fold_mono _ _ _)⟩
    · rcases mem_indexPairs _ hnd q hq with ⟨hq1, hq2, hqne⟩
      have hk : k = pairKey q.1 q.2 := hkey
      subst hk
      refine ⟨pairKey_strLt q.1 q.2 hqne, ?_, ?_⟩
      · rcases pairKey_cases q.1 q.2 with hc | hc
        · rw [hc]
          exact getD_counts_fold_mem _ _ _ hq1
        · rw [hc]
          exact getD_counts_fold_mem _ _ _ hq2
      · rcases pairKey_cases q.1 q.2 with hc | hc
        · rw [hc]
          exact getD_counts_fold_mem _ _ _ hq2
        · rw [hc]
          exact getD_counts_fold_mem _ _ _ hq1

theorem foldl_processCommit_inv (norm : String → String) (isSrc : String → Bool)
    (maxF : Nat) :
    ∀ (commits : List (List String)) (st : MiningState),
      (∀ c ∈ commits, ((c.map norm).filter isSrc).Nodup) → MiningInv st →
      MiningInv (commits.foldl (processCommit norm isSrc maxF) st) := by
  intro commits
  induction commits with
  | nil => intro st h hinv; exact hinv
  | cons cf commits ih =>
    intro st h hinv
    rw [List.foldl_cons]
    exact ih _ (fun c hc => h c (List.mem_cons_of_mem cf hc))
      (processCommit_inv norm isSrc maxF st cf (h cf (List.mem_cons_self cf commits)) hinv)

theorem mineCommits_inv (commits : List (List String)) (norm : String → String)
    (isSrc : String → Bool) (minSupport : Nat) (minConfidence : Rat) (maxF : Nat)
    (hnd : ∀ c ∈ commits, ((c.map norm).filter isSrc).Nodup) :
    MiningInv (mineCommits commits norm isSrc minSupport minConfidence maxF).2 := by
  unfold mineCommits
  dsimp only
  exact foldl_processCommit_inv norm isSrc maxF commits _ hnd
    (fun k c h => absurd h (List.not_mem_nil _))

theorem buildCouplings_fold_mem (st : MiningState) (minSupport : Nat)
    (minConfidence : Rat) :
    ∀ (l : List ((String × String) × Nat)) (acc : List ChangeCoupling)
      (cp : ChangeCoupling),
      cp ∈ l.foldl
        (fun acc p =>
          let coCount := p.2
          if coCount < minSupport then acc
          else
            let file1 := p.1.1
            let file2 := p.1.2
            let file1Changes := (mapGet st.fileChangeCount file1).getD 0
            let file2Changes := (mapGet st.fileChangeCount file2).getD 0
            let maxChanges := max file1Changes file2Changes
            let confidence : Rat :=
              if maxChanges > 0 then mkRat coCount maxChanges else 0
            if confidence < minConfidence then acc
            else acc ++ [{ file1 := file1, file2 := file2, coChangeCount := coCount,
                           file1Changes := file1Changes, file2Changes := file2Changes,
                           confidence := confidence, support := coCount }]) acc →
      cp ∈ acc ∨
        ∃ k c, (k, c) ∈ l ∧ minSupport ≤ c ∧ minConfidence ≤ cp.confidence ∧
          cp = { file1 := k.1, file2 := k.2, coChangeCount := c,
                 file1Changes := (mapGet st.fileChangeCount k.1).getD 0,
                 file2Changes := (mapGet st.fileChangeCount k.2).getD 0,
                 confidence := if max ((mapGet st.fileChangeCount k.1).getD 0)
                     ((mapGet st.fileChangeCount k.2).getD 0) > 0
                   then mkRat c (max ((mapGet st.fileChangeCount k.1).getD 0)
                     ((mapGet st.fileChangeCount k.2).getD 0))
                   else 0,
                 support := c } := by
  intro l
  induction l with
  | nil => intro acc cp h; exact Or.inl h
  | cons p l ih =>
    intro acc cp h
    rw [List.foldl_cons] at h
    rcases ih _ cp h with hacc | ⟨k, c, hkc, h1, h2, h3⟩
    · dsimp only at hacc
      by_cases hs : p.2 < minSupport
      · rw [if_pos hs] at hacc
        exact Or.inl hacc
      · rw [if_neg hs] at hacc
        by_cases hc : (if max ((mapGet st.fileChangeCount p.1.1).getD 0)
              ((mapGet st.fileChangeCount p.1.2).getD 0) > 0
            then mkRat p.2 (max ((mapGet st.fileChangeCount p.1.1).getD 0)
              ((mapGet st.fileChangeCount p.1.2).getD 0))
            else 0) < minConfidence
        · rw [if_pos hc] at hacc
          exact Or.inl hacc
        · rw [if_neg hc] at hacc
          rcases List.mem_append.mp hacc with h4 | h4
          · exact Or.inl h4
          · right
            have hcp := List.mem_singleton.mp h4
            refine ⟨p.1, p.2, List.mem_cons_self p l, Nat.le_of_not_lt hs, ?_, ?_⟩
            · rw [hcp]
              exact not_lt.mp hc
            · exact hcp
    · exact Or.inr ⟨k, c, List.mem_cons_of_mem p hkc, h1, h2, h3⟩

theorem mem_buildCouplings (st : MiningState) (minSupport : Nat)
    (minConfidence : Rat) (cp : ChangeCoupling)
    (h : cp ∈ buildCouplings st minSupport minConfidence) :
    ∃ k c, (k, c) ∈ st.pairCoChangeCount ∧ minSupport ≤ c ∧
      minConfidence ≤ cp.confidence ∧
      cp = { file1 := k.1, file2 := k.2, coChangeCount := c,
             file1Changes := (mapGet st.fileChangeCount k.1).getD 0,
             file2Changes := (mapGet st.fileChangeCount k.2).getD 0,
             confidence := if max ((mapGet st.fileChangeCount k.1).getD 0)
                 ((mapGet st.fileChangeCount k.2).getD 0) > 0
               then mkRat c (max ((mapGet st.fileChangeCount k.1).getD 0)
                 ((mapGet st.fileChangeCount k.2).getD 0))
               else 0,
             support := c } := by
  unfold buildCouplings at h
  rcases buildCouplings_fold_mem st minSupport minConfidence st.pairCoChangeCount [] cp h with
    h1 | h1
  · exact absurd h1 (List.not_mem_nil cp)
  · exact h1

end Syke

namespace Syke

theorem mkRat_natCast_div (c d : Nat) : mkRat (c : Int) d = (c : Rat) / (d : Rat) := by
  rw [Rat.mkRat_eq_div, Int.cast_natCast]

/-- Claim C9: every coupling emitted by the change-coupling miner has
`coChangeCount ≥ minSupport`, `support = coChangeCount`,
`confidence = coChangeCount / max(file1Changes, file2Changes)` exactly (as
a rational), `confidence ≥ minConfidence`, and the pair in canonical order
`file1 < file2`; pairs failing either threshold are omitted (this is the
contrapositive of the stated membership property).  The hypothesis says
each commit's filtered file list is duplicate-free, as `git log
--name-only` guarantees. -/
theorem mined_couplings_satisfy_thresholds
    (commits : List (List String)) (norm : String → String) (isSrc : String → Bool)
    (minSupport : Nat) (minConfidence : Rat) (maxFilesPerCommit : Nat)
    (hnd : ∀ c ∈ commits, ((c.map norm).filter isSrc).Nodup) :
    ∀ cp ∈ (mineCommits commits norm isSrc minSupport minConfidence maxFilesPerCommit).1,
      minSupport ≤ cp.coChangeCount ∧
      cp.support = cp.coChangeCount ∧
      cp.confidence = (cp.coChangeCount : Rat) /
        ((max cp.file1Changes cp.file2Changes : Nat) : Rat) ∧
      minConfidence ≤ cp.confidence ∧
      strLt cp.file1 cp.file2 = true := by
  intro cp hcp
  have hst := mineCommits_inv commits norm isSrc minSupport minConfidence
    maxFilesPerCommit hnd
  have hfst : (mineCommits commits norm isSrc minSupport minConfidence
      maxFilesPerCommit).1 =
      buildCouplings
        (mineCommits commits norm isSrc minSupport minConfidence maxFilesPerCommit).2
        minSupport minConfidence := rfl
  rw [hfst] at hcp
  rcases mem_buildCouplings _ _ _ cp hcp with ⟨k, c, hkc, hsup, hconf, hcpeq⟩
  rcases hst k c hkc with ⟨hklt, hk1, hk2⟩
  subst hcpeq
  have hmax : 0 < max
      ((mapGet (mineCommits commits norm isSrc minSupport minConfidence
        maxFilesPerCommit).2.fileChangeCount k.1).getD 0)
      ((mapGet (mineCommits commits norm isSrc minSupport minConfidence
        maxFilesPerCommit).2.fileChangeCount k.2).getD 0) :=
    Nat.lt_of_lt_of_le hk1 (Nat.le_max_left _ _)
  exact ⟨hsup, rfl, (if_pos hmax).trans (mkRat_natCast_div c _), hconf, hklt⟩

/-- Witness for claim C9 at concrete inputs: three commits in which `a` and
`b` co-change three times, mined with `minSupport = 3` and
`minConfidence = 1`. -/
theorem mined_couplings_satisfy_thresholds_witness :
    exampleCoupling ∈
      (mineCommits exampleCommits (fun s => s) (fun s => true) 3 1 30).1 ∧
    (3 ≤ exampleCoupling.coChangeCount ∧
     exampleCoupling.support = exampleCoupling.coChangeCount ∧
     exampleCoupling.confidence = (exampleCoupling.coChangeCount : Rat) /
       ((max exampleCoupling.file1Changes exampleCoupling.file2Changes : Nat) : Rat) ∧
     (1 : Rat) ≤ exampleCoupling.confidence ∧
     strLt exampleCoupling.file1 exampleCoupling.file2 = true) :=
  ⟨by decide,
   mined_couplings_satisfy_thresholds exampleCommits (fun s => s) (fun s => true) 3 1 30
     (by decide) exampleCoupling (by decide)⟩

end Syke

namespace Syke

-- ── Claim C6: supporting lemmas ──

theorem mapGet_eq_none_of_not_mem [BEq κ] [LawfulBEq κ] (m : List (κ × α)) (x : κ)
    (h : x ∉ m.map Prod.fst) : mapGet m x = none := by
  unfold mapGet
  rw [List.find?_eq_none.mpr]
  · rfl
  · intro p hp hbeq
    exact h (List.mem_map.mpr ⟨p, hp, by simpa using hbeq⟩)

theorem mapGet_of_mem_nodup [BEq κ] [LawfulBEq κ] (m : List (κ × α)) (x : κ) (v : α)
    (hnd : (m.map Prod.fst).Nodup) (hmem : (x, v) ∈ m) : mapGet m x = some v := by
  induction m with
  | nil => cases hmem
  | cons p m ih =>
    rcases List.mem_cons.mp hmem with h1 | h1
    · rw [← h1]
      unfold mapGet
      simp [List.find?_cons_of_pos]
    · have hx_keys : x ∈ m.map Prod.fst := List.mem_map.mpr ⟨(x, v), h1, rfl⟩
      have hpx : p.1 ≠ x := by
        intro he
        exact (List.nodup_cons.mp (by simpa using hnd)).1 (he ▸ hx_keys)
      unfold mapGet
      rw [List.find?_cons_of_neg]
      · exact ih (List.nodup_cons.mp (by simpa using hnd)).2 h1
      · simp [hpx]

theorem mapSet_keys_of_mem [BEq κ] [LawfulBEq κ] (m : List (κ × α)) (k : κ) (v : α)
    (h : k ∈ m.map Prod.fst) : (mapSet m k v).map Prod.fst = m.map Prod.fst := by
  unfold mapSet
  rw [if_pos]
  · rw [List.map_map]
    refine List.map_congr_left ?_
    intro p hp
    by_cases hpk : (p.1 == k) = true
    · simp only [Function.comp_apply]
      rw [if_pos hpk]
      exact (eq_of_beq hpk).symm
    · simp only [Function.comp_apply]
      rw [if_neg hpk]
  · rcases List.mem_map.mp h with ⟨p, hp, he⟩
    exact List.any_eq_true.mpr ⟨p, hp, by simp [he]⟩

theorem degFold_keys (fs : List (Nat × List Nat)) :
    ∀ (m : List (Nat × Int)), (∀ p ∈ fs, p.1 ∈ m.map Prod.fst) →
      (fs.foldl (fun m p => mapSet m p.1 (((mapGet m p.1).getD 0) + (p.2.length : Int))) m).map
        Prod.fst = m.map Prod.fst := by
  induction fs with
  | nil => intro m h; rfl
  | cons q fs ih =>
    intro m h
    rw [List.foldl_cons]
    have hk : q.1 ∈ m.map Prod.fst := h q (List.mem_cons_self q fs)
    have hkeys := mapSet_keys_of_mem m q.1 (((mapGet m q.1).getD 0) + (q.2.length : Int)) hk
    rw [ih _ (fun p hp => by rw [hkeys]; exact h p (List.mem_cons_of_mem q hp)), hkeys]

theorem degFold_not_mem (fs : List (Nat × List Nat)) :
    ∀ (m : List (Nat × Int)) (x : Nat), x ∉ fs.map Prod.fst →
      mapGet (fs.foldl (fun m p => mapSet m p.1 (((mapGet m p.1).getD 0) + (p.2.length : Int))) m)
        x = mapGet m x := by
  induction fs with
  | nil => intro m x h; rfl
  | cons q fs ih =>
    intro m x h
    rw [List.foldl_cons]
    have hq : q.1 ≠ x := fun he => h (List.mem_map.mpr ⟨q, List.mem_cons_self q fs, he⟩)
    rw [ih _ x (fun hh => h (by
      rcases List.mem_map.mp hh with ⟨p, hp, he⟩
      exact List.mem_map.mpr ⟨p, List.mem_cons_of_mem q hp, he⟩)),
      mapGet_mapSet_ne _ _ _ _ hq]

theorem degFold_mem (fs : List (Nat × List Nat)) :
    ∀ (m : List (Nat × Int)) (x : Nat) (lx : List Nat),
      (fs.map Prod.fst).Nodup → (x, lx) ∈ fs →
      mapGet (fs.foldl (fun m p => mapSet m p.1 (((mapGet m p.1).getD 0) + (p.2.length : Int))) m)
        x = some (((mapGet m x).getD 0) + (lx.length : Int)) := by
  induction fs with
  | nil => intro m x lx _ hmem; cases hmem
  | cons q fs ih =>
    intro m x lx hnd hmem
    rw [List.foldl_cons]
    rcases List.mem_cons.mp hmem with h1 | h1
    · have hx : x ∉ fs.map Prod.fst := by
        rw [show x = q.1 from by rw [← h1]]
        exact (List.nodup_cons.mp (by simpa using hnd)).1
      rw [degFold_not_mem fs _ x hx, ← h1, mapGet_mapSet_self]
    · have hxk : x ∈ fs.map Prod.fst := List.mem_map.mpr ⟨(x, lx), h1, rfl⟩
      have hq : q.1 ≠ x := fun he =>
        (List.nodup_cons.mp (by simpa using hnd)).1 (he ▸ hxk)
      rw [ih _ x lx (List.nodup_cons.mp (by simpa using hnd)).2 h1,
        mapGet_mapSet_ne _ _ _ _ hq]

theorem mapGet_rangeMap (l : List Nat) (x : Nat) (c : Int) :
    mapGet (l.map (fun i => (i, c))) x = if x ∈ l then some c else none := by
  induction l with
  | nil => simp [mapGet]
  | cons a l ih =>
    by_cases hax : a = x
    · subst hax
      unfold mapGet
      simp [List.find?_cons_of_pos]
    · unfold mapGet at ih ⊢
      rw [List.map_cons, List.find?_cons_of_neg]
      · rw [ih]
        by_cases hx : x ∈ l
        · rw [if_pos hx, if_pos (List.mem_cons_of_mem a hx)]
        · rw [if_neg hx, if_neg (fun hh => by
            rcases List.mem_cons.mp hh with h2 | h2
            · exact hax h2.symm
            · exact hx h2)]
      · simp [hax]

theorem initInDegree_keys (dag : CondensedDAG)
    (hfk : dag.forward.map Prod.fst = List.range dag.nodes.length) :
    (initInDegree dag).map Prod.fst = List.range dag.nodes.length := by
  unfold initInDegree
  dsimp only
  have hbase : ((List.range dag.nodes.length).map
      (fun i => (i, (0 : Int)))).map Prod.fst = List.range dag.nodes.length := by
    rw [List.map_map]
    exact List.map_id _
  rw [degFold_keys dag.forward _ ?_, hbase]
  intro p hp
  rw [hbase, ← hfk]
  exact List.mem_map.mpr ⟨p, hp, rfl⟩

theorem initInDegree_val (dag : CondensedDAG)
    (hfk : dag.forward.map Prod.fst = List.range dag.nodes.length)
    (x : Nat) (hx : x < dag.nodes.length) :
    (mapGet (initInDegree dag) x).getD 0 =
      (((mapGet dag.forward x).getD []).length : Int) := by
  have hxk : x ∈ dag.forward.map Prod.fst := by
    rw [hfk]
    exact List.mem_range.mpr hx
  rcases List.mem_map.mp hxk with ⟨p, hp, he⟩
  have hkeysnd : (dag.forward.map Prod.fst).Nodup := by
    rw [hfk]
    exact List.nodup_range _
  have hpx : p = (x, p.2) := by rw [← he]
  have hget : mapGet dag.forward x = some p.2 :=
    mapGet_of_mem_nodup dag.forward x p.2 hkeysnd (hpx ▸ hp)
  have hbase : mapGet ((List.range dag.nodes.length).map (fun i => (i, (0 : Int)))) x =
      some 0 := by
    rw [mapGet_rangeMap, if_pos (List.mem_range.mpr hx)]
  unfold initInDegree
  dsimp only
  rw [degFold_mem dag.forward _ x p.2 hkeysnd (hpx ▸ hp), hbase, hget]
  simp

end Syke

namespace Syke

theorem countP_contains_append_singleton (ord : List Nat) (c : Nat) (hc : c ∉ ord) :
    ∀ l : List Nat, l.Nodup →
      l.countP (fun v => (ord ++ [c]).contains v) =
        l.countP (fun v => ord.contains v) + (if c ∈ l then 1 else 0) := by
  intro l
  induction l with
  | nil => intro _; simp
  | cons a l ih =>
    intro hnd
    have h1 := (List.nodup_cons.mp hnd).1
    have h2 := (List.nodup_cons.mp hnd).2
    rw [List.countP_cons, List.countP_cons, ih h2]
    by_cases hac : a = c
    · subst hac
      have e1 : ((ord ++ [a]).contains a) = true :=
        (List.elem_iff).mpr (List.mem_append_right _ (List.mem_singleton.mpr rfl))
      have e2 : (ord.contains a) = false := (contains_eq_false_iff ord a).mpr hc
      rw [e1, e2, if_pos (List.mem_cons_self a l), if_neg h1]
      simp
    · have e4 : ((ord ++ [c]).contains a) = (ord.contains a) := by
        cases hmem : ord.contains a with
        | true =>
          exact (List.elem_iff).mpr (List.mem_append_left _ ((List.elem_iff).mp hmem))
        | false =>
          refine (contains_eq_false_iff _ _).mpr ?_
          intro hmm2
          rcases List.mem_append.mp hmm2 with h3 | h3
          · exact absurd h3 ((contains_eq_false_iff _ _).mp hmem)
          · exact hac (List.mem_singleton.mp h3)
      have e5 : (c ∈ a :: l) ↔ (c ∈ l) := by
        constructor
        · intro h3
          rcases List.mem_cons.mp h3 with h4 | h4
          · exact absurd h4.symm hac
          · exact h4
        · exact List.mem_cons_of_mem a
      rw [e4]
      by_cases hcl : c ∈ l
      · rw [if_pos hcl, if_pos (e5.mpr hcl)]
        omega
      · rw [if_neg hcl, if_neg (fun hh => hcl (e5.mp hh))]
        omega

theorem kahnStep_char (l : List Nat) :
    ∀ (deg : List (Nat × Int)) (queue : List Nat), l.Nodup →
      (∀ y, (mapGet (l.foldl
          (fun (acc : List (Nat × Int) × List Nat) dependent =>
            let newDegree := ((mapGet acc.1 dependent).getD 0) - 1
            (mapSet acc.1 dependent newDegree,
             if newDegree == 0 then acc.2 ++ [dependent] else acc.2))
          (deg, queue)).1 y).getD 0 =
        (mapGet deg y).getD 0 - (if y ∈ l then 1 else 0)) ∧
      (l.foldl
          (fun (acc : List (Nat × Int) × List Nat) dependent =>
            let newDegree := ((mapGet acc.1 dependent).getD 0) - 1
            (mapSet acc.1 dependent newDegree,
             if newDegree == 0 then acc.2 ++ [dependent] else acc.2))
          (deg, queue)).2 =
        queue ++ l.filter (fun y => ((mapGet deg y).getD 0) - 1 == 0) := by
  induction l with
  | nil =>
    intro deg queue _
    constructor
    · intro y
      simp
    · simp
  | cons a l ih =>
    intro deg queue hnd
    have ha := (List.nodup_cons.mp hnd).1
    have hl := (List.nodup_cons.mp hnd).2
    rw [List.foldl_cons]
    dsimp only
    obtain ⟨ih1, ih2⟩ := ih (mapSet deg a (((mapGet deg a).getD 0) - 1))
      (if (((mapGet deg a).getD 0) - 1 == 0) = true then queue ++ [a] else queue) hl
    constructor
    · intro y
      rw [ih1 y]
      by_cases hya : y = a
      · subst hya
        rw [mapGet_mapSet_self, if_neg ha, if_pos (List.mem_cons_self y l)]
        simp
      · rw [mapGet_mapSet_ne _ _ _ _ (fun he => hya he.symm)]
        have hiff : (y ∈ a :: l) ↔ (y ∈ l) := by
          constructor
          · intro h3
            rcases List.mem_cons.mp h3 with h4 | h4
            · exact absurd h4 hya
            · exact h4
          · exact List.mem_cons_of_mem a
        by_cases hyl : y ∈ l
        · rw [if_pos hyl, if_pos (hiff.mpr hyl)]
        · rw [if_neg hyl, if_neg (fun hh => hyl (hiff.mp hh))]
    · rw [ih2]
      have hfc : l.filter
          (fun y => ((mapGet (mapSet deg a (((mapGet deg a).getD 0) - 1)) y).getD 0) - 1
            == 0) =
          l.filter (fun y => ((mapGet deg y).getD 0) - 1 == 0) := by
        refine List.filter_congr ?_
        intro y hy
        rw [mapGet_mapSet_ne _ _ _ _ (fun he => ha (by rw [he]; exact hy))]
      rw [hfc]
      by_cases hda : ((((mapGet deg a).getD 0) - 1 == 0) = true)
      · rw [if_pos hda, List.filter_cons, if_pos hda, List.append_assoc]
        rfl
      · rw [if_neg hda, List.filter_cons, if_neg hda]

end Syke

namespace Syke

theorem kahnLoop_post (n : Nat) (fwd : Nat → List Nat) (rev : List (Nat × List Nat))
    (rank : Nat → Nat)
    (Hfwdnd : ∀ x, x < n → (fwd x).Nodup)
    (Hftgt : ∀ u, u < n → ∀ v ∈ fwd u, v < n)
    (Hrtgt : ∀ v, v < n → ∀ u ∈ (mapGet rev v).getD [], u < n)
    (Hrevnd : ∀ v, v < n → ((mapGet rev v).getD []).Nodup)
    (Hmut : ∀ u, u < n → ∀ v, v < n → (v ∈ fwd u ↔ u ∈ (mapGet rev v).getD []))
    (Hrank : ∀ u, u < n → ∀ v ∈ fwd u, rank v < rank u) :
    ∀ (fuel : Nat) (queue : List Nat) (deg : List (Nat × Int)) (order : List Nat),
      n + 1 ≤ fuel + order.length →
      (order ++ queue).Nodup →
      (∀ x ∈ order ++ queue, x < n) →
      (∀ x, x < n → (mapGet deg x).getD 0 =
        ((fwd x).length : Int) - ((fwd x).countP (fun v => order.contains v) : Int)) →
      (∀ x ∈ queue, ∀ v ∈ fwd x, v ∈ order) →
      (∀ x, x < n → x ∉ order → x ∉ queue → (mapGet deg x).getD 0 ≠ 0) →
      (∀ x ∈ order, ∀ v ∈ fwd x, v ∈ order ∧ order.indexOf v < order.indexOf x) →
      (kahnLoop rev fuel queue deg order).Nodup ∧
      (∀ x, x ∈ kahnLoop rev fuel queue deg order ↔ x < n) ∧
      (∀ x ∈ kahnLoop rev fuel queue deg order, ∀ v ∈ fwd x,
        (kahnLoop rev fuel queue deg order).indexOf v <
          (kahnLoop rev fuel queue deg order).indexOf x) := by
  intro fuel
  induction fuel with
  | zero =>
    intro queue deg order hfuel h1 h2 _ _ _ _
    have hsub : order ⊆ List.range n :=
      fun x hx => List.mem_range.mpr (h2 x (List.mem_append_left _ hx))
    have hle : order.length ≤ n := by
      have := (List.subperm_of_subset (List.nodup_append.mp h1).1 hsub).length_le
      simpa using this
    exact absurd hfuel (by omega)
  | succ fuel ih =>
    intro queue deg order hfuel h1 h2 h3 h4 h5 h6
    cases queue with
    | nil =>
      have hres : kahnLoop rev (fuel + 1) [] deg order = order := rfl
      rw [hres]
      have hond : order.Nodup := (List.nodup_append.mp h1).1
      have hcompl : ∀ r, ∀ x, rank x < r → x < n → x ∈ order := by
        intro r
        induction r with
        | zero => intro x hr _; exact absurd hr (Nat.not_lt_zero _)
        | succ r ihr =>
          intro x hr hx
          by_contra hxo
          have hall : ∀ v ∈ fwd x, (order.contains v) = true := by
            intro v hv
            have hvn : v < n := Hftgt x hx v hv
            have hvr : rank v < r :=
              Nat.lt_of_lt_of_le (Hrank x hx v hv) (Nat.lt_succ_iff.mp hr)
            exact (List.elem_iff).mpr (ihr v hvr hvn)
          have hcount : (fwd x).countP (fun v => order.contains v) = (fwd x).length :=
            List.countP_eq_length.mpr hall
          have hdeg0 : (mapGet deg x).getD 0 = 0 := by
            rw [h3 x hx, hcount]
            omega
          exact h5 x hx hxo (List.not_mem_nil x) hdeg0
      refine ⟨hond, ?_, ?_⟩
      · intro x
        constructor
        · intro hxo
          exact h2 x (List.mem_append_left _ hxo)
        · intro hx
          exact hcompl (rank x + 1) x (Nat.lt_succ_self _) hx
      · intro x hx v hv
        exact (h6 x hx v hv).2
    | cons cur rest =>
      rcases List.nodup_append.mp h1 with ⟨hond, hqnd, hdisj⟩
      have hcur_rest : cur ∉ rest := (List.nodup_cons.mp hqnd).1
      have hrestnd : rest.Nodup := (List.nodup_cons.mp hqnd).2
      have hcur_no : cur ∉ order := fun h => hdisj h (List.mem_cons_self cur rest)
      have hcur_n : cur < n :=
        h2 cur (List.mem_append_right _ (List.mem_cons_self cur rest))
      obtain ⟨hdeg', hq'⟩ :=
        kahnStep_char ((mapGet rev cur).getD []) deg rest (Hrevnd cur hcur_n)
      have hrl_n : ∀ y ∈ (mapGet rev cur).getD [], y < n := Hrtgt cur hcur_n
      have hy_fwd : ∀ y ∈ (mapGet rev cur).getD [], cur ∈ fwd y :=
        fun y hy => (Hmut y (hrl_n y hy) cur hcur_n).mpr hy
      have hN_mem : ∀ y, y ∈ ((mapGet rev cur).getD []).filter
          (fun y => ((mapGet deg y).getD 0) - 1 == 0) →
          y ∈ (mapGet rev cur).getD [] ∧ (mapGet deg y).getD 0 = 1 := by
        intro y hy
        rcases List.mem_filter.mp hy with ⟨hy1, hy2⟩
        refine ⟨hy1, ?_⟩
        have := beq_iff_eq.mp hy2
        omega
      have hN_not_order : ∀ y, y ∈ ((mapGet rev cur).getD []).filter
          (fun y => ((mapGet deg y).getD 0) - 1 == 0) → y ∉ order := by
        intro y hy hyo
        exact hcur_no (h6 y hyo cur (hy_fwd y (hN_mem y hy).1)).1
      have hN_not_queue : ∀ y, y ∈ ((mapGet rev cur).getD []).filter
          (fun y => ((mapGet deg y).getD 0) - 1 == 0) → y ∉ cur :: rest := by
        intro y hy hyq
        have hyn : y < n := hrl_n y (hN_mem y hy).1
        have hfsub : ∀ v ∈ fwd y, (order.contains v) = true :=
          fun v hv => (List.elem_iff).mpr (h4 y hyq v hv)
        have hcount : (fwd y).countP (fun v => order.contains v) = (fwd y).length :=
          List.countP_eq_length.mpr hfsub
        have : (mapGet deg y).getD 0 = 0 := by
          rw [h3 y hyn, hcount]
          omega
        have h1' := (hN_mem y hy).2
        omega
      have hN_nodup : (((mapGet rev cur).getD []).filter
          (fun y => ((mapGet deg y).getD 0) - 1 == 0)).Nodup :=
        (Hrevnd cur hcur_n).filter _
      have hunf : kahnLoop rev (fuel + 1) (cur :: rest) deg order =
          kahnLoop rev fuel
            ((((mapGet rev cur).getD []).foldl
              (fun (acc : List (Nat × Int) × List Nat) dependent =>
                let newDegree := ((mapGet acc.1 dependent).getD 0) - 1
                (mapSet acc.1 dependent newDegree,
                 if newDegree == 0 then acc.2 ++ [dependent] else acc.2))
              (deg, rest)).2)
            ((((mapGet rev cur).getD []).foldl
              (fun (acc : List (Nat × Int) × List Nat) dependent =>
                let newDegree := ((mapGet acc.1 dependent).getD 0) - 1
                (mapSet acc.1 dependent newDegree,
                 if newDegree == 0 then acc.2 ++ [dependent] else acc.2))
              (deg, rest)).1)
            (order ++ [cur]) := rfl
      rw [hunf, hq']
      refine ih (rest ++ ((mapGet rev cur).getD []).filter
          (fun y => ((mapGet deg y).getD 0) - 1 == 0)) _ (order ++ [cur])
        ?_ ?_ ?_ ?_ ?_ ?_ ?_
      · rw [List.length_append, List.length_singleton]
        omega
      · -- nodup of (order ++ [cur]) ++ (rest ++ N)
        rw [List.nodup_append]
        refine ⟨?_, ?_, ?_⟩
        · rw [List.nodup_append]
          refine ⟨hond, List.nodup_singleton cur, ?_⟩
          intro a ha hb
          rw [List.mem_singleton.mp hb] at ha
          exact hcur_no ha
        · rw [List.nodup_append]
          refine ⟨hrestnd, hN_nodup, ?_⟩
          intro a ha hb
          exact hN_not_queue a hb (List.mem_cons_of_mem cur ha)
        · intro a ha hb
          rcases List.mem_append.mp ha with ha1 | ha1
          · rcases List.mem_append.mp hb with hb1 | hb1
            · exact hdisj ha1 (List.mem_cons_of_mem cur hb1)
            · exact hN_not_order a hb1 ha1
          · rw [List.mem_singleton.mp ha1] at hb
            rcases List.mem_append.mp hb with hb1 | hb1
            · exact hcur_rest hb1
            · exact hN_not_queue cur hb1 (List.mem_cons_self cur rest)
      · -- bounds
        intro x hx
        rcases List.mem_append.mp hx with hx1 | hx1
        · rcases List.mem_append.mp hx1 with hx2 | hx2
          · exact h2 x (List.mem_append_left _ hx2)
          · rw [List.mem_singleton.mp hx2]
            exact hcur_n
        · rcases List.mem_append.mp hx1 with hx2 | hx2
          · exact h2 x (List.mem_append_right _ (List.mem_cons_of_mem cur hx2))
          · exact hrl_n x (List.mem_filter.mp hx2).1
      · -- degree characterization over order ++ [cur]
        intro x hx
        rw [hdeg' x, h3 x hx,
          countP_contains_append_singleton order cur hcur_no (fwd x) (Hfwdnd x hx)]
        by_cases hxf : cur ∈ fwd x
        · rw [if_pos ((Hmut x hx cur hcur_n).mp hxf), if_pos hxf]
          push_cast
          omega
        · rw [if_neg (fun hh => hxf ((Hmut x hx cur hcur_n).mpr hh)), if_neg hxf]
          push_cast
          omega
      · -- queue elements have their dependencies in the order
        intro x hx v hv
        rcases List.mem_append.mp hx with hx1 | hx1
        · exact List.mem_append_left _ (h4 x (List.mem_cons_of_mem cur hx1) v hv)
        · have hxrl : x ∈ (mapGet rev cur).getD [] := (List.mem_filter.mp hx1).1
          have hxn : x < n := hrl_n x hxrl
          have hdeg1 : (mapGet deg x).getD 0 = 1 := (hN_mem x hx1).2
          have hcle : (fwd x).countP (fun v => order.contains v) ≤ (fwd x).length :=
            List.countP_le_length _
          have hlen : (fwd x).length =
              (fwd x).countP (fun v => order.contains v) + 1 := by
            have h3x := h3 x hxn
            rw [hdeg1] at h3x
            omega
          have hcnt : (fwd x).countP (fun v => (order ++ [cur]).contains v) =
              (fwd x).length := by
            rw [countP_contains_append_singleton order cur hcur_no (fwd x) (Hfwdnd x hxn),
              if_pos (hy_fwd x hxrl)]
            omega
          exact (List.elem_iff).mp (List.countP_eq_length.mp hcnt v hv)
      · -- nonzero degree for untouched nodes
        intro x hx hxo hxq
        have hxo' : x ∉ order := fun h => hxo (List.mem_append_left _ h)
        have hxc : x ≠ cur := fun h =>
          hxo (List.mem_append_right _ (by rw [h]; exact List.mem_singleton.mpr rfl))
        have hxr : x ∉ rest := fun h => hxq (List.mem_append_left _ h)
        have hxN : x ∉ ((mapGet rev cur).getD []).filter
            (fun y => ((mapGet deg y).getD 0) - 1 == 0) :=
          fun h => hxq (List.mem_append_right _ h)
        rw [hdeg' x]
        by_cases hxrl : x ∈ (mapGet rev cur).getD []
        · rw [if_pos hxrl]
          intro hz
          exact hxN (List.mem_filter.mpr ⟨hxrl, beq_iff_eq.mpr hz⟩)
        · rw [if_neg hxrl, sub_zero]
          exact h5 x hx hxo' (fun h => by
            rcases List.mem_cons.mp h with h2 | h2
            · exact hxc h2
            · exact hxr h2)
      · -- precedence within the grown order
        intro x hx v hv
        rcases List.mem_append.mp hx with hx1 | hx1
        · obtain ⟨hvo, hidx⟩ := h6 x hx1 v hv
          refine ⟨List.mem_append_left _ hvo, ?_⟩
          rw [List.indexOf_append_of_mem hvo, List.indexOf_append_of_mem hx1]
          exact hidx
        · have hxc : x = cur := List.mem_singleton.mp hx1
          subst hxc
          have hvo : v ∈ order := h4 x (List.mem_cons_self x rest) v hv
          refine ⟨List.mem_append_left _ hvo, ?_⟩
          rw [List.indexOf_append_of_mem hvo, List.indexOf_append_of_not_mem hcur_no]
          have hlt : order.indexOf v < order.length := List.indexOf_lt_length.mpr hvo
          have hz : List.indexOf x [x] = 0 := List.indexOf_cons_self x []
          omega

end Syke

namespace Syke

/-- Claim C6: on a well-formed acyclic condensed DAG (adjacency keyed by
exactly the SCC indices, duplicate-free mutually-adjacent lists with
in-range targets, acyclicity witnessed by a rank function decreasing along
forward edges — as condensation of the SCC quotient guarantees),
`topologicalSort` returns a permutation of all SCC indices in which
dependencies come before dependents: for every condensed forward edge u→v,
v appears in the order strictly before u. -/
theorem topologicalSort_linearizes (dag : CondensedDAG) (rank : Nat → Nat)
    (hfk : dag.forward.map Prod.fst = List.range dag.nodes.length)
    (hfnd : ∀ u, u < dag.nodes.length → ((mapGet dag.forward u).getD []).Nodup)
    (hrnd : ∀ v, v < dag.nodes.length → ((mapGet dag.reverse v).getD []).Nodup)
    (hmut : ∀ u, u < dag.nodes.length → ∀ v, v < dag.nodes.length →
      (v ∈ (mapGet dag.forward u).getD [] ↔ u ∈ (mapGet dag.reverse v).getD []))
    (hftgt : ∀ u, u < dag.nodes.length →
      ∀ v ∈ (mapGet dag.forward u).getD [], v < dag.nodes.length)
    (hrtgt : ∀ v, v < dag.nodes.length →
      ∀ u ∈ (mapGet dag.reverse v).getD [], u < dag.nodes.length)
    (hrank : ∀ u, u < dag.nodes.length →
      ∀ v ∈ (mapGet dag.forward u).getD [], rank v < rank u) :
    (topologicalSort dag).Perm (List.range dag.nodes.length) ∧
    (∀ u, u < dag.nodes.length → ∀ v ∈ (mapGet dag.forward u).getD [],
      (topologicalSort dag).indexOf v < (topologicalSort dag).indexOf u) := by
  by_cases hn : dag.nodes.length = 0
  · have hts0 : topologicalSort dag = [] := by
      unfold topologicalSort
      dsimp only
      rw [show (dag.nodes.length == 0) = true from beq_iff_eq.mpr hn, if_pos rfl]
    constructor
    · rw [hts0, hn]
      exact List.Perm.nil
    · intro u hu v hv
      rw [hn] at hu
      exact absurd hu (Nat.not_lt_zero u)
  · have hkeysnd : ((initInDegree dag).map Prod.fst).Nodup := by
      rw [initInDegree_keys dag hfk]
      exact List.nodup_range _
    have hq0sub : List.Sublist
        (((initInDegree dag).filter (fun p => p.2 == 0)).map Prod.fst)
        ((initInDegree dag).map Prod.fst) :=
      List.Sublist.map _ (List.filter_sublist _)
    have hpost := kahnLoop_post dag.nodes.length
      (fun u => (mapGet dag.forward u).getD []) dag.reverse rank
      hfnd hftgt hrtgt hrnd hmut hrank (kahnFuel dag)
      (((initInDegree dag).filter (fun p => p.2 == 0)).map Prod.fst)
      (initInDegree dag) []
      (by unfold kahnFuel; simp)
      (by
        have := hq0sub.nodup hkeysnd
        simpa using this)
      (by
        intro x hx
        rw [List.nil_append] at hx
        have : x ∈ (initInDegree dag).map Prod.fst := hq0sub.subset hx
        rw [initInDegree_keys dag hfk] at this
        exact List.mem_range.mp this)
      (by
        intro x hx
        dsimp only
        rw [initInDegree_val dag hfk x hx]
        have h0 : ((mapGet dag.forward x).getD []).countP
            (fun v => ([] : List Nat).contains v) = 0 :=
          List.countP_eq_zero.mpr (fun a _ => by simp)
        rw [h0]
        omega)
      (by
        intro x hx v hv
        dsimp only at hv
        exfalso
        rcases List.mem_map.mp hx with ⟨p, hpf, hpx⟩
        rcases List.mem_filter.mp hpf with ⟨hpd, hp0⟩
        have hp0' : p.2 = 0 := beq_iff_eq.mp hp0
        have hget : mapGet (initInDegree dag) x = some p.2 :=
          mapGet_of_mem_nodup _ x p.2 hkeysnd (by rw [← hpx]; exact hpd)
        have hxn : x < dag.nodes.length := by
          have := mapGet_some_mem_keys _ x p.2 hget
          rw [initInDegree_keys dag hfk] at this
          exact List.mem_range.mp this
        have hval := initInDegree_val dag hfk x hxn
        rw [hget] at hval
        have hlen0 : ((mapGet dag.forward x).getD []).length = 0 := by
          simp only [Option.getD_some] at hval
          omega
        rw [List.length_eq_zero.mp hlen0] at hv
        cases hv)
      (by
        intro x hx _ hxq hz
        have hxk : x ∈ (initInDegree dag).map Prod.fst := by
          rw [initInDegree_keys dag hfk]
          exact List.mem_range.mpr hx
        rcases List.mem_map.mp hxk with ⟨p, hpd, hpx⟩
        have hget : mapGet (initInDegree dag) x = some p.2 :=
          mapGet_of_mem_nodup _ x p.2 hkeysnd (by rw [← hpx]; exact hpd)
        have hp2 : p.2 = 0 := by
          rw [hget] at hz
          simpa using hz
        exact hxq (List.mem_map.mpr
          ⟨p, List.mem_filter.mpr ⟨hpd, beq_iff_eq.mpr hp2⟩, hpx⟩))
      (by
        intro x hx
        cases hx)
    obtain ⟨R1, R2, R3⟩ := hpost
    have hperm : (kahnLoop dag.reverse (kahnFuel dag)
        (((initInDegree dag).filter (fun p => p.2 == 0)).map Prod.fst)
        (initInDegree dag) []).Perm (List.range dag.nodes.length) :=
      (List.perm_ext_iff_of_nodup R1 (List.nodup_range _)).mpr
        (fun a => by rw [List.mem_range]; exact R2 a)
    have hlen : (kahnLoop dag.reverse (kahnFuel dag)
        (((initInDegree dag).filter (fun p => p.2 == 0)).map Prod.fst)
        (initInDegree dag) []).length = dag.nodes.length := by
      have := hperm.length_eq
      simpa using this
    have hts : topologicalSort dag = kahnLoop dag.reverse (kahnFuel dag)
        (((initInDegree dag).filter (fun p => p.2 == 0)).map Prod.fst)
        (initInDegree dag) [] := by
      unfold topologicalSort
      dsimp only
      rw [show (dag.nodes.length == 0) = false from beq_eq_false_iff_ne.mpr hn,
        if_neg Bool.false_ne_true,
        show ((kahnLoop dag.reverse (kahnFuel dag)
          (((initInDegree dag).filter (fun p => p.2 == 0)).map Prod.fst)
          (initInDegree dag) []).length == dag.nodes.length) = true from
          beq_iff_eq.mpr hlen,
        if_pos rfl]
    constructor
    · rw [hts]
      exact hperm
    · intro u hu v hv
      rw [hts]
      exact R3 u ((R2 u).mpr hu) v hv

end Syke

namespace Syke

/-- Witness for claim C6 at a concrete input: the condensed DAG Tarjan +
condensation produce for the chain `a → b → c`, with the SCC index itself
as the rank function. -/
theorem topologicalSort_linearizes_witness :
    (topologicalSort (computeSCC chainGraphBase).condensed).Perm
      (List.range (computeSCC chainGraphBase).condensed.nodes.length) ∧
    (∀ u, u < (computeSCC chainGraphBase).condensed.nodes.length →
      ∀ v ∈ (mapGet (computeSCC chainGraphBase).condensed.forward u).getD [],
        (topologicalSort (computeSCC chainGraphBase).condensed).indexOf v <
          (topologicalSort (computeSCC chainGraphBase).condensed).indexOf u) :=
  topologicalSort_linearizes (computeSCC chainGraphBase).condensed (fun i => i)
    (by decide) (by decide) (by decide) (by decide) (by decide) (by decide) (by decide)

end Syke
